import Mathlib

/-!
# Verification of the parallel radix-sort engine

Shallow embedding of the repository's parallel MSD/LSD radix sort engine:

* `shadow_set.hpp` : `DummyDataSet` / `ShadowDataPtr` (double-buffered
  "shadow" memory descriptors with `sub` / `flip` / `copy_back`),
* `msd_parallel_radixsort.hpp` : `RadixStep_CI`, `SmallsortJob::run`,
  `BigRadixStepCE` (count / snake prefix sum / distribute /
  distribute_finished), `PRSContext` (`sequential_threshold`, `enqueue`),
  and the `radix_sort` frontend,
* `lsd_radix_sort_prefix.hpp` : the three parallel LSD variants.

The two physical element buffers (the caller's array and the shadow
allocation of equal size) are modelled as two `List α` held in a `Mem`
record; iterators are (buffer, absolute index) pairs.  The thread pool is
modelled by sequential execution of the job queue: concurrently running
jobs operate on disjoint ranges by construction, so a sequential schedule
is a faithful semantics of the data flow.  The racy `has_idle()` signal is
an oracle parameter (`Nat → Bool`).
-/

namespace PRS

/-! ## Memory model: the two physical buffers

`radix_sort_params` allocates one shadow array of the same length as the
input (`Type *shadow = new Type[ctx.totalsize]`).  `Mem` holds both
physical buffers; `false` names the caller's original buffer, `true` the
shadow allocation. -/

structure Mem (α : Type*) where
  orig : List α
  shad : List α
  deriving Repr, DecidableEq

variable {α : Type*}

/-- Contents of one physical buffer. -/
def Mem.buf (m : Mem α) (b : Bool) : List α :=
  if b then m.shad else m.orig

/-- Read a cell of a physical buffer (`default` out of range). -/
def Mem.read [Inhabited α] (m : Mem α) (b : Bool) (i : Nat) : α :=
  (m.buf b).getD i default

/-- Write one cell of a physical buffer. -/
def Mem.write (m : Mem α) (b : Bool) (i : Nat) (v : α) : Mem α :=
  if b then { m with shad := m.shad.set i v }
  else { m with orig := m.orig.set i v }

@[simp] theorem Mem.buf_write (m : Mem α) (b c : Bool) (i : Nat) (v : α) :
    (m.write b i v).buf c = if c = b then (m.buf c).set i v else m.buf c := by
  cases b <;> cases c <;> simp [Mem.write, Mem.buf]

theorem Mem.read_write [Inhabited α] (m : Mem α) (b c : Bool) (i j : Nat) (v : α)
    (hj : j < (m.buf c).length) :
    (m.write b i v).read c j =
      if c = b ∧ j = i then v else m.read c j := by
  unfold Mem.read
  rw [Mem.buf_write]
  by_cases hc : c = b
  · subst hc
    simp only [if_pos rfl, true_and]
    by_cases hij : j = i
    · subst hij
      simp [List.getD, List.getElem?_set_self, hj]
    · simp [List.getD, List.getElem?_set_ne (fun h => hij h.symm), hij]
  · simp [hc]

@[simp] theorem Mem.length_buf_write (m : Mem α) (b c : Bool) (i : Nat) (v : α) :
    ((m.write b i v).buf c).length = (m.buf c).length := by
  rw [Mem.buf_write]; split <;> simp

/-! ## `DummyDataSet` (shadow_set.hpp)

```cpp
DummyDataSet(Iterator begin, Iterator end) : begin_(begin), end_(end) {}
size_t size() const { return end_ - begin_; }
DummyDataSet subi(size_t offset, size_t sub_size) const {
    return DummyDataSet(begin_ + offset, begin_ + sub_size); }
```

An `Iterator` is an absolute index into one physical buffer; both
iterators of one data set point into the same buffer, so the set is
(buffer, begin index, end index). -/

structure MDataSet where
  buf : Bool
  first : Nat
  last : Nat
  deriving Repr, DecidableEq, Inhabited

/-- `size() = end_ - begin_`. -/
def MDataSet.size (d : MDataSet) : Nat := d.last - d.first

/-- `subi(offset, sub_size) = (begin_ + offset, begin_ + sub_size)`. -/
def MDataSet.subi (d : MDataSet) (offset subSize : Nat) : MDataSet :=
  ⟨d.buf, d.first + offset, d.first + subSize⟩

/-- The list of elements a data set currently denotes in memory. -/
def MDataSet.toList (m : Mem α) (d : MDataSet) : List α :=
  ((m.buf d.buf).drop d.first).take d.size

/-! ## `ShadowDataPtr` (shadow_set.hpp) -/

structure SDP where
  active : MDataSet
  shadow : MDataSet
  flipped : Bool
  deriving Repr, DecidableEq, Inhabited

/-- `size() const { return active_.size(); }` -/
def SDP.size (p : SDP) : Nat := p.active.size

/-- `sub(offset, sub_size)`: advance both pointers, no flip:
`ShadowDataPtr(active_.subi(offset, offset+sub_size),
shadow_.subi(offset, offset+sub_size), flipped_)`. -/
def SDP.sub (p : SDP) (offset subSize : Nat) : SDP :=
  ⟨p.active.subi offset (offset + subSize),
   p.shadow.subi offset (offset + subSize), p.flipped⟩

/-- `flip(offset, sub_size)`: sub-array with flipping to the other array:
`ShadowDataPtr(shadow_.subi(..), active_.subi(..), !flipped_)`. -/
def SDP.flip (p : SDP) (offset subSize : Nat) : SDP :=
  ⟨p.shadow.subi offset (offset + subSize),
   p.active.subi offset (offset + subSize), !p.flipped⟩

/-- `std::move(first, last, d_first)`: copy the `n` source cells onto the
destination cells, left to right (reads go through the partially updated
memory, exactly like the C++ sequential move). -/
def moveRange [Inhabited α] (m : Mem α) (src dst : MDataSet) : Mem α :=
  (List.range src.size).foldl
    (fun mm i => mm.write dst.buf (dst.first + i) (mm.read src.buf (src.first + i))) m

/-- `copy_back()`: if not flipped return `*this` unchanged; otherwise
`std::move(active_.begin(), active_.end(), shadow_.begin())` and return
`ShadowDataPtr(shadow_, active_, !flipped_)`.  The memory effect is made
explicit. -/
def SDP.copy_back [Inhabited α] (p : SDP) (m : Mem α) : SDP × Mem α :=
  if p.flipped = false then (p, m)
  else (⟨p.shadow, p.active, !p.flipped⟩, moveRange m p.active p.shadow)

@[simp] theorem SDP.size_sub (p : SDP) (o s : Nat) : (p.sub o s).size = s := by
  simp only [SDP.sub, SDP.size, MDataSet.subi, MDataSet.size]; omega

@[simp] theorem SDP.size_flip (p : SDP) (o s : Nat) : (p.flip o s).size = s := by
  simp only [SDP.flip, SDP.size, MDataSet.subi, MDataSet.size]; omega

/-! ## Descriptors derived from the top-level buffer

`radix_sort_params` constructs the single top-level descriptor
`ShadowDataPtr(begin, end, shadow_begin, shadow_begin + totalsize)` over a
range of `N` elements; every descriptor the engine ever handles arises
from it by `sub` and `flip` (each applied within bounds, as the
`assert(offset + sub_size <= size())` in the source demands). -/

inductive Derived (N : Nat) : SDP → Prop
  | top : Derived N ⟨⟨false, 0, N⟩, ⟨true, 0, N⟩, false⟩
  | sub (p : SDP) (o s : Nat) : Derived N p → o + s ≤ p.size → Derived N (p.sub o s)
  | flip (p : SDP) (o s : Nat) : Derived N p → o + s ≤ p.size → Derived N (p.flip o s)

/-- Structural invariant of derived descriptors: the active range lies in
the original buffer iff the descriptor is unflipped, the shadow range in
the other buffer, and both ranges cover the same index interval, inside
`[0, N)`. -/
theorem Derived.invariant {N : Nat} {p : SDP} (h : Derived N p) :
    p.active.buf = p.flipped ∧ p.shadow.buf = !p.flipped ∧
    p.active.first = p.shadow.first ∧ p.active.last = p.shadow.last ∧
    p.active.first ≤ p.active.last ∧ p.active.last ≤ N := by
  induction h with
  | top => simp
  | sub q o s _ hos ih =>
    obtain ⟨h1, h2, h3, h4, h5, h6⟩ := ih
    refine ⟨h1, h2, ?_, ?_, ?_, ?_⟩ <;>
      simp only [SDP.sub, MDataSet.subi] <;>
      simp only [SDP.size, MDataSet.size] at hos <;> omega
  | flip q o s _ hos ih =>
    obtain ⟨h1, h2, h3, h4, h5, h6⟩ := ih
    refine ⟨?_, ?_, ?_, ?_, ?_, ?_⟩ <;>
      simp only [SDP.flip, MDataSet.subi, h1, h2, Bool.not_not] <;>
      simp only [SDP.size, MDataSet.size] at hos <;> omega

theorem Mem.buf_write_ne (m : Mem α) {b c : Bool} (h : c ≠ b) (i : Nat) (v : α) :
    (m.write b i v).buf c = m.buf c := by rw [Mem.buf_write, if_neg h]

/-- The partial move of the first `n` source cells (`moveRange` is the
case `n = src.size`). -/
def movePre [Inhabited α] (m : Mem α) (src dst : MDataSet) (n : Nat) : Mem α :=
  (List.range n).foldl
    (fun mm i => mm.write dst.buf (dst.first + i) (mm.read src.buf (src.first + i))) m

theorem moveRange_eq_movePre [Inhabited α] (m : Mem α) (src dst : MDataSet) :
    moveRange m src dst = movePre m src dst src.size := rfl

theorem movePre_succ [Inhabited α] (m : Mem α) (src dst : MDataSet) (n : Nat) :
    movePre m src dst (n + 1) =
      (movePre m src dst n).write dst.buf (dst.first + n)
        ((movePre m src dst n).read src.buf (src.first + n)) := by
  unfold movePre
  rw [List.range_succ, List.foldl_append, List.foldl_cons, List.foldl_nil]

theorem movePre_buf_ne [Inhabited α] (m : Mem α) (src dst : MDataSet) (n : Nat)
    {c : Bool} (hc : c ≠ dst.buf) : (movePre m src dst n).buf c = m.buf c := by
  induction n with
  | zero => rfl
  | succ k ih => rw [movePre_succ, Mem.buf_write_ne _ hc, ih]

theorem movePre_length_buf [Inhabited α] (m : Mem α) (src dst : MDataSet) (n : Nat)
    (c : Bool) : ((movePre m src dst n).buf c).length = (m.buf c).length := by
  induction n with
  | zero => rfl
  | succ k ih => rw [movePre_succ, Mem.length_buf_write, ih]

theorem movePre_read_dst [Inhabited α] (m : Mem α) (src dst : MDataSet)
    (hbuf : src.buf ≠ dst.buf) (n : Nat)
    (hlen : ∀ j < n, dst.first + j < (m.buf dst.buf).length) :
    ∀ i < n, (movePre m src dst n).read dst.buf (dst.first + i) =
      m.read src.buf (src.first + i) := by
  induction n with
  | zero => intro i hi; omega
  | succ k ih =>
    intro i hi
    rw [movePre_succ, Mem.read_write]
    · rcases Nat.lt_succ_iff_lt_or_eq.mp hi with hik | hik
      · rw [if_neg (by omega), ih (fun j hj => hlen j (by omega)) i hik]
      · subst hik
        rw [if_pos ⟨rfl, rfl⟩]
        unfold Mem.read
        rw [movePre_buf_ne m src dst i hbuf]
    · rw [movePre_length_buf]
      exact hlen i hi

/-- **C4.** `copy_back()` on any descriptor derived from the top-level
buffer returns an unflipped descriptor whose active range lies in the
original (non-shadow) buffer and holds exactly the logically-active data;
on an already-unflipped receiver it returns the receiver and the memory
unchanged. -/
theorem copy_back_spec {α : Type*} [Inhabited α] {N : Nat} {p : SDP}
    (hd : Derived N p) (m : Mem α)
    (hlo : m.orig.length = N) (hls : m.shad.length = N) :
    (p.copy_back m).1.flipped = false ∧
    (p.copy_back m).1.active.buf = false ∧
    (p.copy_back m).1.size = p.size ∧
    (∀ i < p.size,
      (p.copy_back m).2.read false ((p.copy_back m).1.active.first + i) =
        m.read p.active.buf (p.active.first + i)) ∧
    (p.flipped = false → p.copy_back m = (p, m)) := by
  obtain ⟨h1, h2, h3, h4, h5, h6⟩ := hd.invariant
  by_cases hf : p.flipped = false
  · rw [show p.copy_back m = (p, m) from if_pos hf]
    exact ⟨hf, h1.trans hf, rfl, fun i _ => by rw [h1, hf], fun _ => rfl⟩
  · have hft : p.flipped = true := by revert hf; cases p.flipped <;> simp
    have hcb : p.copy_back m =
        (⟨p.shadow, p.active, !p.flipped⟩, moveRange m p.active p.shadow) := by
      unfold SDP.copy_back
      rw [if_neg hf]
    rw [hcb]
    have hsb : p.shadow.buf = false := by rw [h2, hft]; rfl
    have hab : p.active.buf = true := by rw [h1, hft]
    have hbufne : p.active.buf ≠ p.shadow.buf := by rw [hsb, hab]; simp
    have hlenbuf : (m.buf p.shadow.buf).length = N := by
      rw [hsb]; simpa [Mem.buf] using hlo
    have hsize : p.shadow.size = p.size := by
      simp only [MDataSet.size, SDP.size]; omega
    refine ⟨by simp [hft], hsb, by simp [SDP.size, hsize], ?_, fun h => absurd h hf⟩
    intro i hi
    rw [moveRange_eq_movePre]
    have := movePre_read_dst m p.active p.shadow hbufne p.active.size
      (fun j hj => by
        rw [hlenbuf]
        simp only [MDataSet.size] at hj
        omega) i hi
    rw [← hsb]
    exact this

/-- Witness for C4 at a concrete instance: the top-level descriptor over
two elements, flipped once, with concrete memory contents. -/
theorem copy_back_spec_witness :
    (Derived 2 ((⟨⟨false, 0, 2⟩, ⟨true, 0, 2⟩, false⟩ : SDP).flip 0 2) ∧
      ([10, 20] : List Nat).length = 2 ∧ ([30, 40] : List Nat).length = 2) ∧
    (((⟨⟨false, 0, 2⟩, ⟨true, 0, 2⟩, false⟩ : SDP).flip 0 2).copy_back
        (⟨[10, 20], [30, 40]⟩ : Mem Nat)).1.flipped = false := by
  have hd : Derived 2 ((⟨⟨false, 0, 2⟩, ⟨true, 0, 2⟩, false⟩ : SDP).flip 0 2) :=
    Derived.flip _ 0 2 Derived.top (by simp [SDP.size, MDataSet.size])
  exact ⟨⟨hd, rfl, rfl⟩,
    (copy_back_spec hd (⟨[10, 20], [30, 40]⟩ : Mem Nat) rfl rfl).1⟩

/-! ## Counting and distribution loops

These model the loops shared (in shape) by `RadixStep_CI`,
`BigRadixStepCE::count/distribute` and the LSD passes:

* the counting loop `++bktsize[key(*i)]`,
* the exclusive prefix sum `bkt[i] = bkt[i-1] + bktsize[i-1]`,
* the distribution loop `target[cursor[key(*i)]++] = std::move(*i)`.
-/

/-- The counting loop: starting from the zeroed array, bump the cell of
each element's key.  The result is the final histogram function. -/
def histogram (key : α → Nat) (l : List α) : Nat → Nat :=
  l.foldl (fun h v => Function.update h (key v) (h (key v) + 1)) (fun _ => 0)

theorem histogram_foldl (key : α → Nat) (l : List α) (h0 : Nat → Nat) (k : Nat) :
    l.foldl (fun h v => Function.update h (key v) (h (key v) + 1)) h0 k =
      h0 k + l.countP (fun v => decide (key v = k)) := by
  induction l generalizing h0 with
  | nil => simp
  | cons v t ih =>
    rw [List.foldl_cons, ih, List.countP_cons]
    by_cases hk : key v = k
    · subst hk; simp [Function.update]; omega
    · simp [Function.update, hk, Ne.symm hk]

theorem histogram_eq_countP (key : α → Nat) (l : List α) (k : Nat) :
    histogram key l k = l.countP (fun v => decide (key v = k)) := by
  unfold histogram; rw [histogram_foldl]; omega

/-- `bkt[0] = 0; for i: bkt[i] = bkt[i-1] + bktsize[i-1]` — the exclusive
prefix sum written as the loop's recurrence. -/
def exclScan (sz : Nat → Nat) : Nat → Nat
  | 0 => 0
  | i + 1 => exclScan sz i + sz i

theorem exclScan_mono (sz : Nat → Nat) : Monotone (exclScan sz) := by
  apply monotone_nat_of_le_succ
  intro i
  simp [exclScan]

theorem exclScan_eq_sum (sz : Nat → Nat) (i : Nat) :
    exclScan sz i = ∑ k ∈ Finset.range i, sz k := by
  induction i with
  | zero => rfl
  | succ j ih => rw [exclScan, ih, Finset.sum_range_succ]

theorem sum_countP_eq_length (key : α → Nat) (l : List α) (R : Nat)
    (hk : ∀ v ∈ l, key v < R) :
    ∑ k ∈ Finset.range R, l.countP (fun v => decide (key v = k)) = l.length := by
  induction l with
  | nil => simp
  | cons v t ih =>
    simp only [List.countP_cons, List.length_cons]
    rw [Finset.sum_add_distrib, ih (fun w hw => hk w (List.mem_cons_of_mem v hw))]
    have h1 : (∑ k ∈ Finset.range R, if decide (key v = k) = true then 1 else 0) = 1 := by
      simp only [decide_eq_true_eq]
      rw [Finset.sum_ite_eq (Finset.range R) (key v) (fun _ => 1)]
      simp [Finset.mem_range.mpr (hk v (List.mem_cons_self v t))]
    omega

/-- Total key count: if every key of `l` is `< R`, the histogram cells
`0 .. R-1` sum to the length of `l`. -/
theorem exclScan_histogram_total (key : α → Nat) (l : List α) (R : Nat)
    (hk : ∀ v ∈ l, key v < R) :
    exclScan (histogram key l) R = l.length := by
  rw [exclScan_eq_sum]
  rw [Finset.sum_congr rfl (fun k _ => histogram_eq_countP key l k)]
  exact sum_countP_eq_length key l R hk

/-- The distribution loop over a target list: each element is written at
its key's cursor, which is then post-incremented
(`target[cursor[key]++] = std::move(*i)`).  Returns final cursors and the
updated target. -/
def scatter (key : α → Nat) : List α → (Nat → Nat) → List α → (Nat → Nat) × List α
  | [], c, t => (c, t)
  | v :: l, c, t =>
      scatter key l (Function.update c (key v) (c (key v) + 1)) (t.set (c (key v)) v)

theorem scatter_length (key : α → Nat) (l : List α) (c : Nat → Nat) (t : List α) :
    (scatter key l c t).2.length = t.length := by
  induction l generalizing c t with
  | nil => rfl
  | cons v l ih => rw [scatter, ih]; simp

theorem scatter_final_cursor (key : α → Nat) (l : List α) (c : Nat → Nat)
    (t : List α) (k : Nat) :
    (scatter key l c t).1 k = c k + l.countP (fun v => decide (key v = k)) := by
  induction l generalizing c t with
  | nil => simp [scatter]
  | cons v l ih =>
    rw [scatter, ih, List.countP_cons]
    by_cases hk : key v = k
    · subst hk; simp [Function.update]; omega
    · simp [Function.update, hk, Ne.symm hk]

/-- Number of elements of `l` whose key is `k`. -/
def keyCount (key : α → Nat) (l : List α) (k : Nat) : Nat :=
  l.countP (fun v => decide (key v = k))

/-- The elements of `l` whose key is `k`, in order. -/
def keyFilter (key : α → Nat) (l : List α) (k : Nat) : List α :=
  l.filter (fun v => decide (key v = k))

theorem histogram_eq_keyCount (key : α → Nat) (l : List α) :
    histogram key l = keyCount key l := by
  funext k; exact histogram_eq_countP key l k

theorem getD_set_ne [Inhabited α] (t : List α) (i p : Nat) (v : α) (h : p ≠ i) :
    (t.set i v).getD p default = t.getD p default := by
  simp [List.getD_eq_getElem?_getD, List.getElem?_set_ne (Ne.symm h)]

theorem getD_set_self [Inhabited α] (t : List α) (i : Nat) (v : α) (h : i < t.length) :
    (t.set i v).getD i default = v := by
  simp [List.getD_eq_getElem?_getD, List.getElem?_set_self, h]

theorem Mem.read_write_ne [Inhabited α] (m : Mem α) (b c : Bool) (i j : Nat)
    (v : α) (h : ¬(c = b ∧ j = i)) : (m.write b i v).read c j = m.read c j := by
  unfold Mem.read
  rw [Mem.buf_write]
  by_cases hc : c = b
  · rw [if_pos hc]
    exact getD_set_ne _ _ _ _ (fun hj => h ⟨hc, hj⟩)
  · rw [if_neg hc]

theorem Mem.read_write_self [Inhabited α] (m : Mem α) (b : Bool) (i : Nat)
    (v : α) (h : i < (m.buf b).length) : (m.write b i v).read b i = v := by
  unfold Mem.read
  rw [Mem.buf_write, if_pos rfl]
  exact getD_set_self _ _ _ h

/-- Core distribution lemma.  If the cursor of each key starts at the
base of a region large enough for that key's elements, and the regions
are ordered (hence disjoint), then the distribution loop
(1) leaves every cell outside all regions unchanged, and
(2) fills region `k` with exactly the elements of key `k`, in order. -/
theorem scatter_spec [Inhabited α] (key : α → Nat) (l : List α) (c : Nat → Nat)
    (t : List α)
    (hord : ∀ j k, j < k → c j + keyCount key l j ≤ c k)
    (hbound : ∀ k, keyCount key l k ≠ 0 → c k + keyCount key l k ≤ t.length) :
    (∀ p, (∀ k, ¬(c k ≤ p ∧ p < c k + keyCount key l k)) →
        (scatter key l c t).2.getD p default = t.getD p default) ∧
    (∀ k i, i < keyCount key l k →
        (scatter key l c t).2.getD (c k + i) default =
          (keyFilter key l k).getD i default) := by
  induction l generalizing c t with
  | nil =>
    refine ⟨fun p _ => rfl, fun k i hi => ?_⟩
    simp [keyCount] at hi
  | cons v l ih =>
    have hcnt : ∀ k, keyCount key (v :: l) k =
        keyCount key l k + (if key v = k then 1 else 0) := by
      intro k
      simp only [keyCount, List.countP_cons]
      by_cases h : key v = k <;> simp [h]
    have hcnt_self : keyCount key (v :: l) (key v) = keyCount key l (key v) + 1 := by
      rw [hcnt]; simp
    have hcnt_ne : ∀ k, key v ≠ k → keyCount key (v :: l) k = keyCount key l k := by
      intro k h; rw [hcnt, if_neg h]; omega
    set c' := Function.update c (key v) (c (key v) + 1) with hc'
    set t' := t.set (c (key v)) v with ht'
    have hc'v : c' (key v) = c (key v) + 1 := by rw [hc']; simp
    have hc'ne : ∀ k, k ≠ key v → c' k = c k := by
      intro k h; rw [hc']; simp [Function.update, h]
    have hlen' : t'.length = t.length := by rw [ht']; simp
    have hord' : ∀ j k, j < k → c' j + keyCount key l j ≤ c' k := by
      intro j k hjk
      by_cases hj : j = key v
      · subst hj
        have h1 := hord (key v) k hjk
        rw [hcnt_self] at h1
        by_cases hk : k = key v
        · rw [hk] at hjk; exact absurd hjk (lt_irrefl _)
        · rw [hc'v, hc'ne k hk]; omega
      · have h0 := hord j k hjk
        rw [hc'ne j hj]
        have h1 : keyCount key l j ≤ keyCount key (v :: l) j := by
          rw [hcnt]; omega
        by_cases hk : k = key v
        · subst hk; rw [hc'v]; omega
        · rw [hc'ne k hk]; omega
    have hbound' : ∀ k, keyCount key l k ≠ 0 →
        c' k + keyCount key l k ≤ t'.length := by
      intro k hk0
      rw [hlen']
      by_cases hk : k = key v
      · subst hk
        rw [hc'v]
        have := hbound (key v) (by rw [hcnt_self]; omega)
        rw [hcnt_self] at this
        omega
      · rw [hc'ne k hk]
        have h1 : keyCount key (v :: l) k ≠ 0 := by
          rw [hcnt_ne k (fun h => hk h.symm)]; exact hk0
        have := hbound k h1
        rw [hcnt_ne k (fun h => hk h.symm)] at this
        omega
    obtain ⟨ihOut, ihIn⟩ := ih c' t' hord' hbound'
    have hvlen : c (key v) < t.length := by
      have := hbound (key v) (by rw [hcnt_self]; omega)
      rw [hcnt_self] at this
      omega
    constructor
    · -- positions outside every region are untouched
      intro p hp
      rw [scatter, ihOut p ?_, ht', getD_set_ne t _ p v ?_]
      · intro hpv
        have := hp (key v)
        rw [hcnt_self] at this
        omega
      · intro k
        intro ⟨ha, hb⟩
        by_cases hk : k = key v
        · subst hk
          have := hp (key v)
          rw [hcnt_self] at this
          rw [hc'v] at ha
          omega
        · rw [hc'ne k hk] at ha hb
          have := hp k
          rw [hcnt_ne k (fun h => hk h.symm)] at this
          omega
    · -- region `k` holds the elements of key `k`, in order
      intro k i hik
      by_cases hk : k = key v
      · subst hk
        have hfil : keyFilter key (v :: l) (key v) =
            v :: keyFilter key l (key v) := by
          simp [keyFilter]
        rw [hfil]
        match i with
        | 0 =>
          rw [scatter]
          rw [ihOut (c (key v) + 0) ?_]
          · rw [Nat.add_zero, ht', getD_set_self t _ v hvlen]
            rfl
          · intro k
            intro ⟨ha, hb⟩
            by_cases hk2 : k = key v
            · subst hk2; rw [hc'v] at ha; omega
            · rw [hc'ne k hk2] at ha hb
              rcases Nat.lt_or_ge k (key v) with hlt | hge
              · have := hord k (key v) hlt
                rw [hcnt_ne k (by omega)] at this
                omega
              · have hgt : key v < k := by omega
                have := hord (key v) k hgt
                rw [hcnt_self] at this
                omega
        | i + 1 =>
          rw [scatter]
          have := ihIn (key v) i (by rw [hcnt_self] at hik; omega)
          rw [hc'v] at this
          rw [show c (key v) + (i + 1) = c (key v) + 1 + i by omega, this]
          rfl
      · rw [hcnt_ne k (fun h => hk h.symm)] at hik
        have hfil : keyFilter key (v :: l) k = keyFilter key l k := by
          simp only [keyFilter, List.filter_cons]
          rw [if_neg (by simpa using fun h => hk h.symm)]
        rw [hfil, scatter]
        have := ihIn k i hik
        rw [hc'ne k hk] at this
        exact this

/-- Recover a list-level slice equality from pointwise `getD` facts. -/
theorem slice_eq_of_getD [Inhabited α] (res l2 : List α) (a n : Nat)
    (hn : l2.length = n) (hb : a + n ≤ res.length)
    (h : ∀ i < n, res.getD (a + i) default = l2.getD i default) :
    (res.drop a).take n = l2 := by
  apply List.ext_getElem
  · simp only [List.length_take, List.length_drop]
    omega
  · intro i h1 h2
    have hi : i < n := by
      simp only [List.length_take, List.length_drop] at h1
      omega
    have hres : a + i < res.length := by omega
    have := h i hi
    rw [List.getElem_take, List.getElem_drop]
    rw [List.getD_eq_getElem?_getD, List.getD_eq_getElem?_getD] at this
    rw [List.getElem?_eq_getElem hres, List.getElem?_eq_getElem h2] at this
    simpa using this

/-! ## `SmallsortJob::RadixStep_CI` (msd_parallel_radixsort.hpp)

The constructor counts key occurrences, then either permutes in place
(`inplace_sequential_sort`, inclusive prefix sum + cycle-following
permutation) or scatters out of place into the shadow range and flips,
and finally recomputes `bkt` as the exclusive prefix sum
("fix prefix sum"). -/

/-- Replace a whole physical buffer. -/
def Mem.setBuf (m : Mem α) (b : Bool) (t : List α) : Mem α :=
  if b then { m with shad := t } else { m with orig := t }

@[simp] theorem Mem.buf_setBuf (m : Mem α) (b c : Bool) (t : List α) :
    (m.setBuf b t).buf c = if c = b then t else m.buf c := by
  cases b <;> cases c <;> simp [Mem.setBuf, Mem.buf]

/-- Overwrite the cells `[d.first, d.first + l.length)` of `d`'s buffer
with the elements of `l`. -/
def Mem.writeSlice (m : Mem α) (d : MDataSet) (l : List α) : Mem α :=
  m.setBuf d.buf
    (((m.buf d.buf).take d.first) ++ l ++ ((m.buf d.buf).drop (d.first + l.length)))

/-- `last_bkt_size`: starts at `bktsize[0]` and is updated to every
nonzero `bktsize[i]` while scanning `i = 1 .. numbkts-1` (the scan is the
inclusive prefix-sum loop of the in-place branch). -/
def lastBktSize (bktsize : Nat → Nat) (R : Nat) : Nat :=
  (List.range' 1 (R - 1)).foldl
    (fun last i => if bktsize i ≠ 0 then bktsize i else last) (bktsize 0)

/-- The inner cascade of the in-place permutation:
`while ((j = --bkt[permch]) > i) { swap(perm, ds[j]); permch = key(perm); }`.
The cursor sum over the `R` buckets decreases on every iteration (keys
are below `R` by the width of the C++ key type). -/
def cascade [Inhabited α] (key : α → Nat) (R : Nat) (hkey : ∀ a, key a < R)
    (i : Nat) (perm : α) (A : List α) (c : Nat → Nat) :
    α × List α × (Nat → Nat) :=
  let j := c (key perm) - 1
  let c' := Function.update c (key perm) j
  if h : j > i then
    cascade key R hkey i (A.getD j default) (A.set j perm) c'
  else
    (perm, A, c')
termination_by ∑ k ∈ Finset.range R, c k
decreasing_by
  have hmem : key perm ∈ Finset.range R := Finset.mem_range.mpr (hkey perm)
  rw [Finset.sum_update_of_mem hmem, Finset.sdiff_singleton_eq_erase]
  have h2 : 1 ≤ c (key perm) := by omega
  have := Finset.add_sum_erase (Finset.range R) c hmem
  omega

/-- The outer in-place permutation loop
(`for (i = 0, j; i < n - last_bkt_size; )`), with explicit fuel; under
the loop invariants each round advances `i` by at least one, so fuel `n`
suffices. -/
def permuteLoop [Inhabited α] (key : α → Nat) (R : Nat) (hkey : ∀ a, key a < R)
    (bktsize : Nat → Nat) (stop : Nat) :
    Nat → Nat → List α → (Nat → Nat) → List α
  | 0, _, A, _ => A
  | fuel + 1, i, A, c =>
    if i < stop then
      let r := cascade key R hkey i (A.getD i default) A c
      permuteLoop key R hkey bktsize stop fuel
        (i + bktsize (key r.1)) (r.2.1.set i r.1) r.2.2
    else A

/-- The in-place branch of `RadixStep_CI` on the active slice: inclusive
prefix sum (the cursor start values) and cycle-following permutation. -/
def inplacePermute [Inhabited α] (key : α → Nat) (R : Nat)
    (hkey : ∀ a, key a < R) (A : List α) : List α :=
  permuteLoop key R hkey (histogram key A)
    (A.length - lastBktSize (histogram key A) R)
    A.length 0 A (fun k => exclScan (histogram key A) (k + 1))

/-- One frame of `SmallsortJob`'s explicit recursion stack: the data
pointer, the cursor `idx` of the next unprocessed bucket, and the bucket
boundary array `bkt` (entries `0 .. numbkts`). -/
structure RadixStepM where
  dptr : SDP
  idx : Nat
  bkt : Nat → Nat
  deriving Inhabited

/-- The `RadixStep_CI` constructor.  Counts occurrences of the key at
`depth` over the active range; then either permutes in place or scatters
into the shadow range, flips and copies back; finally `bkt` is the
exclusive prefix sum of the counts and `idx = 0`.  (The C++ distribution
loop reads the active range while writing the shadow range; for every
descriptor the engine builds these lie in different physical buffers, so
reading the range up front is exact.) -/
def mkRadixStep [Inhabited α] (key : α → Nat → Nat) (R : Nat)
    (hkey : ∀ a d, key a d < R) (inplace : Bool)
    (dptr : SDP) (depth : Nat) (m : Mem α) : RadixStepM × Mem α :=
  let ds := dptr.active
  let n := ds.size
  let l := MDataSet.toList m ds
  let bktsize := histogram (fun v => key v depth) l
  if inplace then
    let A1 := inplacePermute (fun v => key v depth) R (fun a => hkey a depth) l
    (⟨dptr, 0, exclScan bktsize⟩, m.writeSlice ds A1)
  else
    let c0 : Nat → Nat := fun k => dptr.shadow.first + exclScan bktsize k
    let t1 := (scatter (fun v => key v depth) l c0 (m.buf dptr.shadow.buf)).2
    let m1 := m.setBuf dptr.shadow.buf t1
    let r := (dptr.flip 0 n).copy_back m1
    (⟨r.1, 0, exclScan bktsize⟩, r.2)

theorem toList_length (m : Mem α) (d : MDataSet)
    (h : d.last ≤ (m.buf d.buf).length) :
    (MDataSet.toList m d).length = d.size := by
  simp only [MDataSet.toList, MDataSet.size, List.length_take, List.length_drop]
  omega

theorem toList_getD [Inhabited α] (m : Mem α) (d : MDataSet) (i : Nat)
    (hi : i < d.size) (h : d.last ≤ (m.buf d.buf).length) :
    (MDataSet.toList m d).getD i default = (m.buf d.buf).getD (d.first + i) default := by
  have hlen : (MDataSet.toList m d).length = d.size := toList_length m d h
  have hib : i < (MDataSet.toList m d).length := by omega
  have hib2 : d.first + i < (m.buf d.buf).length := by
    simp only [MDataSet.size] at hi
    omega
  rw [List.getD_eq_getElem?_getD, List.getD_eq_getElem?_getD,
    List.getElem?_eq_getElem hib, List.getElem?_eq_getElem hib2]
  simp only [Option.getD_some]
  unfold MDataSet.toList
  rw [List.getElem_take, List.getElem_drop]

theorem sum_countP_le_length (key : α → Nat) (l : List α) (K : Nat) :
    ∑ k ∈ Finset.range K, l.countP (fun v => decide (key v = k)) ≤ l.length := by
  induction l with
  | nil => simp
  | cons v t ih =>
    simp only [List.countP_cons, List.length_cons]
    rw [Finset.sum_add_distrib]
    have h1 : (∑ k ∈ Finset.range K, if decide (key v = k) = true then 1 else 0) ≤ 1 := by
      simp only [decide_eq_true_eq]
      rw [Finset.sum_ite_eq (Finset.range K) (key v) (fun _ => 1)]
      split <;> omega
    omega

theorem exclScan_keyCount_le (key : α → Nat) (l : List α) (k : Nat) :
    exclScan (keyCount key l) k ≤ l.length := by
  rw [exclScan_eq_sum]
  exact sum_countP_le_length key l k

theorem keyCount_eq_zero_of_ge (key : α → Nat) (R : Nat) (hkey : ∀ a, key a < R)
    (l : List α) (k : Nat) (hk : R ≤ k) : keyCount key l k = 0 := by
  rw [keyCount, List.countP_eq_zero]
  intro v _
  simp only [decide_eq_true_eq]
  intro h
  exact absurd (h ▸ hkey v) (by omega)

/-- `bkt` of every constructed `RadixStep_CI` (either variant) is the
"fix prefix sum" recurrence: the exclusive prefix sum of the counts. -/
theorem mkRadixStep_bkt [Inhabited α] (key : α → Nat → Nat) (R : Nat)
    (hkey : ∀ a d, key a d < R) (inplace : Bool) (dptr : SDP) (depth : Nat)
    (m : Mem α) :
    (mkRadixStep key R hkey inplace dptr depth m).1.bkt =
      exclScan (histogram (fun v => key v depth) (MDataSet.toList m dptr.active)) ∧
    (mkRadixStep key R hkey inplace dptr depth m).1.idx = 0 := by
  cases inplace <;> simp [mkRadixStep]

/-- The descriptor of an out-of-place `RadixStep_CI` after
`flip(0, n)` + `copy_back()`: unflipped, active range in the original
buffer, over the same index interval. -/
theorem mkRadixStep_oop_dptr [Inhabited α] (key : α → Nat → Nat) (R : Nat)
    (hkey : ∀ a d, key a d < R) {N : Nat} {dptr : SDP} (hd : Derived N dptr)
    (depth : Nat) (m : Mem α) :
    (mkRadixStep key R hkey false dptr depth m).1.dptr =
      ⟨⟨false, dptr.active.first, dptr.active.first + dptr.size⟩,
       ⟨true, dptr.active.first, dptr.active.first + dptr.size⟩, false⟩ := by
  obtain ⟨h1, h2, h3, h4, h5, h6⟩ := hd.invariant
  obtain ⟨⟨ab, af, al⟩, ⟨sb, sf, sl⟩, fl⟩ := dptr
  simp only at h1 h2 h3 h4 h5 h6
  subst h1 h2 h3 h4
  cases ab <;>
    simp [mkRadixStep, SDP.copy_back, SDP.flip, MDataSet.subi, SDP.size,
      MDataSet.size, Nat.add_sub_cancel']

/-- Buffer lengths are preserved by an out-of-place `RadixStep_CI`. -/
theorem mkRadixStep_oop_lengths [Inhabited α] (key : α → Nat → Nat) (R : Nat)
    (hkey : ∀ a d, key a d < R) (dptr : SDP) (depth : Nat) (m : Mem α) (c : Bool) :
    (((mkRadixStep key R hkey false dptr depth m).2).buf c).length =
      (m.buf c).length := by
  simp only [mkRadixStep, Bool.false_eq_true, if_false]
  set l := MDataSet.toList m dptr.active
  set t1 := (scatter (fun v => key v depth) l
    (fun k => dptr.shadow.first +
      exclScan (histogram (fun v => key v depth) l) k) (m.buf dptr.shadow.buf)).2
  have ht1 : t1.length = (m.buf dptr.shadow.buf).length := scatter_length _ _ _ _
  set m1 := m.setBuf dptr.shadow.buf t1 with hm1
  have hbl : ∀ b, (m1.buf b).length = (m.buf b).length := by
    intro b
    rw [hm1, Mem.buf_setBuf]
    split
    · next hb => rw [ht1, hb]
    · rfl
  unfold SDP.copy_back
  split
  · exact hbl c
  · simp only
    rw [moveRange_eq_movePre, movePre_length_buf]
    exact hbl c

/-- Content of the active range after an out-of-place `RadixStep_CI`:
cell `i` holds what the distribution loop wrote at shadow offset `i`
(either directly — data stayed where the scatter put it because the flip
made the descriptor unflipped — or after `copy_back` moved the scattered
range into the original buffer). -/
theorem mkRadixStep_oop_toList [Inhabited α] (key : α → Nat → Nat) (R : Nat)
    (hkey : ∀ a d, key a d < R) {N : Nat} {dptr : SDP} (hd : Derived N dptr)
    (depth : Nat) (m : Mem α) (hlo : m.orig.length = N) (hls : m.shad.length = N) :
    ∀ i < dptr.size,
      (MDataSet.toList (mkRadixStep key R hkey false dptr depth m).2
        (mkRadixStep key R hkey false dptr depth m).1.dptr.active).getD i default =
      ((scatter (fun v => key v depth) (MDataSet.toList m dptr.active)
        (fun k => dptr.shadow.first +
          exclScan (histogram (fun v => key v depth) (MDataSet.toList m dptr.active)) k)
        (m.buf dptr.shadow.buf)).2).getD (dptr.shadow.first + i) default := by
  intro i hi
  have hNfalse : (m.buf false).length = N := by simpa [Mem.buf] using hlo
  have hNtrue : (m.buf true).length = N := by simpa [Mem.buf] using hls
  have hdp := mkRadixStep_oop_dptr key R hkey hd depth m
  have hml := mkRadixStep_oop_lengths key R hkey dptr depth m
  obtain ⟨h1, h2, h3, h4, h5, h6⟩ := hd.invariant
  obtain ⟨⟨ab, af, al⟩, ⟨sb, sf, sl⟩, fl⟩ := dptr
  simp only at h1 h2 h3 h4
  subst h1 h2 h3 h4
  simp only [SDP.size, MDataSet.size] at hi hdp ⊢
  simp only at h5 h6
  rw [hdp]
  have hres : af + (al - af) ≤
      (((mkRadixStep key R hkey false
        ⟨⟨ab, af, al⟩, ⟨!ab, af, al⟩, ab⟩ depth m).2).buf
        (⟨false, af, af + (al - af)⟩ : MDataSet).buf).length := by
    simp only
    rw [hml false, hNfalse]
    omega
  rw [toList_getD _ _ i (by simp [MDataSet.size]; omega) hres]
  simp only
  cases ab with
  | false =>
    -- unflipped receiver: scatter into the shadow buffer, flip, copy back
    simp only [mkRadixStep, Bool.false_eq_true, if_false, SDP.flip, SDP.copy_back,
      MDataSet.subi, Bool.not_false, SDP.size, MDataSet.size]
    simp only [if_neg (by simp : ¬(true = false))]
    set l := MDataSet.toList m (⟨false, af, al⟩ : MDataSet) with hl
    set t1 := (scatter (fun v => key v depth) l
      (fun k => af + exclScan (histogram (fun v => key v depth) l) k)
      (m.buf true)).2 with ht1
    have ht1len : t1.length = N := by rw [ht1, scatter_length, hNtrue]
    set m1 := m.setBuf true t1 with hm1
    have hm1f : (m1.buf false).length = N := by
      rw [hm1, Mem.buf_setBuf]; simpa using hNfalse
    have hsrc : (⟨true, af + 0, af + (0 + (al - af))⟩ : MDataSet).size = al - af := by
      simp [MDataSet.size]
    rw [moveRange_eq_movePre, hsrc]
    have := movePre_read_dst m1 ⟨true, af + 0, af + (0 + (al - af))⟩
      ⟨false, af + 0, af + (0 + (al - af))⟩ (by simp) (al - af)
      (fun j hj => by simp only; rw [hm1f]; omega) i hi
    simp only [Mem.read] at this
    rw [show af + i = (⟨false, af + 0, af + (0 + (al - af))⟩ : MDataSet).first + i
        by simp, this]
    simp only [hm1, Mem.buf_setBuf, if_pos rfl]
    congr 1
  | true =>
    -- flipped receiver: the flip lands unflipped, copy_back is a no-op
    simp only [mkRadixStep, Bool.false_eq_true, if_false, SDP.flip, SDP.copy_back,
      MDataSet.subi, Bool.not_true, SDP.size, MDataSet.size]
    simp [Mem.buf_setBuf]

/-! ## `PRSContext` and `BigRadixStepCE` (msd_parallel_radixsort.hpp) -/

/-- The control-flow parameters of `PRSParametersDefault`. -/
structure Params where
  enable_parallel_radix_sort : Bool
  enable_work_sharing : Bool
  enable_rest_size : Bool
  subsort_threshold : Nat
  inplace_sequential_sort : Bool
  deriving Repr, DecidableEq

/-- The default values of `PRSParametersDefault` in the source. -/
def defaultParams : Params :=
  { enable_parallel_radix_sort := true
    enable_work_sharing := true
    enable_rest_size := false
    subsort_threshold := 32
    inplace_sequential_sort := false }

/-- `PRSContext`: parameters plus the sort-wide sizes.  `rest_size` is
decremented (by `donesize`) only when `enable_rest_size` is set; with the
defaults it keeps its initial value `totalsize`. -/
structure Ctx where
  params : Params
  totalsize : Nat
  rest_size : Nat
  num_threads : Nat
  max_depth : Nat
  deriving Repr, DecidableEq

/-- `PRSContext::sequential_threshold()`:
`max(subsort_threshold, (enable_rest_size ? rest_size : totalsize) / num_threads)`. -/
def Ctx.seqThreshold (c : Ctx) : Nat :=
  if c.params.enable_rest_size then
    max c.params.subsort_threshold (c.rest_size / c.num_threads)
  else
    max c.params.subsort_threshold (c.totalsize / c.num_threads)

/-- `parts = (n + sequential_threshold - 1) / sequential_threshold;`
`if (parts == 0) parts = 1;` -/
def bigParts (c : Ctx) (n : Nat) : Nat :=
  if (n + c.seqThreshold - 1) / c.seqThreshold = 0 then 1
  else (n + c.seqThreshold - 1) / c.seqThreshold

/-- `psize = (n + parts - 1) / parts` -/
def bigPsize (c : Ctx) (n : Nat) : Nat :=
  (n + bigParts c n - 1) / bigParts c n

/-- The elements scanned by count/distribute task `p`:
`[begin + p*psize, begin + min((p+1)*psize, n))`, empty when the lower
bound passes the upper (`if (itE < itB) itE = itB`). -/
def chunkOf (l : List α) (psize n p : Nat) : List α :=
  (l.drop (p * psize)).take (min ((p + 1) * psize) n - p * psize)

theorem chunkOf_eq_take_psize (l : List α) (psize p : Nat) :
    chunkOf l psize l.length p = (l.drop (p * psize)).take psize := by
  unfold chunkOf
  have hp : (p + 1) * psize = p * psize + psize := by ring
  rcases Nat.le_total ((p + 1) * psize) l.length with h | h
  · have : min ((p + 1) * psize) l.length - p * psize = psize := by
      rw [min_eq_left h]; omega
    rw [this]
  · have hmin : min ((p + 1) * psize) l.length = l.length := min_eq_right h
    rw [hmin]
    have hlen : (l.drop (p * psize)).length = l.length - p * psize :=
      List.length_drop _ _
    rw [List.take_of_length_le (by omega), List.take_of_length_le (by omega)]

/-- Concatenating the chunks in part order recovers the range. -/
theorem chunks_flatten (psize : Nat) :
    ∀ (parts : Nat) (l : List α), l.length ≤ parts * psize →
      (((List.range parts).map (chunkOf l psize l.length)).flatten) = l := by
  intro parts
  induction parts with
  | zero =>
    intro l hl
    simp only [Nat.zero_mul, Nat.le_zero, List.length_eq_zero] at hl
    simp [hl]
  | succ P ih =>
    intro l hl
    have hP : (P + 1) * psize = P * psize + psize := by ring
    rw [List.range_succ_eq_map, List.map_cons, List.flatten_cons, List.map_map]
    have hhead : chunkOf l psize l.length 0 = l.take psize := by
      rw [chunkOf_eq_take_psize]; simp
    have htail : ((List.range P).map (chunkOf l psize l.length ∘ Nat.succ)) =
        (List.range P).map (chunkOf (l.drop psize) psize (l.drop psize).length) := by
      apply List.map_congr_left
      intro p _
      simp only [Function.comp_apply]
      rw [chunkOf_eq_take_psize, chunkOf_eq_take_psize, List.drop_drop]
      congr 2
      simp [Nat.succ_eq_add_one]
      ring
    rw [hhead, htail, ih (l.drop psize) (by rw [List.length_drop]; omega),
      List.take_append_drop]

/-- Running sum of `count_finished`'s inclusive "snake" prefix-sum loop,
in loop order (bucket-major, part-minor): linear cell `ℓ` is part
`ℓ % parts` of bucket `ℓ / parts`; `cnt p i` is part `p`'s count of
bucket `i`. -/
def snakeSum (cnt : Nat → Nat → Nat) (parts : Nat) : Nat → Nat
  | 0 => 0
  | ℓ + 1 => snakeSum cnt parts ℓ + cnt (ℓ % parts) (ℓ / parts)

/-- The table entry `bkt[p * numbkts + i]` after the prefix-sum loop of
`count_finished` (the running sum right after adding cell `(p, i)`). -/
def snakeVal (cnt : Nat → Nat → Nat) (parts p i : Nat) : Nat :=
  snakeSum cnt parts (i * parts + p + 1)

theorem snakeSum_mono (cnt : Nat → Nat → Nat) (parts : Nat) :
    Monotone (snakeSum cnt parts) := by
  apply monotone_nat_of_le_succ
  intro ℓ
  simp [snakeSum]

theorem snakeSum_add (cnt : Nat → Nat → Nat) (parts i : Nat) :
    ∀ q ≤ parts, snakeSum cnt parts (i * parts + q) =
      snakeSum cnt parts (i * parts) + ∑ p ∈ Finset.range q, cnt p i := by
  intro q
  induction q with
  | zero => simp
  | succ r ih =>
    intro hq
    have hr : i * parts + (r + 1) = (i * parts + r) + 1 := by omega
    rw [hr, snakeSum, ih (by omega), Finset.sum_range_succ]
    have hcomm : i * parts + r = r + parts * i := by ring
    have hmod : (i * parts + r) % parts = r := by
      rw [hcomm, Nat.add_mul_mod_self_left]
      exact Nat.mod_eq_of_lt (by omega)
    have hdiv : (i * parts + r) / parts = i := by
      rw [hcomm, Nat.add_mul_div_left _ _ (by omega : 0 < parts),
        Nat.div_eq_of_lt (by omega)]
      omega
    rw [hmod, hdiv]
    omega

theorem snakeSum_mul (cnt : Nat → Nat → Nat) (parts : Nat) (i : Nat) :
    snakeSum cnt parts (i * parts) =
      ∑ j ∈ Finset.range i, ∑ p ∈ Finset.range parts, cnt p j := by
  induction i with
  | zero => simp [snakeSum]
  | succ r ih =>
    have : (r + 1) * parts = r * parts + parts := by ring
    rw [this, snakeSum_add cnt parts r parts le_rfl, ih, Finset.sum_range_succ]

/-- `BigRadixStepCE::distribute`: scan the chunk, pre-decrement the key's
cursor and move the element into that slot of the shadow range
(`sorted[--mybkt[key_extractor(*it, depth)]] = std::move(*it)`). -/
def bigDistribute [Inhabited α] (keyd : α → Nat) (shadow : MDataSet)
    (els : List α) (cur : Nat → Nat) (m : Mem α) : (Nat → Nat) × Mem α :=
  els.foldl
    (fun acc v =>
      (Function.update acc.1 (keyd v) (acc.1 (keyd v) - 1),
        acc.2.write shadow.buf (shadow.first + (acc.1 (keyd v) - 1)) v))
    (cur, m)

theorem bigDistribute_cursor [Inhabited α] (keyd : α → Nat) (shadow : MDataSet)
    (els : List α) :
    ∀ (cur : Nat → Nat) (m : Mem α), (∀ k, keyCount keyd els k ≤ cur k) →
      (bigDistribute keyd shadow els cur m).1 =
        fun k => cur k - keyCount keyd els k := by
  induction els with
  | nil =>
    intro cur m _
    funext k
    simp [bigDistribute, keyCount]
  | cons v l ih =>
    intro cur m hge
    have hcnt : ∀ k, keyCount keyd (v :: l) k =
        keyCount keyd l k + (if keyd v = k then 1 else 0) := by
      intro k
      simp only [keyCount, List.countP_cons]
      by_cases h : keyd v = k <;> simp [h]
    have hv1 : 1 ≤ keyCount keyd (v :: l) (keyd v) := by rw [hcnt]; simp
    set cur' := Function.update cur (keyd v) (cur (keyd v) - 1) with hcur'
    have hge' : ∀ k, keyCount keyd l k ≤ cur' k := by
      intro k
      by_cases hk : k = keyd v
      · subst hk
        have h1 := hge (keyd v)
        rw [hcnt (keyd v), if_pos rfl] at h1
        rw [hcur', Function.update_same]
        omega
      · rw [hcur', Function.update_noteq hk]
        have h1 := hge k
        rw [hcnt k, if_neg (fun h => hk h.symm)] at h1
        omega
    have hstep : bigDistribute keyd shadow (v :: l) cur m =
        bigDistribute keyd shadow l cur'
          (m.write shadow.buf (shadow.first + (cur (keyd v) - 1)) v) := rfl
    rw [hstep, ih cur' (m.write shadow.buf (shadow.first + (cur (keyd v) - 1)) v) hge']
    funext k
    by_cases hk : k = keyd v
    · subst hk
      rw [hcur', Function.update_same, hcnt (keyd v), if_pos rfl]
      have h1 := hge (keyd v)
      rw [hcnt (keyd v), if_pos rfl] at h1
      omega
    · rw [hcur', Function.update_noteq hk, hcnt k, if_neg (fun h => hk h.symm)]
      omega

/-- The per-chunk bucket counts of a `BigRadixStepCE` over `l`. -/
def bigCnt (keyd : α → Nat) (l : List α) (psize n : Nat) : Nat → Nat → Nat :=
  fun p => histogram keyd (chunkOf l psize n p)

/-- The bucket boundary array a `BigRadixStepCE` holds when the last
distribute task finishes: part 0's final (fully pre-decremented) cursors
copied back into `bkt[0 .. numbkts)`, plus the sentinel
`bkt[numbkts] = dptr.size()`.  (The cursor values do not depend on the
memory contents, only on the counts seeded from the snake prefix sum.) -/
def bigBktFinal [Inhabited α] (key : α → Nat → Nat) (R : Nat) (ctx : Ctx)
    (dptr : SDP) (depth : Nat) (m : Mem α) : Nat → Nat :=
  let n := dptr.size
  let l := MDataSet.toList m dptr.active
  let cnt := bigCnt (fun v => key v depth) l (bigPsize ctx n) n
  fun i =>
    if i = R then n
    else (bigDistribute (fun v => key v depth) dptr.shadow
      (chunkOf l (bigPsize ctx n) n 0)
      (fun j => snakeVal cnt (bigParts ctx n) 0 j) m).1 i

/-- `BigRadixStepCE::distribute_finished`: walk the bucket boundaries;
a bucket of length 0 is dropped, a singleton is copied back immediately
(`dptr.flip(bkt[i], 1).copy_back()`), and a larger bucket is enqueued at
`depth + 1` with the flipped sub-range. -/
def distributeFinished [Inhabited α] (dptr : SDP) (depth : Nat) (bkt : Nat → Nat)
    (numbkts : Nat) (m : Mem α) : Mem α × List (SDP × Nat) :=
  (List.range numbkts).foldl
    (fun acc i =>
      if bkt i = bkt (i + 1) then acc
      else if bkt i + 1 = bkt (i + 1) then
        (((dptr.flip (bkt i) 1).copy_back acc.1).2, acc.2)
      else
        (acc.1, acc.2 ++ [(dptr.flip (bkt i) (bkt (i + 1) - bkt i), depth + 1)]))
    (m, [])

/-- One whole `BigRadixStepCE` job, sequentialized: all count tasks (the
counts `bigCnt`), the snake prefix sum, all distribute tasks in part
order (their target cells are disjoint, so this order is one faithful
schedule), then `distribute_finished`.  Returns the updated memory and
the enqueued sub-jobs. -/
def bigStep [Inhabited α] (key : α → Nat → Nat) (R : Nat) (ctx : Ctx)
    (dptr : SDP) (depth : Nat) (m : Mem α) : Mem α × List (SDP × Nat) :=
  let n := dptr.size
  let parts := bigParts ctx n
  let psize := bigPsize ctx n
  let l := MDataSet.toList m dptr.active
  let cnt := bigCnt (fun v => key v depth) l psize n
  let distMem := (List.range parts).foldl
    (fun mm p =>
      (bigDistribute (fun v => key v depth) dptr.shadow
        (chunkOf l psize n p) (fun j => snakeVal cnt parts p j) mm).2)
    m
  distributeFinished dptr depth (bigBktFinal key R ctx dptr depth m) R distMem

theorem seqThreshold_pos (c : Ctx) (h : 0 < c.params.subsort_threshold) :
    0 < c.seqThreshold := by
  unfold Ctx.seqThreshold
  split <;> exact lt_of_lt_of_le h (le_max_left _ _)

theorem bigParts_pos (c : Ctx) (n : Nat) : 1 ≤ bigParts c n := by
  unfold bigParts
  by_cases h : (n + c.seqThreshold - 1) / c.seqThreshold = 0
  · rw [if_pos h]
  · rw [if_neg h]
    exact Nat.one_le_iff_ne_zero.mpr h

theorem n_le_parts_mul_psize (c : Ctx) (n : Nat) :
    n ≤ bigParts c n * bigPsize c n := by
  have hP : 0 < bigParts c n := bigParts_pos c n
  unfold bigPsize
  set P := bigParts c n
  have h1 : P * ((n + P - 1) / P) + (n + P - 1) % P = n + P - 1 :=
    Nat.div_add_mod _ _
  have h2 : (n + P - 1) % P < P := Nat.mod_lt _ hP
  omega

theorem chunk_cover (P psize n : Nat) (hpp : 0 < psize) (hcov : n ≤ P * psize) :
    ∀ j, j < n → ∃! p, p < P ∧ p * psize ≤ j ∧ j < min ((p + 1) * psize) n := by
  intro j hj
  refine ⟨j / psize, ⟨?_, ?_, ?_⟩, ?_⟩
  · rw [Nat.div_lt_iff_lt_mul hpp]
    calc j < n := hj
    _ ≤ P * psize := hcov
  · exact Nat.div_mul_le_self j psize
  · have h1 : psize * (j / psize) + j % psize = j := Nat.div_add_mod _ _
    have h2 : j % psize < psize := Nat.mod_lt _ hpp
    have h3 : (j / psize + 1) * psize = psize * (j / psize) + psize := by ring
    apply lt_min _ hj
    omega
  · rintro q ⟨hq1, hq2, hq3⟩
    have hq4 : j < (q + 1) * psize := lt_of_lt_of_le hq3 (min_le_left _ _)
    have h1 : psize * (j / psize) + j % psize = j := Nat.div_add_mod _ _
    have h2 : j % psize < psize := Nat.mod_lt _ hpp
    have h3 : (q + 1) * psize = q * psize + psize := by ring
    -- q * psize ≤ j < q * psize + psize pins q = j / psize
    have h5 : q * psize = psize * q := Nat.mul_comm _ _
    have h6 : psize * (j / psize) ≤ j := by omega
    rcases Nat.lt_trichotomy q (j / psize) with hlt | heq | hgt
    · exfalso
      have : q + 1 ≤ j / psize := hlt
      have h7 : (q + 1) * psize ≤ (j / psize) * psize :=
        Nat.mul_le_mul_right _ this
      have h8 : (j / psize) * psize = psize * (j / psize) := Nat.mul_comm _ _
      omega
    · exact heq
    · exfalso
      have : j / psize + 1 ≤ q := hgt
      have h7 : (j / psize + 1) * psize ≤ q * psize :=
        Nat.mul_le_mul_right _ this
      have h8 : (j / psize + 1) * psize = psize * (j / psize) + psize := by ring
      omega

/-- **C6.** A `BigRadixStepCE` over `n` elements uses
`parts = ceil(n / sequential_threshold())` chunks (at least one) of size
`psize = ceil(n / parts)`; the threshold is the maximum of the fixed
small-sort threshold and the remaining-elements count divided by the
thread count; and the chunks `[p*psize, min((p+1)*psize, n))` for
`p < parts` are pairwise disjoint and cover `[0, n)` exactly. -/
theorem bigStep_chunk_partition (c : Ctx) (n : Nat)
    (hsub : 0 < c.params.subsort_threshold)
    (hrest : c.params.enable_rest_size = false → c.rest_size = c.totalsize) :
    c.seqThreshold = max c.params.subsort_threshold (c.rest_size / c.num_threads) ∧
    1 ≤ bigParts c n ∧
    (0 < n → bigParts c n = (n + c.seqThreshold - 1) / c.seqThreshold) ∧
    bigPsize c n = (n + bigParts c n - 1) / bigParts c n ∧
    (∀ j, j < n → ∃! p, p < bigParts c n ∧
      p * bigPsize c n ≤ j ∧ j < min ((p + 1) * bigPsize c n) n) := by
  have hT : 0 < c.seqThreshold := seqThreshold_pos c hsub
  refine ⟨?_, bigParts_pos c n, ?_, rfl, ?_⟩
  · unfold Ctx.seqThreshold
    cases h : c.params.enable_rest_size
    · rw [hrest h]; simp
    · simp
  · intro hn
    unfold bigParts
    split
    · next h0 =>
      exfalso
      have h1 : n + c.seqThreshold - 1 < c.seqThreshold :=
        (Nat.div_eq_zero_iff hT).mp h0
      omega
    · rfl
  · intro j hj
    have hpp : 0 < bigPsize c n := by
      have hP := bigParts_pos c n
      unfold bigPsize
      set P := bigParts c n
      have h1 : P * ((n + P - 1) / P) + (n + P - 1) % P = n + P - 1 :=
        Nat.div_add_mod _ _
      have h2 : (n + P - 1) % P < P := Nat.mod_lt _ (by omega)
      rcases Nat.eq_zero_or_pos ((n + P - 1) / P) with h3 | h3
      · exfalso
        rw [h3, Nat.mul_zero] at h1
        omega
      · exact h3
    exact chunk_cover (bigParts c n) (bigPsize c n) n hpp
      (n_le_parts_mul_psize c n) j hj

/-- Witness for C6 at a concrete context: default parameters,
100 elements, 4 threads. -/
theorem bigStep_chunk_partition_witness :
    (0 < defaultParams.subsort_threshold ∧
      ((Ctx.mk defaultParams 100 100 4 4).params.enable_rest_size = false →
        (Ctx.mk defaultParams 100 100 4 4).rest_size =
          (Ctx.mk defaultParams 100 100 4 4).totalsize)) ∧
    (1 ≤ bigParts (Ctx.mk defaultParams 100 100 4 4) 100 ∧
      ∀ j, j < 100 → ∃! p, p < bigParts (Ctx.mk defaultParams 100 100 4 4) 100 ∧
        p * bigPsize (Ctx.mk defaultParams 100 100 4 4) 100 ≤ j ∧
        j < min ((p + 1) * bigPsize (Ctx.mk defaultParams 100 100 4 4) 100) 100) := by
  have h := bigStep_chunk_partition (Ctx.mk defaultParams 100 100 4 4) 100
    (by decide) (fun _ => rfl)
  exact ⟨⟨by decide, fun _ => rfl⟩, h.2.1, h.2.2.2.2⟩

/-- `key_traits<uint8_t>::radix`. -/
def key_traits_radix_u8 : Nat := 256

/-- `key_traits<uint16_t>::radix`. -/
def key_traits_radix_u16 : Nat := 65536

/-- The snake running sum over all `R * parts` cells is the whole range
length: the chunks partition the range and every key is `< R`. -/
theorem snakeSum_total (keyd : α → Nat) (R : Nat) (hkey : ∀ a, keyd a < R)
    (l : List α) (psize parts : Nat) (hcov : l.length ≤ parts * psize) :
    snakeSum (bigCnt keyd l psize l.length) parts (R * parts) = l.length := by
  rw [snakeSum_mul, Finset.sum_comm]
  have h1 : ∀ p ∈ Finset.range parts,
      (∑ j ∈ Finset.range R, bigCnt keyd l psize l.length p j) =
        (chunkOf l psize l.length p).length := by
    intro p _
    have he : ∀ j ∈ Finset.range R, bigCnt keyd l psize l.length p j =
        (chunkOf l psize l.length p).countP (fun v => decide (keyd v = j)) :=
      fun j _ => histogram_eq_countP _ _ _
    rw [Finset.sum_congr rfl he]
    exact sum_countP_eq_length keyd _ R (fun v _ => hkey v)
  rw [Finset.sum_congr rfl h1]
  have h2 := chunks_flatten psize parts l hcov
  have h3 : (((List.range parts).map (chunkOf l psize l.length)).flatten).length =
      l.length := by rw [h2]
  rw [List.length_flatten, List.map_map] at h3
  simp only [Function.comp_def] at h3
  calc ∑ p ∈ Finset.range parts, (chunkOf l psize l.length p).length
      = ((List.range parts).map (fun p => (chunkOf l psize l.length p).length)).sum :=
        rfl
  _ = l.length := h3

/-- The final boundary values of a `BigRadixStepCE` below the sentinel:
part 0's cursor for bucket `i`, fully decremented, is the snake running
sum of all cells strictly before bucket `i`. -/
theorem bigBktFinal_eq_snakeSum [Inhabited α] (key : α → Nat → Nat) (R : Nat)
    (ctx : Ctx) (dptr : SDP) (depth : Nat) (m : Mem α) (i : Nat) (hi : i ≠ R) :
    bigBktFinal key R ctx dptr depth m i =
      snakeSum (bigCnt (fun v => key v depth) (MDataSet.toList m dptr.active)
        (bigPsize ctx dptr.size) dptr.size) (bigParts ctx dptr.size)
        (i * bigParts ctx dptr.size) := by
  have hparts := bigParts_pos ctx dptr.size
  unfold bigBktFinal
  simp only [if_neg hi]
  set n := dptr.size
  set l := MDataSet.toList m dptr.active
  set parts := bigParts ctx n
  set psize := bigPsize ctx n
  set cnt := bigCnt (fun v => key v depth) l psize n with hcnt
  have hsv : ∀ k, snakeVal cnt parts 0 k =
      snakeSum cnt parts (k * parts) + cnt 0 k := by
    intro k
    unfold snakeVal
    have h1 := snakeSum_add cnt parts k 1 (by omega)
    simpa using h1
  have hcur : ∀ k, keyCount (fun v => key v depth) (chunkOf l psize n 0) k ≤
      snakeVal cnt parts 0 k := by
    intro k
    rw [hsv k]
    have : cnt 0 k = keyCount (fun v => key v depth) (chunkOf l psize n 0) k := by
      rw [hcnt]
      unfold bigCnt
      rw [histogram_eq_keyCount]
    omega
  rw [bigDistribute_cursor _ _ _ _ m hcur]
  simp only
  rw [hsv i]
  have : cnt 0 i = keyCount (fun v => key v depth) (chunkOf l psize n 0) i := by
    rw [hcnt]; unfold bigCnt; rw [histogram_eq_keyCount]
  omega

/-- **C3.**  Every `RadixStep_CI` (either variant, any depth, any
recursion level) ends with `bkt[0] = 0`, `bkt` non-decreasing and
`bkt[radix] = n`; and the boundary array of a `BigRadixStepCE` at
`distribute_finished` satisfies the same, with radix 256 for 8-bit keys
and 65536 for 16-bit keys. -/
theorem bucket_boundary_invariant [Inhabited α] (key : α → Nat → Nat) (R : Nat)
    (hR : R = key_traits_radix_u8 ∨ R = key_traits_radix_u16)
    (hkey : ∀ a d, key a d < R)
    {N : Nat} {dptr : SDP} (hd : Derived N dptr) (depth : Nat) (m : Mem α)
    (hlo : m.orig.length = N) (hls : m.shad.length = N)
    (inplace : Bool) (ctx : Ctx) :
    ((mkRadixStep key R hkey inplace dptr depth m).1.bkt 0 = 0 ∧
      Monotone ((mkRadixStep key R hkey inplace dptr depth m).1.bkt) ∧
      (mkRadixStep key R hkey inplace dptr depth m).1.bkt R = dptr.size) ∧
    (bigBktFinal key R ctx dptr depth m 0 = 0 ∧
      (∀ i j, i ≤ j → j ≤ R →
        bigBktFinal key R ctx dptr depth m i ≤ bigBktFinal key R ctx dptr depth m j) ∧
      bigBktFinal key R ctx dptr depth m R = dptr.size) := by
  obtain ⟨h1, h2, h3, h4, h5, h6⟩ := hd.invariant
  have hbuflen : (m.buf dptr.active.buf).length = N := by
    cases hb : dptr.active.buf <;> simp [Mem.buf, hb, hlo, hls]
  have hlsize : (MDataSet.toList m dptr.active).length = dptr.size :=
    toList_length m dptr.active (by omega)
  have hRpos : 0 < R := by
    rcases hR with h | h <;> rw [h] <;> decide
  constructor
  · obtain ⟨hbkt, _⟩ := mkRadixStep_bkt key R hkey inplace dptr depth m
    rw [hbkt]
    refine ⟨rfl, exclScan_mono _, ?_⟩
    rw [exclScan_histogram_total _ _ R (fun v _ => hkey v depth), hlsize]
  · have hne : ∀ i, i < R → i ≠ R := fun i hi => by omega
    set n := dptr.size
    set l := MDataSet.toList m dptr.active with hl
    set parts := bigParts ctx n
    set psize := bigPsize ctx n
    set cnt := bigCnt (fun v => key v depth) l psize n with hcnt
    have hcov : l.length ≤ parts * psize := by
      rw [hlsize]
      exact n_le_parts_mul_psize ctx n
    have htot : snakeSum cnt parts (R * parts) = n := by
      have h := snakeSum_total (fun v => key v depth) R (fun a => hkey a depth)
        l psize parts hcov
      rw [hlsize] at h
      exact h
    refine ⟨?_, ?_, ?_⟩
    · rw [bigBktFinal_eq_snakeSum key R ctx dptr depth m 0 (by omega)]
      simp [snakeSum]
    · intro i j hij hjR
      by_cases hjeq : j = R
      · by_cases hieq : i = R
        · rw [hieq, hjeq]
        · rw [hjeq]
          rw [bigBktFinal_eq_snakeSum key R ctx dptr depth m i hieq]
          have hfin : bigBktFinal key R ctx dptr depth m R = n := by
            unfold bigBktFinal
            simp
          rw [hfin, ← htot]
          exact snakeSum_mono cnt parts
            (Nat.mul_le_mul_right parts (by omega))
      · have hieq : i ≠ R := by omega
        rw [bigBktFinal_eq_snakeSum key R ctx dptr depth m i hieq,
          bigBktFinal_eq_snakeSum key R ctx dptr depth m j hjeq]
        exact snakeSum_mono cnt parts (Nat.mul_le_mul_right parts hij)
    · unfold bigBktFinal
      simp

/-- Witness for C3: 8-bit radix, three elements, the top-level
descriptor, default context. -/
theorem bucket_boundary_invariant_witness :
    (((256 : Nat) = key_traits_radix_u8 ∨ (256 : Nat) = key_traits_radix_u16) ∧
      (∀ (a : Nat) (d : Nat), (fun v (_ : Nat) => v % 256) a d < 256) ∧
      Derived 3 ⟨⟨false, 0, 3⟩, ⟨true, 0, 3⟩, false⟩ ∧
      ([5, 1, 3] : List Nat).length = 3 ∧ ([0, 0, 0] : List Nat).length = 3) ∧
    ((mkRadixStep (fun v (_ : Nat) => v % 256) 256
        (fun a d => Nat.mod_lt a (by decide)) false
        ⟨⟨false, 0, 3⟩, ⟨true, 0, 3⟩, false⟩ 0
        (⟨[5, 1, 3], [0, 0, 0]⟩ : Mem Nat)).1.bkt 0 = 0 ∧
      (mkRadixStep (fun v (_ : Nat) => v % 256) 256
        (fun a d => Nat.mod_lt a (by decide)) false
        ⟨⟨false, 0, 3⟩, ⟨true, 0, 3⟩, false⟩ 0
        (⟨[5, 1, 3], [0, 0, 0]⟩ : Mem Nat)).1.bkt 256 =
        (⟨⟨false, 0, 3⟩, ⟨true, 0, 3⟩, false⟩ : SDP).size) := by
  have h := bucket_boundary_invariant (fun v (_ : Nat) => v % 256) 256
    (Or.inl rfl) (fun a d => Nat.mod_lt a (by decide))
    (Derived.top) 0 (⟨[5, 1, 3], [0, 0, 0]⟩ : Mem Nat) rfl rfl false
    (Ctx.mk defaultParams 3 3 4 4)
  exact ⟨⟨Or.inl rfl, fun a d => Nat.mod_lt a (by decide), Derived.top, rfl, rfl⟩,
    h.1.1, h.1.2.2⟩

theorem movePre_one [Inhabited α] (m : Mem α) (src dst : MDataSet) :
    movePre m src dst 1 =
      m.write dst.buf (dst.first + 0) (m.read src.buf (src.first + 0)) := by
  rw [movePre_succ]
  rfl

/-- The bucket-walk invariant of `distribute_finished`, established along
the loop prefix `[0, K)`: buffer lengths are preserved, the enqueued jobs
are exactly the flipped sub-ranges of the buckets of size at least two at
`depth + 1`, memory changes only at the original-buffer cells of the
singleton buckets, and each singleton bucket's cell holds the value the
distribution left in the shadow data set. -/
theorem distributeFinished_aux [Inhabited α] {N : Nat} {dptr : SDP}
    (hd : Derived N dptr) (depth : Nat) (bkt : Nat → Nat) (R : Nat)
    (m : Mem α) (hlo : m.orig.length = N) (hls : m.shad.length = N)
    (hmono : ∀ i j, i ≤ j → j ≤ R → bkt i ≤ bkt j)
    (hbound : bkt R ≤ dptr.size) :
    ∀ K, K ≤ R →
      ((∀ b, ((distributeFinished dptr depth bkt K m).1.buf b).length = N) ∧
       (∀ q, (distributeFinished dptr depth bkt K m).1.read true q =
          m.read true q)) ∧
      (distributeFinished dptr depth bkt K m).2 =
        (List.range K).filterMap (fun i =>
          if 2 ≤ bkt (i + 1) - bkt i then
            some (dptr.flip (bkt i) (bkt (i + 1) - bkt i), depth + 1)
          else none) ∧
      (∀ b q, (distributeFinished dptr depth bkt K m).1.read b q = m.read b q ∨
        (b = false ∧ ∃ i, i < K ∧ bkt i + 1 = bkt (i + 1) ∧
          q = dptr.active.first + bkt i)) ∧
      (∀ i, i < K → bkt i + 1 = bkt (i + 1) →
        (distributeFinished dptr depth bkt K m).1.read false
            (dptr.active.first + bkt i) =
          m.read dptr.shadow.buf (dptr.shadow.first + bkt i)) := by
  obtain ⟨h1, h2, h3, h4, h5, h6⟩ := hd.invariant
  have hNb : ∀ b, (m.buf b).length = N := by
    intro b; cases b <;> simp [Mem.buf, hlo, hls]
  have hpos : ∀ i, i < R → bkt i + 1 = bkt (i + 1) →
      dptr.active.first + bkt i < N := by
    intro i hi hsing
    have hle : bkt (i + 1) ≤ bkt R := hmono (i + 1) R (by omega) le_rfl
    have : bkt i < dptr.size := by omega
    simp only [SDP.size, MDataSet.size] at this
    omega
  intro K
  induction K with
  | zero =>
    intro _
    refine ⟨⟨fun b => hNb b, fun q => rfl⟩, rfl, fun b q => Or.inl rfl, ?_⟩
    intro i hi
    omega
  | succ K ih =>
    intro hK
    obtain ⟨⟨ihlen, ihtrue⟩, ihjobs, ihframe, ihsing⟩ := ih (by omega)
    have hstep : distributeFinished dptr depth bkt (K + 1) m =
        (fun acc i =>
          if bkt i = bkt (i + 1) then acc
          else if bkt i + 1 = bkt (i + 1) then
            (((dptr.flip (bkt i) 1).copy_back acc.1).2, acc.2)
          else
            (acc.1, acc.2 ++ [(dptr.flip (bkt i) (bkt (i + 1) - bkt i), depth + 1)]))
          (distributeFinished dptr depth bkt K m) K := by
      unfold distributeFinished
      rw [List.range_succ, List.foldl_append, List.foldl_cons, List.foldl_nil]
    have hfm : (List.range (K + 1)).filterMap (fun i =>
        if 2 ≤ bkt (i + 1) - bkt i then
          some (dptr.flip (bkt i) (bkt (i + 1) - bkt i), depth + 1)
        else none) =
        (List.range K).filterMap (fun i =>
          if 2 ≤ bkt (i + 1) - bkt i then
            some (dptr.flip (bkt i) (bkt (i + 1) - bkt i), depth + 1)
          else none) ++
        (if 2 ≤ bkt (K + 1) - bkt K then
          [(dptr.flip (bkt K) (bkt (K + 1) - bkt K), depth + 1)] else []) := by
      rw [List.range_succ, List.filterMap_append]
      congr 1
      by_cases hc : 2 ≤ bkt (K + 1) - bkt K
      · simp [List.filterMap_cons, hc]
      · simp [List.filterMap_cons, hc]
    have hKmono : bkt K ≤ bkt (K + 1) := hmono K (K + 1) (by omega) hK
    by_cases hempty : bkt K = bkt (K + 1)
    · -- empty bucket: dropped
      rw [hstep]
      simp only [if_pos hempty]
      refine ⟨⟨ihlen, ihtrue⟩, ?_, ?_, ?_⟩
      · rw [hfm, ihjobs, if_neg (by omega), List.append_nil]
      · intro b q
        rcases ihframe b q with h | ⟨hb, i, hi, hs, hq⟩
        · exact Or.inl h
        · exact Or.inr ⟨hb, i, by omega, hs, hq⟩
      · intro i hi hsing
        rcases Nat.lt_succ_iff_lt_or_eq.mp hi with h | h
        · exact ihsing i h hsing
        · subst h; omega
    · by_cases hsingK : bkt K + 1 = bkt (K + 1)
      · -- singleton bucket: flip + copy_back of one element
        rw [hstep]
        simp only [if_neg hempty, if_pos hsingK]
        have hposK : dptr.active.first + bkt K < N := hpos K (by omega) hsingK
        cases hfl : dptr.flipped with
        | true =>
          -- the one-element flip is unflipped: copy_back is the identity
          have hcb : ((dptr.flip (bkt K) 1).copy_back
              (distributeFinished dptr depth bkt K m).1) =
              ((dptr.flip (bkt K) 1),
                (distributeFinished dptr depth bkt K m).1) := by
            unfold SDP.copy_back
            rw [if_pos (by simp [SDP.flip, hfl])]
          rw [hcb]
          refine ⟨⟨ihlen, ihtrue⟩, ?_, ?_, ?_⟩
          · rw [hfm, ihjobs, if_neg (by omega), List.append_nil]
          · intro b q
            rcases ihframe b q with h | ⟨hb, i, hi, hs, hq⟩
            · exact Or.inl h
            · exact Or.inr ⟨hb, i, by omega, hs, hq⟩
          · intro i hi hsing
            have hsb : dptr.shadow.buf = false := by rw [h2, hfl]; rfl
            rcases Nat.lt_succ_iff_lt_or_eq.mp hi with h | h
            · exact ihsing i h hsing
            · subst h
              rw [hsb, ← h3]
              rcases ihframe false (dptr.active.first + bkt i) with h | ⟨_, i', hi', hs', hq'⟩
              · exact h
              · exfalso
                have : bkt (i' + 1) ≤ bkt i := hmono (i' + 1) i (by omega) (by omega)
                omega
        | false =>
          -- copy_back writes the single shadow cell back to the original buffer
          have habuf : dptr.active.buf = false := by rw [h1, hfl]
          have hsbuf : dptr.shadow.buf = true := by rw [h2, hfl]; rfl
          have hcb : ((dptr.flip (bkt K) 1).copy_back
              (distributeFinished dptr depth bkt K m).1).2 =
              (distributeFinished dptr depth bkt K m).1.write false
                (dptr.active.first + bkt K + 0)
                ((distributeFinished dptr depth bkt K m).1.read true
                  (dptr.shadow.first + bkt K + 0)) := by
            unfold SDP.copy_back
            rw [if_neg (by simp [SDP.flip, hfl])]
            simp only [SDP.flip, MDataSet.subi, moveRange_eq_movePre]
            rw [show (⟨dptr.shadow.buf, dptr.shadow.first + bkt K,
                dptr.shadow.first + (bkt K + 1)⟩ : MDataSet).size = 1 by
              simp [MDataSet.size]
              omega]
            rw [movePre_one]
            simp only [hsbuf, habuf]
          rw [hcb]
          set F := (distributeFinished dptr depth bkt K m).1 with hF
          refine ⟨⟨?_, ?_⟩, ?_, ?_, ?_⟩
          · intro b
            rw [Mem.length_buf_write]
            exact ihlen b
          · intro q
            unfold Mem.read
            rw [Mem.buf_write_ne _ (by simp) _ _]
            exact ihtrue q
          · rw [hfm, ihjobs, if_neg (by omega), List.append_nil]
          · intro b q
            by_cases hbq : b = false ∧ q = dptr.active.first + bkt K
            · exact Or.inr ⟨hbq.1, K, by omega, hsingK, hbq.2⟩
            · rw [Mem.read_write_ne _ _ _ _ _ _
                (fun hc => hbq ⟨hc.1, by omega⟩)]
              rcases ihframe b q with h | ⟨hb, i, hi, hs, hq⟩
              · exact Or.inl h
              · exact Or.inr ⟨hb, i, by omega, hs, hq⟩
          · intro i hi hsing
            rcases Nat.lt_succ_iff_lt_or_eq.mp hi with h | h
            · -- an older singleton cell, disjoint from the new write
              have hdist : bkt (i + 1) ≤ bkt K := hmono (i + 1) K (by omega) (by omega)
              rw [Mem.read_write_ne _ _ _ _ _ _ (fun hc => by omega)]
              exact ihsing i h hsing
            · subst h
              -- the freshly written cell holds the shadow value
              rw [show dptr.active.first + bkt i = dptr.active.first + bkt i + 0
                from rfl]
              rw [Mem.read_write_self _ _ _ _ (by rw [ihlen false]; omega)]
              rw [hsbuf]
              rw [show dptr.shadow.first + bkt i = dptr.shadow.first + bkt i + 0
                from rfl]
              exact ihtrue _
      · -- bucket of size at least two: enqueued at depth + 1, flipped
        have hbig : 2 ≤ bkt (K + 1) - bkt K := by omega
        rw [hstep]
        simp only [if_neg hempty, if_neg hsingK]
        refine ⟨⟨ihlen, ihtrue⟩, ?_, ?_, ?_⟩
        · rw [hfm, ihjobs, if_pos hbig]
        · intro b q
          rcases ihframe b q with h | ⟨hb, i, hi, hs, hq⟩
          · exact Or.inl h
          · exact Or.inr ⟨hb, i, by omega, hs, hq⟩
        · intro i hi hsing
          rcases Nat.lt_succ_iff_lt_or_eq.mp hi with h | h
          · exact ihsing i h hsing
          · subst h
            omega

/-- **C7.** When the last distribute task of a `BigRadixStepCE` at depth
`d` completes (`distribute_finished`), every empty bucket is dropped (it
contributes nothing to the job list and nothing to memory), every
singleton bucket is finalized immediately — its element is copied back
into the original buffer at the bucket's position, straight from where
distribution left it in the shadow data set — and every bucket of size
at least two is enqueued at `d + 1` with the flip of exactly that
bucket's sub-range. -/
theorem distribute_finished_spec [Inhabited α] {N : Nat} {dptr : SDP}
    (hd : Derived N dptr) (depth : Nat) (bkt : Nat → Nat) (R : Nat)
    (m : Mem α) (hlo : m.orig.length = N) (hls : m.shad.length = N)
    (hmono : ∀ i j, i ≤ j → j ≤ R → bkt i ≤ bkt j)
    (hbound : bkt R ≤ dptr.size) :
    (distributeFinished dptr depth bkt R m).2 =
      (List.range R).filterMap (fun i =>
        if 2 ≤ bkt (i + 1) - bkt i then
          some (dptr.flip (bkt i) (bkt (i + 1) - bkt i), depth + 1)
        else none) ∧
    (∀ i, i < R → bkt i + 1 = bkt (i + 1) →
      (distributeFinished dptr depth bkt R m).1.read false
          (dptr.active.first + bkt i) =
        m.read dptr.shadow.buf (dptr.shadow.first + bkt i)) ∧
    (∀ b q, (distributeFinished dptr depth bkt R m).1.read b q = m.read b q ∨
      (b = false ∧ ∃ i, i < R ∧ bkt i + 1 = bkt (i + 1) ∧
        q = dptr.active.first + bkt i)) := by
  obtain ⟨_, hjobs, hframe, hsing⟩ :=
    distributeFinished_aux hd depth bkt R m hlo hls hmono hbound R le_rfl
  exact ⟨hjobs, hsing, hframe⟩

/-- Witness for C7: three singleton buckets over a concrete memory. -/
theorem distribute_finished_spec_witness :
    (Derived 3 ⟨⟨false, 0, 3⟩, ⟨true, 0, 3⟩, false⟩ ∧
      ([1, 2, 3] : List Nat).length = 3 ∧ ([4, 5, 6] : List Nat).length = 3 ∧
      (∀ i j : Nat, i ≤ j → j ≤ 2 → (fun i => i) i ≤ (fun i => i) j) ∧
      (fun i => i) 2 ≤ (⟨⟨false, 0, 3⟩, ⟨true, 0, 3⟩, false⟩ : SDP).size) ∧
    (distributeFinished (⟨⟨false, 0, 3⟩, ⟨true, 0, 3⟩, false⟩ : SDP) 0
        (fun i => i) 2 (⟨[1, 2, 3], [4, 5, 6]⟩ : Mem Nat)).2 =
      (List.range 2).filterMap (fun i =>
        if 2 ≤ (fun i => i) (i + 1) - (fun i => i) i then
          some ((⟨⟨false, 0, 3⟩, ⟨true, 0, 3⟩, false⟩ : SDP).flip ((fun i => i) i)
            ((fun i => i) (i + 1) - (fun i => i) i), 0 + 1)
        else none) := by
  have h := distribute_finished_spec (Derived.top) 0 (fun i => i) 2
    (⟨[1, 2, 3], [4, 5, 6]⟩ : Mem Nat) rfl rfl
    (fun i j hij _ => hij) (by decide)
  exact ⟨⟨Derived.top, rfl, rfl, fun i j hij _ => hij, by decide⟩, h.1⟩

/-! ## `SmallsortJob::run` (msd_parallel_radixsort.hpp)

The sequential job with explicit stack-based recursion.  One `smallStep`
performs a single action of the nested loops: popping an exhausted or
`max_depth`-abandoned frame, or processing one bucket of the top frame
(skip / skip / `sub_sort` / push) followed by the work-sharing check.
The racy `threads_.has_idle()` signal is an oracle over a step counter. -/

/-- `ctx.sub_sort(ds.begin(), ds.end(), ctx.cmp)`: `std::sort` with
`std::less` on the active slice, modelled as replacing the slice with a
sorted permutation of itself. -/
def sortSlice [Inhabited α] [LinearOrder α] (m : Mem α) (d : MDataSet) : Mem α :=
  m.writeSlice d (List.insertionSort (· ≤ ·) (MDataSet.toList m d))

/-- The state of one `SmallsortJob::run` invocation after the initial
`radixstack.emplace_back`: memory, the stack (bottom first, `back` is the
last element), the artificial `pop_front`, the emitted
`enqueue_small_job` calls (`donated`), the data sets handed to
`sub_sort` (`subsorted`), and a step counter driving the oracle. -/
structure SmallState (α : Type*) where
  mem : Mem α
  stack : List RadixStepM
  popFront : Nat
  donated : List (SDP × Nat)
  subsorted : List SDP
  tick : Nat

/-- Processing of one nonempty, non-singleton bucket `rs.idx` of the top
frame `rs`: either `sub_sort` it (below `subsort_threshold`) or push a
new `RadixStep_CI` for it.  Returns the new memory, the new stack (the
top frame's `idx` already advanced) and the new `sub_sort` record. -/
def smallBucketRes [Inhabited α] [LinearOrder α] (key : α → Nat → Nat) (R : Nat)
    (hkey : ∀ a d, key a d < R) (ctx : Ctx) (depth : Nat) (s : SmallState α)
    (rs : RadixStepM) : Mem α × List RadixStepM × List SDP :=
  let b := rs.idx
  let bsz := rs.bkt (b + 1) - rs.bkt b
  let stack1 := s.stack.dropLast ++ [{ rs with idx := b + 1 }]
  if bsz < ctx.params.subsort_threshold then
    -- sub_sort(rs.dptr.sub(bkt[b], bktsize).copy_back().active())
    let cb := (rs.dptr.sub (rs.bkt b) bsz).copy_back s.mem
    (sortSlice cb.2 cb.1.active, stack1, s.subsorted ++ [cb.1])
  else
    -- radixstack.emplace_back(rs.dptr.sub(...), depth + radixstack.size())
    let r := mkRadixStep key R hkey ctx.params.inplace_sequential_sort
      (rs.dptr.sub (rs.bkt b) bsz) (depth + s.stack.length) s.mem
    (r.2, stack1 ++ [r.1], s.subsorted)

/-- The work-sharing donation: drain all unprocessed buckets of the
bottom frame `rt` into independent `enqueue_small_job` calls at
`depth + pop_front` (after the `pop_front` increment). -/
def donationJobs (R : Nat) (depth popFront : Nat) (rt : RadixStepM) :
    List (SDP × Nat) :=
  (List.range' rt.idx (R - rt.idx)).filterMap (fun c =>
    if rt.bkt (c + 1) - rt.bkt c = 0 then none
    else if rt.bkt (c + 1) - rt.bkt c = 1 then none
    else some (rt.dptr.sub (rt.bkt c) (rt.bkt (c + 1) - rt.bkt c),
      depth + popFront + 1))

/-- One iteration of `SmallsortJob::run`'s loop nest. -/
def smallStep [Inhabited α] [LinearOrder α] (key : α → Nat → Nat) (R : Nat)
    (hkey : ∀ a d, key a d < R) (ctx : Ctx) (oracle : Nat → Bool)
    (depth : Nat) (s : SmallState α) : SmallState α :=
  let rs := s.stack.getLastD default
  if s.stack.length ≤ s.popFront then s
  else if R ≤ rs.idx then
      -- inner while exhausted: radixstack.pop_back()
      { s with stack := s.stack.dropLast }
    else if ctx.max_depth ≤ depth + s.stack.length then
      -- buckets would reach max_depth: donesize(...) and break, then pop
      { s with stack := s.stack.dropLast }
    else
      let bsz := rs.bkt (rs.idx + 1) - rs.bkt rs.idx
      let stack1 := s.stack.dropLast ++ [{ rs with idx := rs.idx + 1 }]
      if bsz = 0 then { s with stack := stack1, tick := s.tick + 1 }
      else if bsz = 1 then { s with stack := stack1, tick := s.tick + 1 }
      else
        let res := smallBucketRes key R hkey ctx depth s rs
        if ctx.params.enable_work_sharing && oracle s.tick then
          -- convert the bottom unprocessed frame (radixstack[pop_front++])
          -- into independent jobs
          let rt := res.2.1.getD s.popFront default
          { mem := res.1,
            stack := res.2.1.set s.popFront { rt with idx := R },
            popFront := s.popFront + 1,
            donated := s.donated ++ donationJobs R depth s.popFront rt,
            subsorted := res.2.2, tick := s.tick + 1 }
        else
          { mem := res.1, stack := res.2.1, popFront := s.popFront,
            donated := s.donated, subsorted := res.2.2, tick := s.tick + 1 }

/-- The state right after `run`'s entry for the radix path:
`dptr = dptr.copy_back(); radixstack.emplace_back(dptr, depth)`. -/
def smallInitState [Inhabited α] (key : α → Nat → Nat) (R : Nat)
    (hkey : ∀ a d, key a d < R) (ctx : Ctx) (dptr : SDP) (depth : Nat)
    (m : Mem α) : SmallState α :=
  let cb := dptr.copy_back m
  let r := mkRadixStep key R hkey ctx.params.inplace_sequential_sort cb.1 depth cb.2
  { mem := r.2, stack := [r.1], popFront := 0, donated := [], subsorted := [],
    tick := 0 }

/-- The loop of `SmallsortJob::run` (`while (radixstack.size() >
pop_front)`), fueled.  Returns final memory, the donated jobs and the
`sub_sort`ed data sets. -/
def smallLoop [Inhabited α] [LinearOrder α] (key : α → Nat → Nat) (R : Nat)
    (hkey : ∀ a d, key a d < R) (ctx : Ctx) (oracle : Nat → Bool) (depth : Nat) :
    Nat → SmallState α → Option (Mem α × List (SDP × Nat) × List SDP)
  | fuel, s =>
    if s.stack.length ≤ s.popFront then some (s.mem, s.donated, s.subsorted)
    else match fuel with
      | 0 => none
      | f + 1 => smallLoop key R hkey ctx oracle depth f
          (smallStep key R hkey ctx oracle depth s)

/-- A whole `SmallsortJob::run`: normalize with `copy_back`; ranges below
`subsort_threshold` go straight to `sub_sort`; otherwise run the explicit
radix stack. -/
def smallRun [Inhabited α] [LinearOrder α] (key : α → Nat → Nat) (R : Nat)
    (hkey : ∀ a d, key a d < R) (ctx : Ctx) (oracle : Nat → Bool)
    (dptr : SDP) (depth : Nat) (m : Mem α) (fuel : Nat) :
    Option (Mem α × List (SDP × Nat) × List SDP) :=
  let cb := dptr.copy_back m
  if cb.1.size < ctx.params.subsort_threshold then
    let cb2 := cb.1.copy_back cb.2
    some (sortSlice cb2.2 cb2.1.active, [], [cb2.1])
  else
    smallLoop key R hkey ctx oracle depth fuel
      (smallInitState key R hkey ctx dptr depth m)

/-- An unflipped descriptor whose active range lies in the original
buffer and whose shadow range lies in the shadow buffer. -/
def UnflippedOrig (d : SDP) : Prop :=
  d.flipped = false ∧ d.active.buf = false ∧ d.shadow.buf = true

/-- The active range lies in the buffer named by `flipped`. -/
def Oriented (d : SDP) : Prop :=
  d.active.buf = d.flipped ∧ d.shadow.buf = !d.flipped

theorem Oriented.of_unflipped {d : SDP} (h : UnflippedOrig d) : Oriented d := by
  obtain ⟨h1, h2, h3⟩ := h
  exact ⟨by rw [h2, h1], by rw [h3, h1]; rfl⟩

theorem UnflippedOrig.sub {d : SDP} (h : UnflippedOrig d) (o s : Nat) :
    UnflippedOrig (d.sub o s) := h

theorem Oriented.flip {d : SDP} (h : Oriented d) (o s : Nat) :
    Oriented (d.flip o s) := by
  obtain ⟨h1, h2⟩ := h
  exact ⟨by simp [SDP.flip, MDataSet.subi, h2], by simp [SDP.flip, MDataSet.subi, h1]⟩

theorem copy_back_unflips [Inhabited α] {d : SDP} (h : Oriented d) (m : Mem α) :
    UnflippedOrig ((d.copy_back m).1) := by
  obtain ⟨h1, h2⟩ := h
  unfold SDP.copy_back
  by_cases hf : d.flipped = false
  · rw [if_pos hf]
    exact ⟨hf, by rw [h1, hf], by rw [h2, hf]; rfl⟩

  · rw [if_neg hf]
    have hft : d.flipped = true := by revert hf; cases d.flipped <;> simp
    exact ⟨by simp [hft], by rw [h2, hft]; rfl, by rw [h1, hft]⟩

theorem mkRadixStep_oop_unflipped [Inhabited α] (key : α → Nat → Nat) (R : Nat)
    (hkey : ∀ a d, key a d < R) {d : SDP} (h : Oriented d) (depth : Nat)
    (m : Mem α) :
    UnflippedOrig ((mkRadixStep key R hkey false d depth m).1.dptr) := by
  simp only [mkRadixStep, Bool.false_eq_true, if_false]
  exact copy_back_unflips (h.flip 0 d.size) _

/-- The invariant of C10: every stack frame, every donated job and every
`sub_sort`ed data set carries an unflipped descriptor rooted in the
original buffer. -/
def SmallInv (s : SmallState α) : Prop :=
  (∀ rs ∈ s.stack, UnflippedOrig rs.dptr) ∧
  (∀ j ∈ s.donated, UnflippedOrig j.1) ∧
  (∀ d ∈ s.subsorted, UnflippedOrig d)

theorem smallBucketRes_stack [Inhabited α] [LinearOrder α]
    (key : α → Nat → Nat) (R : Nat) (hkey : ∀ a d, key a d < R) (ctx : Ctx)
    (hip : ctx.params.inplace_sequential_sort = false) (depth : Nat)
    (s : SmallState α) (rs : RadixStepM)
    (hstk : ∀ f ∈ s.stack, UnflippedOrig f.dptr) (hrs : UnflippedOrig rs.dptr) :
    ∀ f ∈ (smallBucketRes key R hkey ctx depth s rs).2.1, UnflippedOrig f.dptr := by
  have hstack1 : ∀ f ∈ s.stack.dropLast ++ [{ rs with idx := rs.idx + 1 }],
      UnflippedOrig f.dptr := by
    intro f hf
    rcases List.mem_append.mp hf with hf | hf
    · exact hstk f ((List.dropLast_sublist _).mem hf)
    · rw [List.mem_singleton.mp hf]
      exact hrs
  simp only [smallBucketRes]
  split
  · exact hstack1
  · intro f hf
    rcases List.mem_append.mp hf with hf | hf
    · exact hstack1 f hf
    · rw [List.mem_singleton.mp hf, hip]
      exact mkRadixStep_oop_unflipped key R hkey
        (Oriented.of_unflipped (hrs.sub _ _)) _ _

theorem smallBucketRes_subsorted [Inhabited α] [LinearOrder α]
    (key : α → Nat → Nat) (R : Nat) (hkey : ∀ a d, key a d < R) (ctx : Ctx)
    (depth : Nat) (s : SmallState α) (rs : RadixStepM)
    (hsub : ∀ d ∈ s.subsorted, UnflippedOrig d) (hrs : UnflippedOrig rs.dptr) :
    ∀ d ∈ (smallBucketRes key R hkey ctx depth s rs).2.2, UnflippedOrig d := by
  simp only [smallBucketRes]
  split
  · intro d hd
    rcases List.mem_append.mp hd with hd | hd
    · exact hsub d hd
    · rw [List.mem_singleton.mp hd]
      exact copy_back_unflips (Oriented.of_unflipped (hrs.sub _ _)) _
  · exact hsub

theorem donationJobs_unflipped (R depth popFront : Nat) (rt : RadixStepM)
    (hrt : UnflippedOrig rt.dptr) :
    ∀ j ∈ donationJobs R depth popFront rt, UnflippedOrig j.1 := by
  intro j hj
  unfold donationJobs at hj
  obtain ⟨c, _, hc⟩ := List.mem_filterMap.mp hj
  by_cases h0 : rt.bkt (c + 1) - rt.bkt c = 0
  · rw [if_pos h0] at hc; cases hc
  rw [if_neg h0] at hc
  by_cases h1 : rt.bkt (c + 1) - rt.bkt c = 1
  · rw [if_pos h1] at hc; cases hc
  rw [if_neg h1] at hc
  cases hc
  exact hrt

/-- One `smallStep` preserves the unflipped invariant on all frames,
donations and `sub_sort` records (out-of-place `RadixStep_CI`, the
default). -/
theorem smallStep_preserves_inv [Inhabited α] [LinearOrder α]
    (key : α → Nat → Nat) (R : Nat) (hkey : ∀ a d, key a d < R) (ctx : Ctx)
    (hip : ctx.params.inplace_sequential_sort = false)
    (oracle : Nat → Bool) (depth : Nat) (s : SmallState α) (h : SmallInv s) :
    SmallInv (smallStep key R hkey ctx oracle depth s) := by
  obtain ⟨hstk, hdon, hsub⟩ := h
  unfold smallStep
  set rs := s.stack.getLastD default with hrsdef
  by_cases h1 : s.stack.length ≤ s.popFront
  · rw [if_pos h1]; exact ⟨hstk, hdon, hsub⟩
  rw [if_neg h1]
  have hne : s.stack ≠ [] := by
    intro hnil
    rw [hnil] at h1
    simp at h1
  have hrs : UnflippedOrig rs.dptr := by
    rw [hrsdef, List.getLastD_eq_getLast?]
    cases hlast : s.stack.getLast? with
    | none => exact absurd (List.getLast?_eq_none_iff.mp hlast) hne
    | some r =>
      exact hstk r (List.mem_of_mem_getLast? hlast)
  by_cases h2 : R ≤ rs.idx
  · rw [if_pos h2]
    exact ⟨fun f hf => hstk f ((List.dropLast_sublist _).mem hf), hdon, hsub⟩
  rw [if_neg h2]
  by_cases h3 : ctx.max_depth ≤ depth + s.stack.length
  · rw [if_pos h3]
    exact ⟨fun f hf => hstk f ((List.dropLast_sublist _).mem hf), hdon, hsub⟩
  rw [if_neg h3]
  have hstack1 : ∀ f ∈ s.stack.dropLast ++ [{ rs with idx := rs.idx + 1 }],
      UnflippedOrig f.dptr := by
    intro f hf
    rcases List.mem_append.mp hf with hf | hf
    · exact hstk f ((List.dropLast_sublist _).mem hf)
    · rw [List.mem_singleton.mp hf]
      exact hrs
  by_cases h4 : rs.bkt (rs.idx + 1) - rs.bkt rs.idx = 0
  · rw [if_pos h4]; exact ⟨hstack1, hdon, hsub⟩
  rw [if_neg h4]
  by_cases h5 : rs.bkt (rs.idx + 1) - rs.bkt rs.idx = 1
  · rw [if_pos h5]; exact ⟨hstack1, hdon, hsub⟩
  rw [if_neg h5]
  have hresstk := smallBucketRes_stack key R hkey ctx hip depth s rs hstk hrs
  have hressub := smallBucketRes_subsorted key R hkey ctx depth s rs hsub hrs
  by_cases h6 : (ctx.params.enable_work_sharing && oracle s.tick) = true
  · rw [if_pos h6]
    have hlen : s.popFront < (smallBucketRes key R hkey ctx depth s rs).2.1.length := by
      have hlen1 : s.stack.length ≤
          (smallBucketRes key R hkey ctx depth s rs).2.1.length := by
        simp only [smallBucketRes]
        split
        · simp only [List.length_append, List.length_dropLast,
            List.length_singleton]
          have := List.length_pos.mpr hne
          omega
        · simp only [List.length_append, List.length_dropLast,
            List.length_singleton]
          have := List.length_pos.mpr hne
          omega
      omega
    set rt := (smallBucketRes key R hkey ctx depth s rs).2.1.getD s.popFront default
      with hrtdef
    have hrtmem : rt ∈ (smallBucketRes key R hkey ctx depth s rs).2.1 := by
      rw [hrtdef, List.getD_eq_getElem?_getD, List.getElem?_eq_getElem hlen]
      exact List.getElem_mem _
    have hrt : UnflippedOrig rt.dptr := hresstk rt hrtmem
    refine ⟨?_, ?_, hressub⟩
    · intro f hf
      rcases List.mem_or_eq_of_mem_set hf with hf | hf
      · exact hresstk f hf
      · rw [hf]
        exact hrt
    · intro j hj
      rcases List.mem_append.mp hj with hj | hj
      · exact hdon j hj
      · exact donationJobs_unflipped R depth s.popFront rt hrt j hj
  · rw [if_neg h6]
    exact ⟨hresstk, hdon, hressub⟩

theorem smallInit_inv [Inhabited α] (key : α → Nat → Nat) (R : Nat)
    (hkey : ∀ a d, key a d < R) (ctx : Ctx)
    (hip : ctx.params.inplace_sequential_sort = false) {dptr : SDP}
    (hor : Oriented dptr) (depth : Nat) (m : Mem α) :
    SmallInv (smallInitState key R hkey ctx dptr depth m) := by
  unfold smallInitState
  refine ⟨?_, by simp, by simp⟩
  intro f hf
  simp only [List.mem_singleton] at hf
  rw [hf, hip]
  exact mkRadixStep_oop_unflipped key R hkey
    (Oriented.of_unflipped (copy_back_unflips hor m)) _ _

/-- **C10.** Throughout `SmallsortJob::run` with the default out-of-place
`RadixStep_CI`, every data pointer in a radix-stack frame is unflipped
and rooted in the original buffer: the initial state (after `run`'s
`copy_back` and the first `emplace_back`) satisfies the invariant, every
step preserves it — so it holds after any number of steps, and with it
every donated job's descriptor and every `sub_sort`ed data set is
unflipped; the range `sub_sort`ed directly by the small-`n` path (two
`copy_back`s) is likewise unflipped and lives in the original buffer. -/
theorem smallsort_unflipped_invariant [Inhabited α] [LinearOrder α]
    (key : α → Nat → Nat) (R : Nat) (hkey : ∀ a d, key a d < R) (ctx : Ctx)
    (hip : ctx.params.inplace_sequential_sort = false)
    (oracle : Nat → Bool) {dptr : SDP} (hor : Oriented dptr) (depth : Nat)
    (m : Mem α) :
    (∀ k, SmallInv ((smallStep key R hkey ctx oracle depth)^[k]
        (smallInitState key R hkey ctx dptr depth m))) ∧
    (∀ s : SmallState α, SmallInv s →
      SmallInv (smallStep key R hkey ctx oracle depth s)) ∧
    UnflippedOrig (((dptr.copy_back m).1.copy_back (dptr.copy_back m).2).1) := by
  refine ⟨?_, fun s h => smallStep_preserves_inv key R hkey ctx hip oracle depth s h, ?_⟩
  · intro k
    induction k with
    | zero => exact smallInit_inv key R hkey ctx hip hor depth m
    | succ j ih =>
      rw [Function.iterate_succ_apply']
      exact smallStep_preserves_inv key R hkey ctx hip oracle depth _ ih
  · exact copy_back_unflips
      (Oriented.of_unflipped (copy_back_unflips hor m)) _

/-- Witness for C10: radix 2, the top-level descriptor over four
elements, default parameters, a never-idle oracle. -/
theorem smallsort_unflipped_invariant_witness :
    ((Ctx.mk defaultParams 4 4 2 4).params.inplace_sequential_sort = false ∧
      Oriented ⟨⟨false, 0, 4⟩, ⟨true, 0, 4⟩, false⟩) ∧
    SmallInv ((smallStep (fun v (_ : Nat) => v % 2) 2
        (fun a _ => Nat.mod_lt a (by decide)) (Ctx.mk defaultParams 4 4 2 4)
        (fun _ => false) 0)^[3]
      (smallInitState (fun v (_ : Nat) => v % 2) 2
        (fun a _ => Nat.mod_lt a (by decide)) (Ctx.mk defaultParams 4 4 2 4)
        ⟨⟨false, 0, 4⟩, ⟨true, 0, 4⟩, false⟩ 0
        (⟨[3, 1, 2, 0], [0, 0, 0, 0]⟩ : Mem Nat))) := by
  have h := smallsort_unflipped_invariant (fun v (_ : Nat) => v % 2) 2
    (fun a _ => Nat.mod_lt a (by decide)) (Ctx.mk defaultParams 4 4 2 4) rfl
    (fun _ => false) (⟨rfl, rfl⟩ : Oriented ⟨⟨false, 0, 4⟩, ⟨true, 0, 4⟩, false⟩)
    0 (⟨[3, 1, 2, 0], [0, 0, 0, 0]⟩ : Mem Nat)
  exact ⟨⟨rfl, ⟨rfl, rfl⟩⟩, h.1 3⟩

/-! ## The engine: `PRSContext::enqueue` and `radix_sort` frontend -/

/-- `PRSContext::enqueue` dispatch plus the thread pool, sequentialized
with fuel: jobs are processed in queue order; a range larger than
`sequential_threshold()` (with parallel radix sort enabled) becomes a
`BigRadixStepCE`, anything else a `SmallsortJob`; newly spawned jobs are
appended.  (`enqueue_small_job`'s choice between 32-bit and 64-bit
`BktSizeType` has no observable effect here: bucket sizes are `Nat`.) -/
def engineLoop [Inhabited α] [LinearOrder α] (key : α → Nat → Nat) (R : Nat)
    (hkey : ∀ a d, key a d < R) (ctx : Ctx) (oracle : Nat → Bool) :
    Nat → List (SDP × Nat) → Mem α → Option (Mem α)
  | _, [], m => some m
  | 0, _ :: _, _ => none
  | fuel + 1, (dp, depth) :: rest, m =>
    if ctx.params.enable_parallel_radix_sort && decide (ctx.seqThreshold < dp.size)
    then
      let r := bigStep key R ctx dp depth m
      engineLoop key R hkey ctx oracle fuel (rest ++ r.2) r.1
    else
      match smallRun key R hkey ctx oracle dp depth m fuel with
      | none => none
      | some r => engineLoop key R hkey ctx oracle fuel (rest ++ r.2.1) r.1

/-- `radix_sort(begin, end, max_depth)` with the default parameters:
build the context, allocate the shadow array, enqueue the top-level job
over the whole range at depth 0, and run the pool until empty; the
result is the original range. -/
def radix_sort_model [Inhabited α] [LinearOrder α] (key : α → Nat → Nat)
    (R : Nat) (hkey : ∀ a d, key a d < R) (numThreads maxDepth : Nat)
    (oracle : Nat → Bool) (fuel : Nat) (input : List α) : Option (List α) :=
  let n := input.length
  let ctx : Ctx := ⟨defaultParams, n, n, numThreads, maxDepth⟩
  let m : Mem α := ⟨input, List.replicate n default⟩
  match engineLoop key R hkey ctx oracle fuel
      [(⟨⟨false, 0, n⟩, ⟨true, 0, n⟩, false⟩, 0)] m with
  | none => none
  | some mf => some mf.orig

/-- `get_key<uint32_t, uint8_t>`:
`v >> (8*sizeof(v) - 8*depth - 8)`, truncated to a byte by the
`uint8_t` return type.  (For `depth ≥ 4` the C++ shift is undefined; the
model's `Nat` subtraction clamps to shift 0 — the evaluations below only
use depths below 4.) -/
def get_key32_8 (v depth : Nat) : Nat := (v >>> (32 - 8 * depth - 8)) % 256

theorem get_key32_8_lt (v depth : Nat) : get_key32_8 v depth < 256 :=
  Nat.mod_lt _ (by decide)

/-- The digit sequence of a value under a key extractor, most significant
digit first, over depths `0 .. w-1`. -/
def keySeq (key : Nat → Nat → Nat) (w x : Nat) : List Nat :=
  (List.range w).map (key x)

/-- **C1 (failing input).**  `radix_sort` with `max_depth = 1` on the 32
reversed values `31 .. 0` (all of which share key digits 0..2 and differ
at digit 3) returns the range unchanged, i.e. in strictly decreasing
order: 31 sits before 30 although 30 strictly precedes 31 in the total
order induced by the key extractor over all depths (MSD first).  The
engine abandons buckets that reach `max_depth` without invoking
`sub_sort`, contradicting the claimed full sortedness. -/
theorem radix_sort_maxdepth_unsorted :
    radix_sort_model get_key32_8 256 get_key32_8_lt 4 1 (fun _ => false) 100
      ((List.range 32).reverse) = some ((List.range 32).reverse) ∧
    ((List.range 32).reverse).getD 0 0 = 31 ∧
    ((List.range 32).reverse).getD 1 0 = 30 ∧
    List.Lex (· < ·) (keySeq get_key32_8 4 30) (keySeq get_key32_8 4 31) ∧
    ¬ (keySeq get_key32_8 4 31 = keySeq get_key32_8 4 30 ∨
      List.Lex (· < ·) (keySeq get_key32_8 4 31) (keySeq get_key32_8 4 30)) := by
  have h30 : keySeq get_key32_8 4 30 = [0, 0, 0, 30] := by decide
  have h31 : keySeq get_key32_8 4 31 = [0, 0, 0, 31] := by decide
  refine ⟨by decide, by decide, by decide, ?_, ?_⟩
  · rw [h30, h31]
    exact List.Lex.cons (List.Lex.cons (List.Lex.cons (List.Lex.rel (by decide))))
  · rw [h30, h31]
    rintro (h | h)
    · simp at h
    · cases h with
      | rel hr => exact absurd hr (lt_irrefl 0)
      | cons h => cases h with
        | rel hr => exact absurd hr (lt_irrefl 0)
        | cons h => cases h with
          | rel hr => exact absurd hr (lt_irrefl 0)
          | cons h => cases h with
            | rel hr => omega

/-- **C2 (failing input).**  A `SmallsortJob` over the 32 reversed values
`47 .. 16` (one single bucket at digit 0) with `max_depth = 1`: the
bucket reaches `max_depth`, yet `sub_sort` is never applied (the
`sub_sort` record is empty) and the range is returned in its original,
comparator-unsorted order — the `break` at `max_depth` skips the
comparison-sort fallback promised by the `radix_sort` documentation. -/
theorem smallsort_maxdepth_no_subsort :
    smallRun get_key32_8 256 get_key32_8_lt (Ctx.mk defaultParams 32 32 4 1)
      (fun _ => false) ⟨⟨false, 0, 32⟩, ⟨true, 0, 32⟩, false⟩ 0
      (⟨(List.range' 16 32).reverse, List.replicate 32 0⟩ : Mem Nat) 100 =
      some (⟨(List.range' 16 32).reverse, (List.range' 16 32).reverse⟩, [], []) ∧
    ¬ List.Sorted (· ≤ ·) ((List.range' 16 32).reverse : List Nat) ∧
    (∀ v ∈ ((List.range' 16 32).reverse : List Nat), get_key32_8 v 0 = 0) := by
  exact ⟨by decide, by decide, by decide⟩

/-- Bucket contents after an out-of-place `RadixStep_CI`: the slice
`[bkt b, bkt (b+1))` of the resulting active range is exactly the list
of input elements whose key at `depth` is `b`, in order. -/
theorem mkRadixStep_oop_bucket [Inhabited α] (key : α → Nat → Nat) (R : Nat)
    (hkey : ∀ a d, key a d < R) {N : Nat} {dptr : SDP} (hd : Derived N dptr)
    (depth : Nat) (m : Mem α) (hlo : m.orig.length = N) (hls : m.shad.length = N) :
    ∀ b, (((MDataSet.toList (mkRadixStep key R hkey false dptr depth m).2
        ((mkRadixStep key R hkey false dptr depth m).1.dptr.active)).drop
        ((mkRadixStep key R hkey false dptr depth m).1.bkt b)).take
        ((mkRadixStep key R hkey false dptr depth m).1.bkt (b + 1) -
          (mkRadixStep key R hkey false dptr depth m).1.bkt b)) =
      keyFilter (fun v => key v depth) (MDataSet.toList m dptr.active) b := by
  intro b
  obtain ⟨h1, h2, h3, h4, h5, h6⟩ := hd.invariant
  set l := MDataSet.toList m dptr.active with hldef
  set keyd := fun v => key v depth with hkeyd
  have hlsize : l.length = dptr.size := by
    rw [hldef]
    apply toList_length
    cases hb : dptr.active.buf <;> simp [Mem.buf, hb, hlo, hls] <;> omega
  have hhist : histogram keyd l = keyCount keyd l := histogram_eq_keyCount keyd l
  obtain ⟨hbkt, _⟩ := mkRadixStep_bkt key R hkey false dptr depth m
  rw [hbkt, hhist]
  have hdiff : exclScan (keyCount keyd l) (b + 1) - exclScan (keyCount keyd l) b =
      keyCount keyd l b := by
    simp [exclScan]
  rw [hdiff]
  -- bounds of the result range
  have hreslen : (MDataSet.toList (mkRadixStep key R hkey false dptr depth m).2
      ((mkRadixStep key R hkey false dptr depth m).1.dptr.active)).length =
      dptr.size := by
    rw [mkRadixStep_oop_dptr key R hkey hd depth m]
    show (MDataSet.toList _
      (⟨false, dptr.active.first, dptr.active.first + dptr.size⟩ : MDataSet)).length =
      dptr.size
    rw [toList_length]
    · simp [MDataSet.size]
    · show dptr.active.first + dptr.size ≤
        (((mkRadixStep key R hkey false dptr depth m).2).buf false).length
      rw [mkRadixStep_oop_lengths key R hkey dptr depth m false]
      have h9 : (m.buf false).length = N := by simpa [Mem.buf] using hlo
      rw [h9]
      simp only [SDP.size, MDataSet.size]
      omega
  -- the scatter hypotheses
  have hordS : ∀ j k, j < k →
      (fun k => dptr.shadow.first + exclScan (histogram keyd l) k) j +
        keyCount keyd l j ≤
      (fun k => dptr.shadow.first + exclScan (histogram keyd l) k) k := by
    intro j k hjk
    simp only [hhist]
    have : exclScan (keyCount keyd l) j + keyCount keyd l j =
        exclScan (keyCount keyd l) (j + 1) := by simp [exclScan]
    have hm := exclScan_mono (keyCount keyd l) (show j + 1 ≤ k by omega)
    omega
  have hboundS : ∀ k, keyCount keyd l k ≠ 0 →
      (fun k => dptr.shadow.first + exclScan (histogram keyd l) k) k +
        keyCount keyd l k ≤ (m.buf dptr.shadow.buf).length := by
    intro k _
    simp only [hhist]
    have h7 : exclScan (keyCount keyd l) k + keyCount keyd l k =
        exclScan (keyCount keyd l) (k + 1) := by simp [exclScan]
    have h8 : exclScan (keyCount keyd l) (k + 1) ≤ l.length :=
      exclScan_keyCount_le keyd l (k + 1)
    have h9 : (m.buf dptr.shadow.buf).length = N := by
      cases hb : dptr.shadow.buf <;> simp [Mem.buf, hb, hlo, hls]
    rw [h9]
    simp only [SDP.size, MDataSet.size] at hlsize
    omega
  obtain ⟨_, hin⟩ := scatter_spec keyd l
    (fun k => dptr.shadow.first + exclScan (histogram keyd l) k)
    (m.buf dptr.shadow.buf) hordS hboundS
  -- assemble the slice
  apply slice_eq_of_getD
  · rw [keyFilter, ← List.countP_eq_length_filter]
    rfl
  · rw [hreslen]
    have h7 : exclScan (keyCount keyd l) b + keyCount keyd l b =
        exclScan (keyCount keyd l) (b + 1) := by simp [exclScan]
    have h8 : exclScan (keyCount keyd l) (b + 1) ≤ l.length :=
      exclScan_keyCount_le keyd l (b + 1)
    omega
  · intro i hi
    have hidx : exclScan (keyCount keyd l) b + i < dptr.size := by
      have h7 : exclScan (keyCount keyd l) b + keyCount keyd l b =
          exclScan (keyCount keyd l) (b + 1) := by simp [exclScan]
      have h8 : exclScan (keyCount keyd l) (b + 1) ≤ l.length :=
        exclScan_keyCount_le keyd l (b + 1)
      omega
    have htl := mkRadixStep_oop_toList key R hkey hd depth m hlo hls
      (exclScan (keyCount keyd l) b + i) hidx
    rw [← hldef, ← hkeyd] at htl
    rw [htl]
    have := hin b i hi
    simp only [hhist] at this ⊢
    rw [show dptr.shadow.first + (exclScan (keyCount keyd l) b + i) =
      dptr.shadow.first + exclScan (keyCount keyd l) b + i by omega]
    exact this

/-! ## Correctness of the in-place cycle-following permutation

The classical American-flag invariant: the cursor region
`[bkt[k], incl k)` of every bucket already holds key-`k` elements, the
prefix `[0, i)` is final, and the elements sitting at unfilled positions
match the remaining cursor capacities key by key.  The counts are taken
over index intervals. -/

/-- Number of key-`k'` elements among positions `[a, b)`. -/
def sliceCnt [Inhabited α] (key : α → Nat) (A : List α) (a b k' : Nat) : Nat :=
  ∑ p ∈ Finset.Ico a b, if key (A.getD p default) = k' then 1 else 0

theorem sliceCnt_empty [Inhabited α] (key : α → Nat) (A : List α) (a b k' : Nat)
    (h : b ≤ a) : sliceCnt key A a b k' = 0 := by
  unfold sliceCnt
  rw [Finset.Ico_eq_empty (by omega)]
  rfl

theorem sliceCnt_split [Inhabited α] (key : α → Nat) (A : List α) (a b c k' : Nat)
    (hab : a ≤ b) (hbc : b ≤ c) :
    sliceCnt key A a c k' = sliceCnt key A a b k' + sliceCnt key A b c k' := by
  unfold sliceCnt
  rw [← Finset.sum_Ico_consecutive _ hab hbc]

theorem sliceCnt_succ_top [Inhabited α] (key : α → Nat) (A : List α) (a b k' : Nat)
    (hab : a ≤ b) :
    sliceCnt key A a (b + 1) k' =
      sliceCnt key A a b k' + (if key (A.getD b default) = k' then 1 else 0) := by
  unfold sliceCnt
  rw [Finset.sum_Ico_succ_top hab]

theorem sliceCnt_set_out [Inhabited α] (key : α → Nat) (A : List α)
    (a b k' j : Nat) (v : α) (h : j < a ∨ b ≤ j) :
    sliceCnt key (A.set j v) a b k' = sliceCnt key A a b k' := by
  unfold sliceCnt
  apply Finset.sum_congr rfl
  intro p hp
  rw [Finset.mem_Ico] at hp
  rw [getD_set_ne _ _ _ _ (by omega)]

theorem sliceCnt_set_in [Inhabited α] (key : α → Nat) (A : List α)
    (a b k' j : Nat) (v : α) (hj : a ≤ j ∧ j < b) (hjl : j < A.length) :
    sliceCnt key (A.set j v) a b k' +
        (if key (A.getD j default) = k' then 1 else 0) =
      sliceCnt key A a b k' + (if key v = k' then 1 else 0) := by
  unfold sliceCnt
  have hmem : j ∈ Finset.Ico a b := Finset.mem_Ico.mpr hj
  rw [← Finset.add_sum_erase _ _ hmem, ← Finset.add_sum_erase _
    (fun p => if key (A.getD p default) = k' then 1 else 0) hmem]
  have herase : ∀ p ∈ (Finset.Ico a b).erase j,
      (if key ((A.set j v).getD p default) = k' then 1 else 0) =
        (if key (A.getD p default) = k' then 1 else 0) := by
    intro p hp
    rw [getD_set_ne _ _ _ _ (Finset.ne_of_mem_erase hp)]
  rw [Finset.sum_congr rfl herase, getD_set_self _ _ _ hjl]
  omega

theorem sliceCnt_pointwise [Inhabited α] (key : α → Nat) (A : List α)
    (a b k' : Nat) (h : sliceCnt key A a b k' = 0) :
    ∀ p, a ≤ p → p < b → key (A.getD p default) ≠ k' := by
  intro p hap hpb hk
  unfold sliceCnt at h
  have := Finset.sum_eq_zero_iff.mp h p (Finset.mem_Ico.mpr ⟨hap, hpb⟩)
  rw [if_pos hk] at this
  cases this

theorem sliceCnt_total [Inhabited α] (key : α → Nat) (R : Nat)
    (hkey : ∀ a, key a < R) (A : List α) (a b : Nat) :
    ∑ k' ∈ Finset.range R, sliceCnt key A a b k' = b - a := by
  unfold sliceCnt
  rw [Finset.sum_comm]
  have h1 : ∀ p ∈ Finset.Ico a b,
      (∑ k' ∈ Finset.range R, if key (A.getD p default) = k' then 1 else 0) = 1 := by
    intro p _
    rw [Finset.sum_ite_eq (Finset.range R) (key (A.getD p default)) (fun _ => 1)]
    rw [if_pos (Finset.mem_range.mpr (hkey (A.getD p default)))]
  rw [Finset.sum_congr rfl h1]
  simp [Nat.card_Ico]

/-- Writing back the value already at `i` is the identity. -/
theorem set_getD_self [Inhabited α] (A : List α) (i : Nat) :
    A.set i (A.getD i default) = A := by
  by_cases hi : i < A.length
  · apply List.ext_getElem (by simp)
    intro p hp hp2
    by_cases hpi : p = i
    · subst hpi
      rw [List.getElem_set_self (by simpa using hp2)]
      rw [List.getD_eq_getElem?_getD, List.getElem?_eq_getElem hi]
      rfl
    · rw [List.getElem_set_ne (by omega)]
  · rw [List.set_eq_of_length_le (by omega)]

/-- Exchanging the entries at two positions yields a permutation. -/
theorem swap_set_perm [Inhabited α] :
    ∀ (l : List α) (i j : Nat), i < j → j < l.length →
      List.Perm ((l.set i (l.getD j default)).set j (l.getD i default)) l := by
  intro l i j
  induction l generalizing i j with
  | nil => intro _ h; simp at h
  | cons a t ih =>
    intro hij hj
    match i, j with
    | 0, j + 1 =>
      -- head swapped with position j+1 of the tail
      simp only [List.set_cons_zero, List.set_cons_succ, List.getD_cons_succ,
        List.getD_cons_zero]
      -- goal: t.getD j :: t.set j a is a permutation of a :: t
      clear hij ih
      have hjt : j < t.length := by simpa using hj
      clear hj
      induction t generalizing j with
      | nil => simp at hjt
      | cons b t2 ih2 =>
        match j with
        | 0 =>
          simp only [List.getD_cons_zero, List.set_cons_zero]
          exact List.Perm.swap a b t2
        | j + 1 =>
          simp only [List.getD_cons_succ, List.set_cons_succ]
          exact List.Perm.trans
            (List.Perm.swap b (t2.getD j default) (t2.set j a))
            (List.Perm.trans (List.Perm.cons b (ih2 j (by simpa using hjt)))
              (List.Perm.swap a b t2))
    | i + 1, 0 => omega
    | i + 1, j + 1 =>
      simp only [List.set_cons_succ, List.getD_cons_succ]
      exact List.Perm.cons a (ih i j (by omega) (by simpa using hj))

/-- Over the whole index range, `sliceCnt` is the key count. -/
theorem sliceCnt_zero_length [Inhabited α] (key : α → Nat) (l : List α) (k : Nat) :
    sliceCnt key l 0 l.length k = keyCount key l k := by
  induction l using List.reverseRecOn with
  | nil => simp [sliceCnt, keyCount]
  | append_singleton t x ih =>
    rw [List.length_append, List.length_singleton]
    rw [sliceCnt_succ_top key (t ++ [x]) 0 t.length k (Nat.zero_le _)]
    have h1 : (t ++ [x]).getD t.length default = x := by
      rw [List.getD_eq_getElem?_getD, List.getElem?_append_right (le_refl _)]
      simp
    have h2 : sliceCnt key (t ++ [x]) 0 t.length k = sliceCnt key t 0 t.length k := by
      unfold sliceCnt
      apply Finset.sum_congr rfl
      intro p hp
      rw [Finset.mem_Ico] at hp
      have h3 : (t ++ [x]).getD p default = t.getD p default := by
        rw [List.getD_eq_getElem?_getD, List.getD_eq_getElem?_getD,
          List.getElem?_append_left hp.2]
      rw [h3]
    rw [h1, h2, ih, keyCount, keyCount, List.countP_append]
    by_cases hx : key x = k <;> simp [List.countP_cons, hx]

/-- A slice all of whose keys are `k` counts its own length. -/
theorem sliceCnt_full_of_keys [Inhabited α] (key : α → Nat) (A : List α)
    (a b k : Nat) (h : ∀ p, a ≤ p → p < b → key (A.getD p default) = k) :
    sliceCnt key A a b k = b - a := by
  have h2 : sliceCnt key A a b k = ∑ _p ∈ Finset.Ico a b, 1 := by
    unfold sliceCnt
    apply Finset.sum_congr rfl
    intro p hp
    rw [Finset.mem_Ico] at hp
    rw [if_pos (h p hp.1 hp.2)]
  rw [h2, Finset.sum_const, smul_eq_mul, mul_one, Nat.card_Ico]

/-- A key-`k` element inside the window makes the count positive. -/
theorem sliceCnt_one_le [Inhabited α] (key : α → Nat) (A : List α)
    (a b k p : Nat) (hap : a ≤ p) (hpb : p < b)
    (hk : key (A.getD p default) = k) : 1 ≤ sliceCnt key A a b k := by
  unfold sliceCnt
  have hmem : p ∈ Finset.Ico a b := Finset.mem_Ico.mpr ⟨hap, hpb⟩
  rw [← Finset.add_sum_erase _ (fun q => if key (A.getD q default) = k then 1 else 0) hmem]
  rw [if_pos hk]
  omega

/-- Every index below the total prefix sum lies in some bucket's span. -/
theorem exclScan_locate (sz : Nat → Nat) (R p : Nat) (h : p < exclScan sz R) :
    ∃ b, b < R ∧ exclScan sz b ≤ p ∧ p < exclScan sz (b + 1) := by
  induction R with
  | zero => simp [exclScan] at h
  | succ r ih =>
    by_cases hp : p < exclScan sz r
    · obtain ⟨b, hb, h1, h2⟩ := ih hp
      exact ⟨b, by omega, h1, h2⟩
    · exact ⟨r, by omega, by omega, h⟩

/-- Bucket spans `[exclScan sz k, exclScan sz (k+1))` are pairwise disjoint. -/
theorem span_unique (sz : Nat → Nat) (p k k' : Nat)
    (h1 : exclScan sz k ≤ p) (h2 : p < exclScan sz (k + 1))
    (h3 : exclScan sz k' ≤ p) (h4 : p < exclScan sz (k' + 1)) : k = k' := by
  by_contra hne
  rcases Nat.lt_or_ge k k' with h | h
  · have := exclScan_mono sz (show k + 1 ≤ k' by omega)
    omega
  · have hlt : k' < k := by omega
    have := exclScan_mono sz (show k' + 1 ≤ k by omega)
    omega

/-- Pulling the entry at `j` into the hand and writing the old hand at `j`
is a permutation of `hand :: array`. -/
theorem cons_getD_set_perm [Inhabited α] :
    ∀ (A : List α) (j : Nat) (v : α), j < A.length →
      List.Perm (A.getD j default :: A.set j v) (v :: A) := by
  intro A
  induction A with
  | nil => intro j v h; simp at h
  | cons a t ih =>
    intro j v hj
    match j with
    | 0 =>
      simp only [List.getD_cons_zero, List.set_cons_zero]
      exact List.Perm.swap v a t
    | j + 1 =>
      simp only [List.getD_cons_succ, List.set_cons_succ]
      exact List.Perm.trans (List.Perm.swap a (t.getD j default) (t.set j v))
        (List.Perm.trans (List.Perm.cons a (ih j v (by simpa using hj)))
          (List.Perm.swap v a t))

/-- One cascade swap, seen on the virtual array that carries the hand at
slot `i`, is a permutation. -/
theorem cascade_swap_perm [Inhabited α] (A : List α) (i j : Nat) (perm : α)
    (hij : i < j) (hj : j < A.length) :
    List.Perm ((A.set j perm).set i (A.getD j default)) (A.set i perm) := by
  have hi : i < A.length := by omega
  have h2 : (A.set j perm).getD i default = A.getD i default :=
    getD_set_ne _ _ _ _ (by omega)
  have c2 := cons_getD_set_perm (A.set j perm) i (A.getD j default)
    (by simpa using hi)
  rw [h2] at c2
  have c1 := cons_getD_set_perm A j perm hj
  have c3 := cons_getD_set_perm A i perm hi
  exact (c2.trans (c1.trans c3.symm)).cons_inv

/-- Invariant of the in-place permutation, taken at the outer loop head
over the current array, and inside a cascade over the virtual array that
carries the hand at slot `i`.  `A0` is the original slice contents, so
`keyCount key A0` is the `bktsize` histogram and
`exclScan (keyCount key A0)` the bucket base array. -/
structure OInv [Inhabited α] (key : α → Nat) (R : Nat) (A0 : List α)
    (i : Nat) (A : List α) (c : Nat → Nat) : Prop where
  len : A.length = A0.length
  perm : List.Perm A A0
  b1 : ∀ k, k < R → c k ≤ exclScan (keyCount key A0) (k + 1)
  b2 : ∀ k, k < R → i < c k → exclScan (keyCount key A0) k ≤ c k
  top : ∀ k, k < R → ∀ p, exclScan (keyCount key A0) k ≤ p → c k ≤ p →
    p < exclScan (keyCount key A0) (k + 1) → key (A.getD p default) = k
  fin : ∀ k, k < R → ∀ p, exclScan (keyCount key A0) k ≤ p →
    p < exclScan (keyCount key A0) (k + 1) → p < i → key (A.getD p default) = k
  bnd : ∃ b, b ≤ R ∧ i = exclScan (keyCount key A0) b

/-- If bucket `k0`'s span is completely filled with key-`k0` elements and
some position `i` also holds a key-`k0` element, then `i` lies inside the
span (otherwise the array would hold more key-`k0` elements than the
original). -/
theorem hand_in_span [Inhabited α] (key : α → Nat) (A0 M : List α) (i k0 : Nat)
    (hlen : M.length = A0.length) (hperm : List.Perm M A0)
    (hfull : ∀ p, exclScan (keyCount key A0) k0 ≤ p →
      p < exclScan (keyCount key A0) (k0 + 1) → key (M.getD p default) = k0)
    (hMi : key (M.getD i default) = k0) (hin : i < A0.length) :
    exclScan (keyCount key A0) k0 ≤ i ∧
      i < exclScan (keyCount key A0) (k0 + 1) := by
  have htot : sliceCnt key M 0 M.length k0 = keyCount key A0 k0 := by
    rw [sliceCnt_zero_length]
    exact hperm.countP_eq _
  have hincl : exclScan (keyCount key A0) (k0 + 1) ≤ A0.length :=
    exclScan_keyCount_le key A0 (k0 + 1)
  have hexk : exclScan (keyCount key A0) k0 ≤ exclScan (keyCount key A0) (k0 + 1) :=
    exclScan_mono _ (by omega)
  have hfull' : sliceCnt key M (exclScan (keyCount key A0) k0)
      (exclScan (keyCount key A0) (k0 + 1)) k0 =
      exclScan (keyCount key A0) (k0 + 1) - exclScan (keyCount key A0) k0 :=
    sliceCnt_full_of_keys _ _ _ _ _ (fun p h1 h2 => hfull p h1 h2)
  have hstep : exclScan (keyCount key A0) (k0 + 1) =
      exclScan (keyCount key A0) k0 + keyCount key A0 k0 := rfl
  have hsplit : sliceCnt key M 0 M.length k0 =
      sliceCnt key M 0 (exclScan (keyCount key A0) k0) k0 +
      sliceCnt key M (exclScan (keyCount key A0) k0)
        (exclScan (keyCount key A0) (k0 + 1)) k0 +
      sliceCnt key M (exclScan (keyCount key A0) (k0 + 1)) M.length k0 := by
    rw [sliceCnt_split key M 0 (exclScan (keyCount key A0) (k0 + 1)) M.length k0
      (Nat.zero_le _) (by omega),
      sliceCnt_split key M 0 (exclScan (keyCount key A0) k0)
        (exclScan (keyCount key A0) (k0 + 1)) k0 (Nat.zero_le _) hexk]
  have hicase : exclScan (keyCount key A0) k0 ≤ i ∧
      i < exclScan (keyCount key A0) (k0 + 1) ∨
      i < exclScan (keyCount key A0) k0 ∨
      exclScan (keyCount key A0) (k0 + 1) ≤ i := by omega
  rcases hicase with hc | hc | hc
  · exact hc
  · have := sliceCnt_one_le key M 0 (exclScan (keyCount key A0) k0) k0 i
      (Nat.zero_le _) hc hMi
    omega
  · have := sliceCnt_one_le key M (exclScan (keyCount key A0) (k0 + 1))
      M.length k0 i hc (by omega) hMi
    omega

/-- One-step unfolding of `cascade`. -/
theorem cascade_eq [Inhabited α] (key : α → Nat) (R : Nat) (hkey : ∀ a, key a < R)
    (i : Nat) (perm : α) (A : List α) (c : Nat → Nat) :
    cascade key R hkey i perm A c =
      if c (key perm) - 1 > i then
        cascade key R hkey i (A.getD (c (key perm) - 1) default)
          (A.set (c (key perm) - 1) perm)
          (Function.update c (key perm) (c (key perm) - 1))
      else (perm, A, Function.update c (key perm) (c (key perm) - 1)) := by
  rw [cascade]
  by_cases h : c (key perm) - 1 > i <;> simp [h]

theorem update_apply (c : Nat → Nat) (a b k : Nat) :
    Function.update c a b k = if k = a then b else c k := by
  by_cases h : k = a <;> simp [Function.update, h]

/-- Correctness of the inner cascade: started from an invariant state with
the hand drawn from slot `i`, it returns with the exit bucket based
exactly at `i`, that bucket nonempty, and the outer invariant
re-established at `i + bktsize[exit key]` after the final write at `i`. -/
theorem cascade_spec [Inhabited α] (key : α → Nat) (R : Nat) (hkey : ∀ a, key a < R)
    (A0 : List α) (i : Nat) (hi : i < A0.length) :
    ∀ s perm A c, (∑ k ∈ Finset.range R, c k) = s →
      OInv key R A0 i (A.set i perm) c →
      OInv key R A0
        (i + keyCount key A0 (key (cascade key R hkey i perm A c).1))
        (((cascade key R hkey i perm A c).2.1).set i
          (cascade key R hkey i perm A c).1)
        (cascade key R hkey i perm A c).2.2 ∧
      exclScan (keyCount key A0) (key (cascade key R hkey i perm A c).1) = i ∧
      1 ≤ keyCount key A0 (key (cascade key R hkey i perm A c).1) := by
  intro s
  induction s using Nat.strong_induction_on with
  | _ s ih =>
  intro perm A c hsum hinv
  have hk0R : key perm < R := hkey perm
  have hlen : A.length = A0.length := by
    have h0 := hinv.len
    simpa using h0
  have hiA : i < A.length := by omega
  have hMi : (A.set i perm).getD i default = perm := getD_set_self _ _ _ hiA
  have hstep : ∀ k, exclScan (keyCount key A0) (k + 1) =
      exclScan (keyCount key A0) k + keyCount key A0 k := fun k => rfl
  rw [cascade_eq]
  by_cases hcond : c (key perm) - 1 > i
  · -- iteration: swap the hand with the element at the decremented cursor
    rw [if_pos hcond]
    set j := c (key perm) - 1 with hj
    have hck : i + 1 < c (key perm) := by omega
    have hjlt : j < exclScan (keyCount key A0) (key perm + 1) := by
      have := hinv.b1 (key perm) hk0R
      omega
    have hjA : j < A.length := by
      have h1 := exclScan_keyCount_le key A0 (key perm + 1)
      omega
    have hexj : exclScan (keyCount key A0) (key perm) ≤ j := by
      by_cases hc2 : exclScan (keyCount key A0) (key perm) < c (key perm)
      · omega
      · have hfull : ∀ p, exclScan (keyCount key A0) (key perm) ≤ p →
            p < exclScan (keyCount key A0) (key perm + 1) →
            key ((A.set i perm).getD p default) = key perm := by
          intro p h1 h2
          exact hinv.top (key perm) hk0R p h1 (by omega) h2
        have hspan := hand_in_span key A0 (A.set i perm) i (key perm)
          (by simpa using hlen) hinv.perm hfull (by rw [hMi]) hi
        omega
    have hM2j : ((A.set j perm).set i (A.getD j default)).getD j default = perm := by
      rw [getD_set_ne _ _ _ _ (by omega), getD_set_self _ _ _ (by simpa using hjA)]
    have hM2other : ∀ p, p ≠ i → p ≠ j →
        ((A.set j perm).set i (A.getD j default)).getD p default =
          (A.set i perm).getD p default := by
      intro p h1 h2
      rw [getD_set_ne _ _ _ _ h1, getD_set_ne _ _ _ _ h2, getD_set_ne _ _ _ _ h1]
    have hinv2 : OInv key R A0 i ((A.set j perm).set i (A.getD j default))
        (Function.update c (key perm) j) := by
      refine ⟨by simp [hlen], ?_, ?_, ?_, ?_, ?_, hinv.bnd⟩
      · exact (cascade_swap_perm A i j perm (by omega) hjA).trans hinv.perm
      · intro k hk
        by_cases hkk : k = key perm
        · subst hkk
          rw [update_apply, if_pos rfl]
          omega
        · rw [update_apply, if_neg hkk]
          exact hinv.b1 k hk
      · intro k hk hlt
        by_cases hkk : k = key perm
        · subst hkk
          rw [update_apply, if_pos rfl]
          exact hexj
        · rw [update_apply, if_neg hkk] at hlt ⊢
          exact hinv.b2 k hk hlt
      · intro k hk p h1 h2 h3
        by_cases hkk : k = key perm
        · subst hkk
          rw [update_apply, if_pos rfl] at h2
          by_cases hpj : p = j
          · subst hpj
            rw [hM2j]
          · have hp1 : c (key perm) ≤ p := by omega
            have hpi : p ≠ i := by omega
            rw [hM2other p hpi hpj]
            exact hinv.top (key perm) hk p h1 hp1 h3
        · rw [update_apply, if_neg hkk] at h2
          have hpi : p ≠ i := by
            intro he
            have h4 := hinv.top k hk p h1 h2 h3
            rw [he, hMi] at h4
            exact hkk h4.symm
          have hpj : p ≠ j := by
            intro he
            exact hkk (span_unique (keyCount key A0) p k (key perm) h1 h3
              (he.symm ▸ hexj) (he.symm ▸ hjlt))
          rw [hM2other p hpi hpj]
          exact hinv.top k hk p h1 h2 h3
      · intro k hk p h1 h2 h3
        have hpi : p ≠ i := by omega
        have hpj : p ≠ j := by omega
        rw [hM2other p hpi hpj]
        exact hinv.fin k hk p h1 h2 h3
    have hsum2 : (∑ k ∈ Finset.range R, Function.update c (key perm) j k) < s := by
      have hmem : key perm ∈ Finset.range R := Finset.mem_range.mpr hk0R
      rw [Finset.sum_update_of_mem hmem, Finset.sdiff_singleton_eq_erase]
      have h2 := Finset.add_sum_erase (Finset.range R) c hmem
      omega
    exact ih _ hsum2 (A.getD j default) (A.set j perm) _ rfl hinv2
  · -- exit: the cursor has reached the outer index
    rw [if_neg hcond]
    show OInv key R A0 (i + keyCount key A0 (key perm)) (A.set i perm)
        (Function.update c (key perm) (c (key perm) - 1)) ∧
      exclScan (keyCount key A0) (key perm) = i ∧
      1 ≤ keyCount key A0 (key perm)
    have hexit : c (key perm) ≤ i + 1 := by omega
    have hfin_lt : exclScan (keyCount key A0) (key perm) < i → False := by
      intro hlt
      obtain ⟨b, hbR, hib⟩ := hinv.bnd
      have hkb : key perm + 1 ≤ b := by
        by_contra hc3
        have := exclScan_mono (keyCount key A0) (show b ≤ key perm by omega)
        omega
      have hincl_le : exclScan (keyCount key A0) (key perm + 1) ≤ i := by
        have := exclScan_mono (keyCount key A0) hkb
        omega
      have hfull : ∀ p, exclScan (keyCount key A0) (key perm) ≤ p →
          p < exclScan (keyCount key A0) (key perm + 1) →
          key ((A.set i perm).getD p default) = key perm := by
        intro p h1 h2
        exact hinv.fin (key perm) hk0R p h1 h2 (by omega)
      have hspan := hand_in_span key A0 (A.set i perm) i (key perm)
        (by simpa using hlen) hinv.perm hfull (by rw [hMi]) hi
      omega
    have hfin_gt : i < exclScan (keyCount key A0) (key perm) → False := by
      intro hlt
      have hfull : ∀ p, exclScan (keyCount key A0) (key perm) ≤ p →
          p < exclScan (keyCount key A0) (key perm + 1) →
          key ((A.set i perm).getD p default) = key perm := by
        intro p h1 h2
        exact hinv.top (key perm) hk0R p h1 (by omega) h2
      have hspan := hand_in_span key A0 (A.set i perm) i (key perm)
        (by simpa using hlen) hinv.perm hfull (by rw [hMi]) hi
      omega
    have hexcl_i : exclScan (keyCount key A0) (key perm) = i := by
      rcases Nat.lt_trichotomy (exclScan (keyCount key A0) (key perm)) i with h | h | h
      · exact (hfin_lt h).elim
      · exact h
      · exact (hfin_gt h).elim
    have hpos : 1 ≤ keyCount key A0 (key perm) := by
      have htot : sliceCnt key (A.set i perm) 0 (A.set i perm).length (key perm) =
          keyCount key A0 (key perm) := by
        rw [sliceCnt_zero_length]
        exact hinv.perm.countP_eq _
      have h1 := sliceCnt_one_le key (A.set i perm) 0 (A.set i perm).length
        (key perm) i (Nat.zero_le _) (by simpa using hiA) (by rw [hMi])
      omega
    refine ⟨?_, hexcl_i, hpos⟩
    refine ⟨hinv.len, hinv.perm, ?_, ?_, ?_, ?_,
      ⟨key perm + 1, by omega, by rw [hstep (key perm), hexcl_i]⟩⟩
    · intro k hk
      by_cases hkk : k = key perm
      · subst hkk
        rw [update_apply, if_pos rfl]
        have := hinv.b1 (key perm) hk
        omega
      · rw [update_apply, if_neg hkk]
        exact hinv.b1 k hk
    · intro k hk hlt
      by_cases hkk : k = key perm
      · subst hkk
        rw [update_apply, if_pos rfl] at hlt ⊢
        omega
      · rw [update_apply, if_neg hkk] at hlt ⊢
        exact hinv.b2 k hk (by omega)
    · intro k hk p h1 h2 h3
      by_cases hkk : k = key perm
      · subst hkk
        rw [update_apply, if_pos rfl] at h2
        by_cases hpi : p = i
        · subst hpi
          rw [hMi]
        · exact hinv.top (key perm) hk p h1 (by omega) h3
      · rw [update_apply, if_neg hkk] at h2
        exact hinv.top k hk p h1 h2 h3
    · intro k hk p h1 h2 h3
      by_cases hpi : p < i
      · exact hinv.fin k hk p h1 h2 hpi
      · have hp2 : p < exclScan (keyCount key A0) (key perm + 1) := by
          have h4 := hstep (key perm)
          omega
        have hk2 : k = key perm :=
          span_unique (keyCount key A0) p k (key perm) h1 h2 (by omega) hp2
        subst hk2
        by_cases hpi2 : p = i
        · subst hpi2
          rw [hMi]
        · exact hinv.top (key perm) hk p (by omega) (by omega) hp2

/-- The outer permutation loop preserves the invariant and drives the
index past `stop`; each round advances by at least one, so fuel covering
`stop - i` suffices. -/
theorem permuteLoop_inv [Inhabited α] (key : α → Nat) (R : Nat)
    (hkey : ∀ a, key a < R) (A0 : List α) (stop : Nat)
    (hstop : stop ≤ A0.length) :
    ∀ fuel i A c, OInv key R A0 i A c → stop ≤ i + fuel →
      ∃ i2 c2, stop ≤ i2 ∧
        OInv key R A0 i2
          (permuteLoop key R hkey (keyCount key A0) stop fuel i A c) c2 := by
  intro fuel
  induction fuel with
  | zero =>
    intro i A c hinv hle
    exact ⟨i, c, by omega, hinv⟩
  | succ fuel ihf =>
    intro i A c hinv hle
    rw [permuteLoop]
    by_cases hlt : i < stop
    · rw [if_pos hlt]
      have hi : i < A0.length := by omega
      have hM : A.set i (A.getD i default) = A := set_getD_self A i
      have hinv1 : OInv key R A0 i (A.set i (A.getD i default)) c := by
        rw [hM]
        exact hinv
      obtain ⟨hinv2, _hexcl, hpos⟩ :=
        cascade_spec key R hkey A0 i hi _ (A.getD i default) A c rfl hinv1
      exact ihf _ _ _ hinv2 (by omega)
    · rw [if_neg hlt]
      exact ⟨i, c, by omega, hinv⟩

/-- `last_bkt_size` is the size of the greatest nonempty bucket (or
`bktsize[0]` when buckets `1..R-1` are all empty, which is what
`Nat.findGreatest` returns then). -/
theorem lastBktSize_eq (sz : Nat → Nat) :
    ∀ R, 1 ≤ R →
      lastBktSize sz R = sz (Nat.findGreatest (fun k => sz k ≠ 0) (R - 1)) := by
  intro R
  induction R with
  | zero => omega
  | succ r ihr =>
    intro _
    rcases Nat.eq_zero_or_pos r with h0 | hr0
    · subst h0
      simp [lastBktSize, Nat.findGreatest]
    · have ih := ihr hr0
      have h1 : r + 1 - 1 = (r - 1) + 1 := by omega
      have hconc : List.range' 1 (r + 1 - 1) = List.range' 1 (r - 1) ++ [r] := by
        rw [h1, List.range'_concat, one_mul]
        have h2 : 1 + (r - 1) = r := by omega
        rw [h2]
      unfold lastBktSize
      rw [hconc, List.foldl_append]
      have h5 : (r - 1) + 1 = r := by omega
      have h4 : Nat.findGreatest (fun k => sz k ≠ 0) (r + 1 - 1) =
          if sz r ≠ 0 then r
          else Nat.findGreatest (fun k => sz k ≠ 0) (r - 1) := by
        rw [h1, Nat.findGreatest_succ, h5]
      rw [h4]
      unfold lastBktSize at ih
      by_cases h6 : sz r ≠ 0
      · rw [if_pos h6]
        show (if sz r ≠ 0 then sz r
          else List.foldl (fun last i => if sz i ≠ 0 then sz i else last) (sz 0)
            (List.range' 1 (r - 1))) = sz r
        rw [if_pos h6]
      · rw [if_neg h6]
        show (if sz r ≠ 0 then sz r
          else List.foldl (fun last i => if sz i ≠ 0 then sz i else last) (sz 0)
            (List.range' 1 (r - 1))) =
          sz (Nat.findGreatest (fun k => sz k ≠ 0) (r - 1))
        rw [if_neg h6]
        exact ih

/-- A run of empty buckets does not move the prefix sum. -/
theorem exclScan_eq_of_zero (sz : Nat → Nat) :
    ∀ b a, a ≤ b → (∀ k, a ≤ k → k < b → sz k = 0) →
      exclScan sz b = exclScan sz a := by
  intro b
  induction b with
  | zero =>
    intro a ha _
    have h0 : a = 0 := by omega
    rw [h0]
  | succ m ihm =>
    intro a ha h
    rcases Nat.lt_or_ge a (m + 1) with hlt | hge
    · have ham : a ≤ m := by omega
      have := ihm a ham (fun k h1 h2 => h k h1 (by omega))
      have hm0 : sz m = 0 := h m ham (by omega)
      show exclScan sz m + sz m = exclScan sz a
      omega
    · have h1 : a = m + 1 := by omega
      rw [h1]

/-- Correctness of the in-place American-flag permutation: the result is
a permutation of the input and every position of bucket `k`'s span
`[bkt[k], bkt[k+1])` holds a key-`k` element. -/
theorem inplacePermute_spec [Inhabited α] (key : α → Nat) (R : Nat)
    (hkey : ∀ a, key a < R) (A0 : List α) :
    (inplacePermute key R hkey A0).length = A0.length ∧
    List.Perm (inplacePermute key R hkey A0) A0 ∧
    ∀ k, k < R → ∀ p, exclScan (keyCount key A0) k ≤ p →
      p < exclScan (keyCount key A0) (k + 1) →
      key ((inplacePermute key R hkey A0).getD p default) = k := by
  have hR1 : 1 ≤ R := by
    have := hkey default
    omega
  have hexclR : exclScan (keyCount key A0) R = A0.length := by
    rw [← histogram_eq_keyCount]
    exact exclScan_histogram_total key A0 R (fun v _ => hkey v)
  have hinv0 : OInv key R A0 0 A0 (fun k => exclScan (keyCount key A0) (k + 1)) := by
    refine ⟨rfl, List.Perm.refl A0, ?_, ?_, ?_, ?_, ⟨0, by omega, rfl⟩⟩
    · intro k _
      exact le_refl _
    · intro k _ _
      have : exclScan (keyCount key A0) (k + 1) =
          exclScan (keyCount key A0) k + keyCount key A0 k := rfl
      omega
    · intro k _ p _ h2 h3
      omega
    · intro k _ p _ _ h3
      omega
  have hstop : A0.length - lastBktSize (keyCount key A0) R ≤ A0.length :=
    Nat.sub_le _ _
  have hrun := permuteLoop_inv key R hkey A0
    (A0.length - lastBktSize (keyCount key A0) R) hstop A0.length 0 A0
    (fun k => exclScan (keyCount key A0) (k + 1)) hinv0 (by omega)
  have hip : inplacePermute key R hkey A0 =
      permuteLoop key R hkey (keyCount key A0)
        (A0.length - lastBktSize (keyCount key A0) R) A0.length 0 A0
        (fun k => exclScan (keyCount key A0) (k + 1)) := by
    unfold inplacePermute
    rw [histogram_eq_keyCount]
  rw [hip]
  obtain ⟨i2, c2, hi2, hinv2⟩ := hrun
  refine ⟨hinv2.len, hinv2.perm, ?_⟩
  intro k hk p h1 h2
  by_cases hp : p < i2
  · exact hinv2.fin k hk p h1 h2 hp
  · push_neg at hp
    -- the remaining positions all lie in the last nonempty bucket
    set B := Nat.findGreatest (fun k => keyCount key A0 k ≠ 0) (R - 1) with hB
    set res := permuteLoop key R hkey (keyCount key A0)
      (A0.length - lastBktSize (keyCount key A0) R) A0.length 0 A0
      (fun k => exclScan (keyCount key A0) (k + 1)) with hres
    have hBR : B < R := by
      have h7 : Nat.findGreatest (fun k => keyCount key A0 k ≠ 0) (R - 1) ≤ R - 1 :=
        Nat.findGreatest_le (R - 1)
      rw [← hB] at h7
      omega
    have hzero : ∀ k2, B < k2 → k2 < R → keyCount key A0 k2 = 0 := by
      intro k2 hb2 hr2
      by_contra hc
      exact Nat.findGreatest_is_greatest hb2 (by omega) hc
    have hstable : exclScan (keyCount key A0) R =
        exclScan (keyCount key A0) (B + 1) :=
      exclScan_eq_of_zero (keyCount key A0) R (B + 1) (by omega)
        (fun k2 hk1 hk2 => hzero k2 (by omega) hk2)
    have hinclB : exclScan (keyCount key A0) (B + 1) = A0.length := by omega
    have hstepB : exclScan (keyCount key A0) (B + 1) =
        exclScan (keyCount key A0) B + keyCount key A0 B := rfl
    have hlastB : lastBktSize (keyCount key A0) R = keyCount key A0 B := by
      rw [lastBktSize_eq (keyCount key A0) R hR1]
    have hstopB : A0.length - lastBktSize (keyCount key A0) R =
        exclScan (keyCount key A0) B := by omega
    have hpB1 : exclScan (keyCount key A0) B ≤ p := by omega
    have hpB2 : p < exclScan (keyCount key A0) (B + 1) := by
      have := exclScan_mono (keyCount key A0) (show k + 1 ≤ R from hk)
      omega
    have hkB : k = B := span_unique (keyCount key A0) p k B h1 h2 hpB1 hpB2
    -- transport the last-bucket facts to `k`
    have hinclk : exclScan (keyCount key A0) (k + 1) = A0.length := by
      rw [hkB]
      exact hinclB
    have hstepk : exclScan (keyCount key A0) (k + 1) =
        exclScan (keyCount key A0) k + keyCount key A0 k := rfl
    have hexclk_i2 : exclScan (keyCount key A0) k ≤ i2 := by
      rw [hkB]
      omega
    have hi2n : i2 ≤ A0.length := by
      obtain ⟨b2, hb2R, hib2⟩ := hinv2.bnd
      have := exclScan_mono (keyCount key A0) hb2R
      omega
    -- counting: every position at or past i2 holds a key-k element
    have hlenres : res.length = A0.length := hinv2.len
    have htotB : sliceCnt key res 0 res.length k = keyCount key A0 k := by
      rw [sliceCnt_zero_length]
      exact hinv2.perm.countP_eq _
    have hlow : sliceCnt key res 0 (exclScan (keyCount key A0) k) k = 0 := by
      unfold sliceCnt
      apply Finset.sum_eq_zero
      intro q hq
      rw [Finset.mem_Ico] at hq
      have hqn : q < exclScan (keyCount key A0) R := by omega
      obtain ⟨bq, hbqR, hq1, hq2⟩ := exclScan_locate (keyCount key A0) R q hqn
      have hkeyq := hinv2.fin bq hbqR q hq1 hq2 (by omega)
      rw [if_neg]
      rw [hkeyq]
      intro he
      rw [he] at hq1
      omega
    have hmid : sliceCnt key res (exclScan (keyCount key A0) k) i2 k = i2 -
        exclScan (keyCount key A0) k := by
      apply sliceCnt_full_of_keys
      intro q hq1 hq2
      exact hinv2.fin k hk q hq1 (by omega) hq2
    have hsplitTot : sliceCnt key res 0 res.length k =
        sliceCnt key res 0 (exclScan (keyCount key A0) k) k +
        sliceCnt key res (exclScan (keyCount key A0) k) i2 k +
        sliceCnt key res i2 res.length k := by
      rw [sliceCnt_split key res 0 i2 res.length k (by omega) (by omega),
        sliceCnt_split key res 0 (exclScan (keyCount key A0) k) i2 k
          (Nat.zero_le _) (by omega)]
    have hhigh : sliceCnt key res i2 res.length k = res.length - i2 := by omega
    have htot2 : (∑ k2 ∈ Finset.range R, sliceCnt key res i2 res.length k2) =
        res.length - i2 := sliceCnt_total key R hkey res i2 res.length
    -- the key at p can only be k
    by_contra hne
    have hkp : key (res.getD p default) < R := hkey _
    have hone : 1 ≤ sliceCnt key res i2 res.length (key (res.getD p default)) :=
      sliceCnt_one_le key res i2 res.length _ p hp (by omega) rfl
    have hmemk : k ∈ Finset.range R := Finset.mem_range.mpr hk
    have hmemkp : key (res.getD p default) ∈
        (Finset.range R).erase k := by
      rw [Finset.mem_erase]
      exact ⟨hne, Finset.mem_range.mpr hkp⟩
    have hsum1 : sliceCnt key res i2 res.length k +
        ∑ k2 ∈ (Finset.range R).erase k, sliceCnt key res i2 res.length k2 =
        ∑ k2 ∈ Finset.range R, sliceCnt key res i2 res.length k2 :=
      Finset.add_sum_erase (Finset.range R)
        (fun k2 => sliceCnt key res i2 res.length k2) hmemk
    have hsum2 : sliceCnt key res i2 res.length (key (res.getD p default)) +
        ∑ k2 ∈ ((Finset.range R).erase k).erase (key (res.getD p default)),
          sliceCnt key res i2 res.length k2 =
        ∑ k2 ∈ (Finset.range R).erase k, sliceCnt key res i2 res.length k2 :=
      Finset.add_sum_erase ((Finset.range R).erase k)
        (fun k2 => sliceCnt key res i2 res.length k2) hmemkp
    omega

/-- Concatenation of the key filters of buckets `0 .. r-1`. -/
def bucketJoin (key : α → Nat) (l : List α) : Nat → List α
  | 0 => []
  | r + 1 => bucketJoin key l r ++ keyFilter key l r

/-- Concatenation of the span slices `[exclScan sz b, exclScan sz (b+1))`
of buckets `0 .. r-1` of a list. -/
def sliceJoin (sz : Nat → Nat) (X : List α) : Nat → List α
  | 0 => []
  | r + 1 => sliceJoin sz X r ++ ((X.drop (exclScan sz r)).take (sz r))

theorem filter_lt_perm_bucketJoin (key : α → Nat) (l : List α) :
    ∀ r, List.Perm (l.filter (fun v => decide (key v < r))) (bucketJoin key l r) := by
  intro r
  induction r with
  | zero =>
    have h0 : l.filter (fun v => decide (key v < 0)) = [] := by
      rw [List.filter_eq_nil_iff]
      intro v _
      simp
    rw [h0, bucketJoin]
  | succ r ih =>
    have hsplit : List.Perm (l.filter (fun v => decide (key v < r + 1)))
        ((l.filter (fun v => decide (key v < r))) ++
          (l.filter (fun v => decide (key v = r)))) := by
      have hc := List.filter_append_perm (fun v => decide (key v = r))
        (l.filter (fun v => decide (key v < r + 1)))
      have he1 : (l.filter (fun v => decide (key v < r + 1))).filter
          (fun v => decide (key v = r)) = l.filter (fun v => decide (key v = r)) := by
        rw [List.filter_filter]
        apply List.filter_congr
        intro v _
        by_cases hv : key v = r <;> simp [hv]
      have he2 : (l.filter (fun v => decide (key v < r + 1))).filter
          (fun v => !decide (key v = r)) = l.filter (fun v => decide (key v < r)) := by
        rw [List.filter_filter]
        apply List.filter_congr
        intro v _
        by_cases hv : key v = r
        · simp [hv]
        · have hiff : (key v < r + 1) ↔ (key v < r) := by omega
          simp [hv, hiff]
      rw [he1, he2] at hc
      exact (hc.symm).trans (List.perm_append_comm)
    exact hsplit.trans (ih.append (List.Perm.refl _))

theorem perm_bucketJoin (key : α → Nat) (l : List α) (R : Nat)
    (hk : ∀ v ∈ l, key v < R) : List.Perm l (bucketJoin key l R) := by
  have h1 : l.filter (fun v => decide (key v < R)) = l :=
    List.filter_eq_self.mpr (fun v hv => by simpa using hk v hv)
  have := filter_lt_perm_bucketJoin key l R
  rw [h1] at this
  exact this

theorem take_exclScan_sliceJoin (sz : Nat → Nat) (X : List α) :
    ∀ r, X.take (exclScan sz r) = sliceJoin sz X r := by
  intro r
  induction r with
  | zero => rfl
  | succ r ih =>
    rw [show exclScan sz (r + 1) = exclScan sz r + sz r from rfl,
      List.take_add, ih, sliceJoin]

/-- If every bucket slice of `X` is a permutation of the corresponding
key filter of `l`, then `X` is a permutation of `l`. -/
theorem slices_perm_of_buckets [Inhabited α] (key : α → Nat) (R : Nat)
    (hkey : ∀ a, key a < R) (l X : List α)
    (hlen : X.length ≤ exclScan (keyCount key l) R)
    (hb : ∀ b, b < R →
      List.Perm ((X.drop (exclScan (keyCount key l) b)).take (keyCount key l b))
        (keyFilter key l b)) :
    List.Perm X l := by
  have hXfull : X = sliceJoin (keyCount key l) X R := by
    rw [← take_exclScan_sliceJoin, List.take_of_length_le hlen]
  have hjoin : ∀ r, r ≤ R →
      List.Perm (sliceJoin (keyCount key l) X r) (bucketJoin key l r) := by
    intro r
    induction r with
    | zero =>
      intro _
      exact List.Perm.refl _
    | succ r ih =>
      intro hr
      exact (ih (by omega)).append (hb r (by omega))
  have h2 := hjoin R (le_refl R)
  rw [← hXfull] at h2
  exact h2.trans (perm_bucketJoin key l R (fun v _ => hkey v)).symm

/-- In a list whose bucket spans hold only elements of the span's key,
the span slice of bucket `b` is exactly the filter of the whole list by
key `b`. -/
theorem keyed_slice_eq_filter [Inhabited α] (key : α → Nat) (R : Nat)
    (hkey : ∀ a, key a < R) (A0 res : List α) (hlen : res.length = A0.length)
    (hpos : ∀ k, k < R → ∀ p, exclScan (keyCount key A0) k ≤ p →
      p < exclScan (keyCount key A0) (k + 1) → key (res.getD p default) = k)
    (b : Nat) (hb : b < R) :
    (res.drop (exclScan (keyCount key A0) b)).take (keyCount key A0 b) =
      res.filter (fun v => decide (key v = b)) := by
  have hexclR : exclScan (keyCount key A0) R = A0.length := by
    rw [← histogram_eq_keyCount]
    exact exclScan_histogram_total key A0 R (fun v _ => hkey v)
  have hstep : exclScan (keyCount key A0) (b + 1) =
      exclScan (keyCount key A0) b + keyCount key A0 b := rfl
  have hb1 : exclScan (keyCount key A0) (b + 1) ≤ A0.length :=
    exclScan_keyCount_le key A0 (b + 1)
  -- a positional description of the keys of res
  have hgetD : ∀ q, q < res.length → ∀ kq, kq < R →
      exclScan (keyCount key A0) kq ≤ q →
      q < exclScan (keyCount key A0) (kq + 1) → key (res.getD q default) = kq :=
    fun q _ kq h1 h2 h3 => hpos kq h1 q h2 h3
  have hkeyAt : ∀ q, q < res.length →
      ∀ hq : q < res.length, key res[q] = key (res.getD q default) := by
    intro q hq hq2
    rw [List.getD_eq_getElem?_getD, List.getElem?_eq_getElem hq2]
    rfl
  -- decompose res into the three segments around the bucket span
  conv_rhs => rw [← List.take_append_drop (exclScan (keyCount key A0) b) res]
  rw [List.filter_append]
  conv_rhs =>
    rw [← List.take_append_drop (keyCount key A0 b)
      (res.drop (exclScan (keyCount key A0) b))]
  rw [List.filter_append]
  have hT1 : (res.take (exclScan (keyCount key A0) b)).filter
      (fun v => decide (key v = b)) = [] := by
    rw [List.filter_eq_nil_iff]
    intro x hx
    obtain ⟨q, hq, hget⟩ := List.mem_iff_getElem.mp hx
    rw [List.length_take] at hq
    have hq1 : q < exclScan (keyCount key A0) b := by omega
    have hq2 : q < res.length := by omega
    have hxq : x = res[q] := by
      rw [← hget, List.getElem_take]
    have hqR : q < exclScan (keyCount key A0) R := by
      have := exclScan_mono (keyCount key A0) (show b ≤ R by omega)
      omega
    obtain ⟨bq, hbqR, hbq1, hbq2⟩ := exclScan_locate (keyCount key A0) R q hqR
    have hkx : key x = bq := by
      rw [hxq, hkeyAt q hq2 hq2]
      exact hpos bq hbqR q hbq1 hbq2
    simp only [decide_eq_true_eq]
    intro he
    rw [he] at hkx
    rw [← hkx] at hbq1
    omega
  have hS : ((res.drop (exclScan (keyCount key A0) b)).take
      (keyCount key A0 b)).filter (fun v => decide (key v = b)) =
      (res.drop (exclScan (keyCount key A0) b)).take (keyCount key A0 b) := by
    rw [List.filter_eq_self]
    intro x hx
    obtain ⟨q, hq, hget⟩ := List.mem_iff_getElem.mp hx
    rw [List.length_take, List.length_drop] at hq
    have hq1 : q < keyCount key A0 b := by omega
    have hq2 : exclScan (keyCount key A0) b + q < res.length := by omega
    have hxq : x = res[exclScan (keyCount key A0) b + q] := by
      rw [← hget, List.getElem_take, List.getElem_drop]
    have hkx : key x = b := by
      rw [hxq, hkeyAt _ hq2 hq2]
      exact hpos b hb _ (by omega) (by omega)
    simp [hkx]
  have hT2 : ((res.drop (exclScan (keyCount key A0) b)).drop
      (keyCount key A0 b)).filter (fun v => decide (key v = b)) = [] := by
    rw [List.drop_drop, List.filter_eq_nil_iff]
    intro x hx
    obtain ⟨q, hq, hget⟩ := List.mem_iff_getElem.mp hx
    rw [List.length_drop] at hq
    have hq2 : exclScan (keyCount key A0) b + keyCount key A0 b + q < res.length := by
      omega
    have hxq : x = res[exclScan (keyCount key A0) b + keyCount key A0 b + q] := by
      rw [← hget, List.getElem_drop]
    have hqR : exclScan (keyCount key A0) b + keyCount key A0 b + q <
        exclScan (keyCount key A0) R := by omega
    obtain ⟨bq, hbqR, hbq1, hbq2⟩ := exclScan_locate (keyCount key A0) R _ hqR
    have hkx : key x = bq := by
      rw [hxq, hkeyAt _ hq2 hq2]
      exact hpos bq hbqR _ hbq1 hbq2
    simp only [decide_eq_true_eq]
    intro he
    rw [he] at hkx
    rw [← hkx] at hbq2
    omega
  rw [hT1, hS, hT2]
  simp

/-- Writing a list over the active window of a data set and reading the
window back yields that list. -/
theorem writeSlice_toList (m : Mem α) (d : MDataSet) (l : List α)
    (h1 : l.length = d.size) (h2 : d.last ≤ (m.buf d.buf).length)
    (h3 : d.first ≤ d.last) :
    MDataSet.toList (m.writeSlice d l) d = l := by
  unfold MDataSet.toList Mem.writeSlice
  rw [Mem.buf_setBuf, if_pos rfl]
  have hfl : ((m.buf d.buf).take d.first).length = d.first := by
    rw [List.length_take]
    omega
  rw [List.append_assoc]
  have hdrop := List.drop_left ((m.buf d.buf).take d.first)
    (l ++ (m.buf d.buf).drop (d.first + l.length))
  rw [hfl] at hdrop
  rw [hdrop, ← h1]
  exact List.take_left l _

/-- Length of the active result range of an out-of-place `RadixStep_CI`. -/
theorem mkRadixStep_oop_len [Inhabited α] (key : α → Nat → Nat) (R : Nat)
    (hkey : ∀ a d, key a d < R) {N : Nat} {dptr : SDP} (hd : Derived N dptr)
    (depth : Nat) (m : Mem α) (hlo : m.orig.length = N) (hls : m.shad.length = N) :
    (MDataSet.toList (mkRadixStep key R hkey false dptr depth m).2
      ((mkRadixStep key R hkey false dptr depth m).1.dptr.active)).length =
      dptr.size := by
  obtain ⟨h1, h2, h3, h4, h5, h6⟩ := hd.invariant
  rw [mkRadixStep_oop_dptr key R hkey hd depth m]
  show (MDataSet.toList _
    (⟨false, dptr.active.first, dptr.active.first + dptr.size⟩ : MDataSet)).length =
    dptr.size
  rw [toList_length]
  · simp [MDataSet.size]
  · show dptr.active.first + dptr.size ≤
      (((mkRadixStep key R hkey false dptr depth m).2).buf false).length
    rw [mkRadixStep_oop_lengths key R hkey dptr depth m false]
    have h9 : (m.buf false).length = N := by simpa [Mem.buf] using hlo
    rw [h9]
    simp only [SDP.size, MDataSet.size]
    omega

/-- C5: the in-place variant of `RadixStep_CI` (inclusive prefix sum and
swap-based cycle-following permutation) and the out-of-place variant
(scatter into the shadow range, flip, copy back) produce the same `bkt`
boundary array, and under either variant the resulting active range is a
permutation of the input whose positions `[bkt[b], bkt[b+1])` hold
exactly the input elements with key `b` at the current depth. -/
theorem radixstep_inplace_oop_equiv [Inhabited α] (key : α → Nat → Nat) (R : Nat)
    (hkey : ∀ a d, key a d < R) {N : Nat} {dptr : SDP} (hd : Derived N dptr)
    (depth : Nat) (m : Mem α) (hlo : m.orig.length = N) (hls : m.shad.length = N) :
    (mkRadixStep key R hkey true dptr depth m).1.bkt =
      (mkRadixStep key R hkey false dptr depth m).1.bkt ∧
    ∀ ip : Bool,
      List.Perm
        (MDataSet.toList (mkRadixStep key R hkey ip dptr depth m).2
          (mkRadixStep key R hkey ip dptr depth m).1.dptr.active)
        (MDataSet.toList m dptr.active) ∧
      ∀ b, b < R →
        List.Perm
          (((MDataSet.toList (mkRadixStep key R hkey ip dptr depth m).2
              (mkRadixStep key R hkey ip dptr depth m).1.dptr.active).drop
              ((mkRadixStep key R hkey ip dptr depth m).1.bkt b)).take
              ((mkRadixStep key R hkey ip dptr depth m).1.bkt (b + 1) -
                (mkRadixStep key R hkey ip dptr depth m).1.bkt b))
          (keyFilter (fun v => key v depth) (MDataSet.toList m dptr.active) b) := by
  obtain ⟨hi1, hi2, hi3, hi4, hi5, hi6⟩ := hd.invariant
  set l := MDataSet.toList m dptr.active with hl
  set keyd := fun v => key v depth with hkeyd
  have hkeyd1 : ∀ a, keyd a < R := fun a => hkey a depth
  have hlactive : dptr.active.last ≤ (m.buf dptr.active.buf).length := by
    cases hb : dptr.active.buf <;> simp [Mem.buf, hb, hlo, hls] <;> omega
  have hlsize : l.length = dptr.active.size :=
    toList_length m dptr.active hlactive
  constructor
  · rw [(mkRadixStep_bkt key R hkey true dptr depth m).1,
      (mkRadixStep_bkt key R hkey false dptr depth m).1]
  intro ip
  have hbkt := (mkRadixStep_bkt key R hkey ip dptr depth m).1
  have hhist : histogram keyd l = keyCount keyd l := histogram_eq_keyCount keyd l
  have hdiff : ∀ b, exclScan (keyCount keyd l) (b + 1) -
      exclScan (keyCount keyd l) b = keyCount keyd l b := by
    intro b
    simp [exclScan]
  have hexclLen : exclScan (keyCount keyd l) R = l.length := by
    rw [← hhist]
    exact exclScan_histogram_total keyd l R (fun v _ => hkeyd1 v)
  cases ip with
  | true =>
    have hparts1 : (mkRadixStep key R hkey true dptr depth m).1.dptr = dptr := rfl
    have hwrite : (mkRadixStep key R hkey true dptr depth m).2 =
        m.writeSlice dptr.active (inplacePermute keyd R hkeyd1 l) := rfl
    obtain ⟨hiplen, hipperm, hipkeys⟩ := inplacePermute_spec keyd R hkeyd1 l
    have hros : MDataSet.toList (mkRadixStep key R hkey true dptr depth m).2
        ((mkRadixStep key R hkey true dptr depth m).1.dptr.active) =
        inplacePermute keyd R hkeyd1 l := by
      rw [hparts1, hwrite]
      apply writeSlice_toList
      · rw [hiplen, hlsize]
      · exact hlactive
      · exact hi5
    have hslices : ∀ b, b < R → List.Perm
        (((inplacePermute keyd R hkeyd1 l).drop
          (exclScan (keyCount keyd l) b)).take (keyCount keyd l b))
        (keyFilter keyd l b) := by
      intro b hb
      rw [keyed_slice_eq_filter keyd R hkeyd1 l _ hiplen hipkeys b hb]
      exact hipperm.filter _
    constructor
    · rw [hros]
      exact hipperm
    · intro b hb
      rw [hros, hbkt, hhist, hdiff b]
      exact hslices b hb
  | false =>
    have hreslen := mkRadixStep_oop_len key R hkey hd depth m hlo hls
    have hsliceEq := mkRadixStep_oop_bucket key R hkey hd depth m hlo hls
    have hslices : ∀ b, b < R → List.Perm
        (((MDataSet.toList (mkRadixStep key R hkey false dptr depth m).2
          ((mkRadixStep key R hkey false dptr depth m).1.dptr.active)).drop
          (exclScan (keyCount keyd l) b)).take (keyCount keyd l b))
        (keyFilter keyd l b) := by
      intro b hb
      have he := hsliceEq b
      rw [hbkt, hhist, hdiff b] at he
      rw [he]
    have hXlen : (MDataSet.toList (mkRadixStep key R hkey false dptr depth m).2
        ((mkRadixStep key R hkey false dptr depth m).1.dptr.active)).length ≤
        exclScan (keyCount keyd l) R := by
      rw [hexclLen, hreslen, hlsize]
      exact le_refl _
    constructor
    · exact slices_perm_of_buckets keyd R hkeyd1 l _ hXlen hslices
    · intro b hb
      rw [hbkt, hhist, hdiff b]
      exact hslices b hb

theorem radixstep_inplace_oop_equiv_witness :
    (mkRadixStep (fun v (_ : Nat) => v % 2) 2
        (fun a _ => Nat.mod_lt a (by decide)) true
        ⟨⟨false, 0, 4⟩, ⟨true, 0, 4⟩, false⟩ 0
        (⟨[3, 0, 1, 2], [7, 7, 7, 7]⟩ : Mem Nat)).1.bkt =
      (mkRadixStep (fun v (_ : Nat) => v % 2) 2
        (fun a _ => Nat.mod_lt a (by decide)) false
        ⟨⟨false, 0, 4⟩, ⟨true, 0, 4⟩, false⟩ 0
        (⟨[3, 0, 1, 2], [7, 7, 7, 7]⟩ : Mem Nat)).1.bkt ∧
    List.Perm
      (MDataSet.toList (mkRadixStep (fun v (_ : Nat) => v % 2) 2
          (fun a _ => Nat.mod_lt a (by decide)) true
          ⟨⟨false, 0, 4⟩, ⟨true, 0, 4⟩, false⟩ 0
          (⟨[3, 0, 1, 2], [7, 7, 7, 7]⟩ : Mem Nat)).2
        (mkRadixStep (fun v (_ : Nat) => v % 2) 2
          (fun a _ => Nat.mod_lt a (by decide)) true
          ⟨⟨false, 0, 4⟩, ⟨true, 0, 4⟩, false⟩ 0
          (⟨[3, 0, 1, 2], [7, 7, 7, 7]⟩ : Mem Nat)).1.dptr.active)
      (MDataSet.toList (⟨[3, 0, 1, 2], [7, 7, 7, 7]⟩ : Mem Nat)
        (⟨⟨false, 0, 4⟩, ⟨true, 0, 4⟩, false⟩ : SDP).active) :=
  ⟨(radixstep_inplace_oop_equiv (fun v (_ : Nat) => v % 2) 2
      (fun a _ => Nat.mod_lt a (by decide))
      (Derived.top : Derived 4 ⟨⟨false, 0, 4⟩, ⟨true, 0, 4⟩, false⟩) 0
      (⟨[3, 0, 1, 2], [7, 7, 7, 7]⟩ : Mem Nat) rfl rfl).1,
    ((radixstep_inplace_oop_equiv (fun v (_ : Nat) => v % 2) 2
      (fun a _ => Nat.mod_lt a (by decide))
      (Derived.top : Derived 4 ⟨⟨false, 0, 4⟩, ⟨true, 0, 4⟩, false⟩) 0
      (⟨[3, 0, 1, 2], [7, 7, 7, 7]⟩ : Mem Nat) rfl rfl).2 true).1⟩

/-! ## The three parallel LSD variants (lsd_radix_sort_prefix.hpp)

Each pass iterates the element indices of one OpenMP `schedule(static)`
chunk; the per-index key is either looked up in the key cache (variant 1)
or recomputed by `get_depth_key` (variants 2 and 3).  `scatterIdx` is the
plain redistribution loop
`*(bucket_local[key(i)]++) = std::move(*(begin_original + i))`. -/

/-- Byte `d` of an unsigned integer key (little-endian byte order, as
`reinterpret_cast<uint8_t*>(&key)[depth]` reads it). -/
def byteOf (x d : Nat) : Nat := x / 256 ^ d % 256

/-- The redistribution loop of a pass over a list of element indices:
each index' source element is written at its key's cursor, which is then
post-incremented. -/
def scatterIdx [Inhabited α] (keyAt : Nat → Nat) (src : List α) :
    List Nat → (Nat → Nat) → List α → (Nat → Nat) × List α
  | [], c, t => (c, t)
  | i :: is, c, t =>
      scatterIdx keyAt src is
        (Function.update c (keyAt i) (c (keyAt i) + 1))
        (t.set (c (keyAt i)) (src.getD i default))

theorem scatterIdx_length [Inhabited α] (keyAt : Nat → Nat) (src : List α)
    (is : List Nat) (c : Nat → Nat) (t : List α) :
    (scatterIdx keyAt src is c t).2.length = t.length := by
  induction is generalizing c t with
  | nil => rfl
  | cons i is ih => rw [scatterIdx, ih]; simp

theorem scatterIdx_final_cursor [Inhabited α] (keyAt : Nat → Nat) (src : List α)
    (is : List Nat) (c : Nat → Nat) (t : List α) (k : Nat) :
    (scatterIdx keyAt src is c t).1 k = c k + keyCount keyAt is k := by
  induction is generalizing c t with
  | nil => simp [scatterIdx, keyCount]
  | cons i is ih =>
    rw [scatterIdx, ih]
    simp only [keyCount, List.countP_cons]
    by_cases hk : keyAt i = k
    · subst hk; simp [Function.update]; omega
    · simp [Function.update, hk, Ne.symm hk]

/-- Placement of the index-driven redistribution loop: regions are filled
with the source elements of the key's indices in order, everything else
is untouched. -/
theorem scatterIdx_spec [Inhabited α] (keyAt : Nat → Nat) (src : List α)
    (is : List Nat) (c : Nat → Nat) (t : List α)
    (hord : ∀ j k, j < k → c j + keyCount keyAt is j ≤ c k)
    (hbound : ∀ k, keyCount keyAt is k ≠ 0 → c k + keyCount keyAt is k ≤ t.length) :
    (∀ p, (∀ k, ¬(c k ≤ p ∧ p < c k + keyCount keyAt is k)) →
        (scatterIdx keyAt src is c t).2.getD p default = t.getD p default) ∧
    (∀ k i, i < keyCount keyAt is k →
        (scatterIdx keyAt src is c t).2.getD (c k + i) default =
          src.getD ((keyFilter keyAt is k).getD i default) default) := by
  induction is generalizing c t with
  | nil =>
    refine ⟨fun p _ => rfl, fun k i hi => ?_⟩
    simp [keyCount] at hi
  | cons v l ih =>
    have hcnt : ∀ k, keyCount keyAt (v :: l) k =
        keyCount keyAt l k + (if keyAt v = k then 1 else 0) := by
      intro k
      simp only [keyCount, List.countP_cons]
      by_cases h : keyAt v = k <;> simp [h]
    have hcnt_self : keyCount keyAt (v :: l) (keyAt v) =
        keyCount keyAt l (keyAt v) + 1 := by
      rw [hcnt]; simp
    have hcnt_ne : ∀ k, keyAt v ≠ k → keyCount keyAt (v :: l) k = keyCount keyAt l k := by
      intro k h; rw [hcnt, if_neg h]; omega
    set c' := Function.update c (keyAt v) (c (keyAt v) + 1) with hc'
    set t' := t.set (c (keyAt v)) (src.getD v default) with ht'
    have hc'v : c' (keyAt v) = c (keyAt v) + 1 := by rw [hc']; simp
    have hc'ne : ∀ k, k ≠ keyAt v → c' k = c k := by
      intro k h; rw [hc']; simp [Function.update, h]
    have hlen' : t'.length = t.length := by rw [ht']; simp
    have hord' : ∀ j k, j < k → c' j + keyCount keyAt l j ≤ c' k := by
      intro j k hjk
      by_cases hj : j = keyAt v
      · subst hj
        have h1 := hord (keyAt v) k hjk
        rw [hcnt_self] at h1
        by_cases hk : k = keyAt v
        · rw [hk] at hjk; exact absurd hjk (lt_irrefl _)
        · rw [hc'v, hc'ne k hk]; omega
      · have h0 := hord j k hjk
        rw [hc'ne j hj]
        have h1 : keyCount keyAt l j ≤ keyCount keyAt (v :: l) j := by
          rw [hcnt]; omega
        by_cases hk : k = keyAt v
        · subst hk; rw [hc'v]; omega
        · rw [hc'ne k hk]; omega
    have hbound' : ∀ k, keyCount keyAt l k ≠ 0 →
        c' k + keyCount keyAt l k ≤ t'.length := by
      intro k hk0
      rw [hlen']
      by_cases hk : k = keyAt v
      · subst hk
        rw [hc'v]
        have := hbound (keyAt v) (by rw [hcnt_self]; omega)
        rw [hcnt_self] at this
        omega
      · rw [hc'ne k hk]
        have h1 : keyCount keyAt (v :: l) k ≠ 0 := by
          rw [hcnt_ne k (fun h => hk h.symm)]; exact hk0
        have := hbound k h1
        rw [hcnt_ne k (fun h => hk h.symm)] at this
        omega
    obtain ⟨ihOut, ihIn⟩ := ih c' t' hord' hbound'
    have hvlen : c (keyAt v) < t.length := by
      have := hbound (keyAt v) (by rw [hcnt_self]; omega)
      rw [hcnt_self] at this
      omega
    constructor
    · intro p hp
      rw [scatterIdx, ihOut p ?_, ht', getD_set_ne t _ p _ ?_]
      · intro hpv
        have := hp (keyAt v)
        rw [hcnt_self] at this
        omega
      · intro k
        intro ⟨ha, hb⟩
        by_cases hk : k = keyAt v
        · subst hk
          have := hp (keyAt v)
          rw [hcnt_self] at this
          rw [hc'v] at ha
          omega
        · rw [hc'ne k hk] at ha hb
          have := hp k
          rw [hcnt_ne k (fun h => hk h.symm)] at this
          omega
    · intro k i hik
      by_cases hk : k = keyAt v
      · subst hk
        have hfil : keyFilter keyAt (v :: l) (keyAt v) =
            v :: keyFilter keyAt l (keyAt v) := by
          simp [keyFilter]
        rw [hfil]
        match i with
        | 0 =>
          rw [scatterIdx]
          rw [ihOut (c (keyAt v) + 0) ?_]
          · rw [Nat.add_zero, ht', getD_set_self t _ _ hvlen]
            rfl
          · intro k
            intro ⟨ha, hb⟩
            by_cases hk2 : k = keyAt v
            · subst hk2; rw [hc'v] at ha; omega
            · rw [hc'ne k hk2] at ha hb
              rcases Nat.lt_or_ge k (keyAt v) with hlt | hge
              · have := hord k (keyAt v) hlt
                rw [hcnt_ne k (by omega)] at this
                omega
              · have hgt : keyAt v < k := by omega
                have := hord (keyAt v) k hgt
                rw [hcnt_self] at this
                omega
        | i + 1 =>
          rw [scatterIdx]
          have := ihIn (keyAt v) i (by rw [hcnt_self] at hik; omega)
          rw [hc'v] at this
          rw [show c (keyAt v) + (i + 1) = c (keyAt v) + 1 + i by omega, this]
          rfl
      · rw [hcnt_ne k (fun h => hk h.symm)] at hik
        have hfil : keyFilter keyAt (v :: l) k = keyFilter keyAt l k := by
          simp only [keyFilter, List.filter_cons]
          rw [if_neg (by simpa using fun h => hk h.symm)]
        rw [hfil, scatterIdx]
        have := ihIn k i hik
        rw [hc'ne k hk] at this
        exact this

/-- `std::move(first, last, dest)`: write the elements of `l` over the
cells `[pos, pos + l.length)`. -/
def writeList [Inhabited α] (tgt : List α) (pos : Nat) (l : List α) : List α :=
  (List.range l.length).foldl (fun t j => t.set (pos + j) (l.getD j default)) tgt

theorem writeList_cons [Inhabited α] (tgt : List α) (pos : Nat) (v : α) (l : List α) :
    writeList tgt pos (v :: l) = writeList (tgt.set pos v) (pos + 1) l := by
  unfold writeList
  rw [show (v :: l).length = l.length + 1 from rfl, List.range_succ_eq_map,
    List.foldl_cons, List.foldl_map]
  have hfun : (fun (t : List α) j => t.set (pos + Nat.succ j) ((v :: l).getD (Nat.succ j) default)) =
      (fun (t : List α) j => t.set (pos + 1 + j) (l.getD j default)) := by
    funext t j
    rw [List.getD_cons_succ]
    congr 1
    omega
  rw [hfun]
  have hinit : tgt.set (pos + 0) ((v :: l).getD 0 default) = tgt.set pos v := by
    rw [Nat.add_zero, List.getD_cons_zero]
  rw [hinit]

theorem writeList_length [Inhabited α] (l : List α) :
    ∀ (tgt : List α) (pos : Nat), (writeList tgt pos l).length = tgt.length := by
  induction l with
  | nil => intro tgt pos; rfl
  | cons v l ih =>
    intro tgt pos
    rw [writeList_cons, ih]
    simp

theorem writeList_getD_out [Inhabited α] (l : List α) :
    ∀ (tgt : List α) (pos p : Nat), (p < pos ∨ pos + l.length ≤ p) →
      (writeList tgt pos l).getD p default = tgt.getD p default := by
  induction l with
  | nil => intro tgt pos p _; rfl
  | cons v l ih =>
    intro tgt pos p hp
    rw [writeList_cons, ih _ _ _ (by simp at hp; omega),
      getD_set_ne _ _ _ _ (by simp at hp; omega)]

theorem writeList_getD_in [Inhabited α] (l : List α) :
    ∀ (tgt : List α) (pos j : Nat), j < l.length → pos + l.length ≤ tgt.length →
      (writeList tgt pos l).getD (pos + j) default = l.getD j default := by
  induction l with
  | nil =>
    intro tgt pos j hj _
    simp at hj
  | cons v l ih =>
    intro tgt pos j hj hb
    rw [writeList_cons]
    match j with
    | 0 =>
      rw [writeList_getD_out l _ _ _ (by omega), Nat.add_zero,
        getD_set_self _ _ _ (by simp at hb ⊢; omega)]
      rfl
    | j + 1 =>
      rw [show pos + (j + 1) = (pos + 1) + j by omega,
        ih _ _ _ (by simpa using hj) (by simp at hb ⊢; omega)]
      rfl

/-- The final flush loop of the write-back-buffer variant: for each of
the 256 buckets (`K` in general) move the pending local cache to the
bucket cursor. -/
def flushAll [Inhabited α] (K : Nat) (c : Nat → Nat) (cache : Nat → List α)
    (t : List α) : List α :=
  (List.range K).foldl (fun tg k => writeList tg (c k) (cache k)) t

theorem flushAll_succ [Inhabited α] (K : Nat) (c : Nat → Nat)
    (cache : Nat → List α) (t : List α) :
    flushAll (K + 1) c cache t = writeList (flushAll K c cache t) (c K) (cache K) := by
  unfold flushAll
  rw [List.range_succ, List.foldl_append, List.foldl_cons, List.foldl_nil]

theorem flushAll_length [Inhabited α] (K : Nat) (c : Nat → Nat)
    (cache : Nat → List α) (t : List α) :
    (flushAll K c cache t).length = t.length := by
  induction K with
  | zero => rfl
  | succ K ih => rw [flushAll_succ, writeList_length, ih]

theorem flushAll_getD_out [Inhabited α] (K : Nat) (c : Nat → Nat)
    (cache : Nat → List α) (t : List α) (p : Nat)
    (hout : ∀ k, k < K → ¬(c k ≤ p ∧ p < c k + (cache k).length)) :
    (flushAll K c cache t).getD p default = t.getD p default := by
  induction K with
  | zero => rfl
  | succ K ih =>
    rw [flushAll_succ, writeList_getD_out _ _ _ _ (by have := hout K (by omega); omega),
      ih (fun k hk => hout k (by omega))]

theorem flushAll_getD_in [Inhabited α] (K : Nat) (c : Nat → Nat)
    (cache : Nat → List α) (t : List α) (k j : Nat) (hk : k < K)
    (hj : j < (cache k).length)
    (hbound : c k + (cache k).length ≤ t.length)
    (hdisj : ∀ b, k < b → b < K → c k + (cache k).length ≤ c b ∨ cache b = []) :
    (flushAll K c cache t).getD (c k + j) default = (cache k).getD j default := by
  induction K with
  | zero => omega
  | succ K ih =>
    rw [flushAll_succ]
    by_cases hkK : k = K
    · subst hkK
      rw [writeList_getD_in _ _ _ _ hj (by rw [flushAll_length]; exact hbound)]
    · have hkK' : k < K := by omega
      rcases hdisj K (by omega) (by omega) with hd | hd
      · rw [writeList_getD_out _ _ _ _ (by omega)]
        exact ih hkK' (fun b hb1 hb2 => hdisj b hb1 (by omega))
      · rw [hd]
        exact ih hkK' (fun b hb1 hb2 => hdisj b hb1 (by omega))

/-- Two lists of equal length agreeing pointwise are equal. -/
theorem list_eq_of_getD [Inhabited α] (l1 l2 : List α)
    (hlen : l1.length = l2.length)
    (h : ∀ p, p < l1.length → l1.getD p default = l2.getD p default) : l1 = l2 := by
  apply List.ext_getElem hlen
  intro p h1 h2
  have := h p h1
  rw [List.getD_eq_getElem?_getD, List.getD_eq_getElem?_getD,
    List.getElem?_eq_getElem h1, List.getElem?_eq_getElem h2] at this
  simpa using this

theorem getD_append_lt [Inhabited α] (l1 l2 : List α) (p : Nat) (h : p < l1.length) :
    (l1 ++ l2).getD p default = l1.getD p default := by
  rw [List.getD_eq_getElem?_getD, List.getD_eq_getElem?_getD,
    List.getElem?_append_left h]

theorem getD_append_len [Inhabited α] (l : List α) (x : α) :
    (l ++ [x]).getD l.length default = x := by
  rw [List.getD_eq_getElem?_getD, List.getElem?_append_right (le_refl _)]
  simp

/-- The redistribution loop of the write-back-buffer variant: the element
is appended to its key's local cache; a full cache (`csize` elements) is
flushed to the bucket cursor, which advances by `csize`. -/
def bufScatterIdx [Inhabited α] (keyAt : Nat → Nat) (src : List α) (csize : Nat) :
    List Nat → (Nat → Nat) → (Nat → List α) → List α →
      (Nat → Nat) × (Nat → List α) × List α
  | [], c, cache, t => (c, cache, t)
  | i :: is, c, cache, t =>
      if (cache (keyAt i) ++ [src.getD i default]).length = csize then
        bufScatterIdx keyAt src csize is
          (Function.update c (keyAt i) (c (keyAt i) + csize))
          (Function.update cache (keyAt i) [])
          (writeList t (c (keyAt i)) (cache (keyAt i) ++ [src.getD i default]))
      else
        bufScatterIdx keyAt src csize is c
          (Function.update cache (keyAt i) (cache (keyAt i) ++ [src.getD i default])) t

/-- Appending one element to a bucket's local cache changes the final
flush image by exactly one written cell. -/
theorem flushAll_absorb [Inhabited α] (c : Nat → Nat) (cache : Nat → List α)
    (t : List α) (k0 : Nat) (x : α) (hk0 : k0 < 256)
    (hdisj : ∀ a b, a < b → c a + (cache a).length + (if a = k0 then 1 else 0) ≤ c b)
    (hbnd : ∀ a, cache a ≠ [] → c a + (cache a).length ≤ t.length)
    (hcell : c k0 + (cache k0).length < t.length) :
    flushAll 256 c (Function.update cache k0 (cache k0 ++ [x])) t =
      (flushAll 256 c cache t).set (c k0 + (cache k0).length) x := by
  have hup : ∀ k, Function.update cache k0 (cache k0 ++ [x]) k =
      if k = k0 then cache k0 ++ [x] else cache k := by
    intro k
    by_cases h : k = k0 <;> simp [Function.update, h]
  apply list_eq_of_getD
  · rw [flushAll_length, List.length_set, flushAll_length]
  · intro p hp
    rw [flushAll_length] at hp
    by_cases hpos : p = c k0 + (cache k0).length
    · subst hpos
      have hin := flushAll_getD_in 256 c (Function.update cache k0 (cache k0 ++ [x]))
        t k0 ((cache k0).length) hk0 (by rw [hup, if_pos rfl]; simp)
        (by rw [hup, if_pos rfl]; simp; omega)
        (by
          intro b hb1 hb2
          left
          have h5 := hdisj k0 b hb1
          rw [if_pos rfl] at h5
          rw [hup, if_pos rfl]
          simp only [List.length_append, List.length_singleton]
          omega)
      rw [hup, if_pos rfl] at hin
      rw [hin, getD_append_len, getD_set_self _ _ _ (by rw [flushAll_length]; exact hcell)]
    · rw [getD_set_ne _ _ _ _ hpos]
      by_cases hreg : ∃ a, a < 256 ∧ c a ≤ p ∧ p < c a + (cache a).length
      · obtain ⟨a, haR, ha1, ha2⟩ := hreg
        have hja : p = c a + (p - c a) := by omega
        have hlenu : (Function.update cache k0 (cache k0 ++ [x]) a).length =
            (cache a).length + (if a = k0 then 1 else 0) := by
          rw [hup]
          by_cases h : a = k0 <;> simp [h]
        have hinL := flushAll_getD_in 256 c (Function.update cache k0 (cache k0 ++ [x]))
          t a (p - c a) haR (by rw [hlenu]; split <;> omega)
          (by
            rw [hlenu]
            by_cases h : a = k0
            · subst h
              rw [if_pos rfl]
              omega
            · rw [if_neg h]
              simp only [Nat.add_zero]
              exact hbnd a (by intro he; rw [he] at ha2; simp at ha2; omega))
          (by
            intro b hb1 hb2
            left
            rw [hlenu]
            have h5 := hdisj a b hb1
            by_cases h : a = k0
            · rw [if_pos h] at h5 ⊢
              omega
            · rw [if_neg h] at h5 ⊢
              omega)
        have hinR := flushAll_getD_in 256 c cache t a (p - c a) haR (by omega)
          (hbnd a (by intro he; rw [he] at ha2; simp at ha2; omega))
          (by
            intro b hb1 hb2
            left
            have := hdisj a b hb1
            split at this <;> omega)
        rw [hja, hinL, hinR, hup]
        by_cases h : a = k0
        · subst h
          rw [if_pos rfl, getD_append_lt _ _ _ (by omega)]
        · rw [if_neg h]
      · push_neg at hreg
        rw [flushAll_getD_out _ _ _ _ _ ?_, flushAll_getD_out _ _ _ _ _ ?_]
        · intro k hkR
          have := hreg k hkR
          omega
        · intro k hkR
          rw [hup]
          by_cases h : k = k0
          · rw [if_pos h, h]
            have h6 := hreg k0 hk0
            simp only [List.length_append, List.length_singleton]
            omega
          · rw [if_neg h]
            have h6 := hreg k hkR
            omega

/-- Flushing a full bucket cache to its cursor during the loop commutes
with the final flush: flushing pending `L` for bucket `k0` now (and
advancing the cursor) yields the same image as leaving `L` pending. -/
theorem flushAll_preflush [Inhabited α] (c : Nat → Nat) (cache : Nat → List α)
    (t : List α) (k0 : Nat) (L : List α) (hk0 : k0 < 256)
    (hdisj : ∀ a b, a < b →
      c a + (Function.update cache k0 L a).length ≤ c b)
    (hbnd : ∀ a, Function.update cache k0 L a ≠ [] →
      c a + (Function.update cache k0 L a).length ≤ t.length) :
    flushAll 256 c (Function.update cache k0 L) t =
      flushAll 256 (Function.update c k0 (c k0 + L.length))
        (Function.update cache k0 []) (writeList t (c k0) L) := by
  have hupc : ∀ k, Function.update cache k0 L k = if k = k0 then L else cache k := by
    intro k
    by_cases h : k = k0 <;> simp [Function.update, h]
  have hupc2 : ∀ k, Function.update cache k0 ([] : List α) k =
      if k = k0 then [] else cache k := by
    intro k
    by_cases h : k = k0 <;> simp [Function.update, h]
  have hupcur : ∀ k, Function.update c k0 (c k0 + L.length) k =
      if k = k0 then c k0 + L.length else c k := by
    intro k
    by_cases h : k = k0 <;> simp [Function.update, h]
  apply list_eq_of_getD
  · rw [flushAll_length, flushAll_length, writeList_length]
  · intro p hp
    rw [flushAll_length] at hp
    by_cases hregL : ∃ a, a < 256 ∧ c a ≤ p ∧
        p < c a + (Function.update cache k0 L a).length
    · obtain ⟨a, haR, ha1, ha2⟩ := hregL
      have hja : p = c a + (p - c a) := by omega
      have hinL := flushAll_getD_in 256 c (Function.update cache k0 L) t a
        (p - c a) haR (by omega)
        (hbnd a (by
          intro he
          rw [he] at ha2
          simp at ha2
          omega))
        (fun b hb1 _ => Or.inl (hdisj a b hb1))
      by_cases h : a = k0
      · subst h
        rw [hupc, if_pos rfl] at ha2 hinL
        have hLne : c a + L.length ≤ t.length := by
          have := hbnd a (by
            intro he
            rw [hupc, if_pos rfl] at he
            rw [he] at ha2
            simp at ha2
            omega)
          rw [hupc, if_pos rfl] at this
          exact this
        have hout2 : (flushAll 256 (Function.update c a (c a + L.length))
            (Function.update cache a []) (writeList t (c a) L)).getD p default =
            (writeList t (c a) L).getD p default := by
          apply flushAll_getD_out
          intro k hkR
          rw [hupc2, hupcur]
          by_cases hka : k = a
          · rw [if_pos hka, if_pos hka]
            simp
          · rw [if_neg hka, if_neg hka]
            rcases Nat.lt_or_ge k a with hlt | hge
            · have := hdisj k a hlt
              rw [hupc, if_neg hka] at this
              omega
            · have hgt : a < k := by omega
              have := hdisj a k hgt
              rw [hupc, if_pos rfl] at this
              omega
        rw [hout2, hja, hinL, writeList_getD_in L t (c a) (p - c a) (by omega) hLne]
      · rw [hupc, if_neg h] at ha2 hinL
        have hinR := flushAll_getD_in 256 (Function.update c k0 (c k0 + L.length))
          (Function.update cache k0 []) (writeList t (c k0) L) a (p - c a) haR
          ?_ ?_ ?_
        · rw [hupc2, if_neg h, hupcur, if_neg h] at hinR
          rw [hja, hinL, hinR]
        · rw [hupc2, if_neg h]
          omega
        · rw [hupcur, if_neg h, hupc2, if_neg h, writeList_length]
          have := hbnd a (by
            intro he
            rw [hupc, if_neg h] at he
            rw [he] at ha2
            simp at ha2
            omega)
          rw [hupc, if_neg h] at this
          exact this
        · intro b hb1 hb2
          left
          rw [hupc2 a, if_neg h, hupcur a, if_neg h, hupcur b]
          by_cases hbk : b = k0
          · rw [if_pos hbk]
            have h7 := hdisj a b hb1
            rw [hupc a, if_neg h] at h7
            rw [hbk] at h7
            omega
          · rw [if_neg hbk]
            have h7 := hdisj a b hb1
            rw [hupc a, if_neg h] at h7
            omega
    · push_neg at hregL
      have houtL := flushAll_getD_out 256 c (Function.update cache k0 L) t p
        (fun k hkR => by have := hregL k hkR; omega)
      have houtR : (flushAll 256 (Function.update c k0 (c k0 + L.length))
          (Function.update cache k0 []) (writeList t (c k0) L)).getD p default =
          (writeList t (c k0) L).getD p default := by
        apply flushAll_getD_out
        intro k hkR
        rw [hupc2, hupcur]
        by_cases hka : k = k0
        · rw [if_pos hka, if_pos hka]
          simp
        · rw [if_neg hka, if_neg hka]
          have := hregL k hkR
          rw [hupc, if_neg hka] at this
          omega
      have hk0out := hregL k0 hk0
      rw [hupc, if_pos rfl] at hk0out
      rw [houtL, houtR, writeList_getD_out _ _ _ _ (by omega)]

/-- The write-back-buffer redistribution followed by the final flush
computes exactly the plain redistribution loop: the local caches only
delay the writes. -/
theorem bufScatterIdx_eq [Inhabited α] (keyAt : Nat → Nat) (src : List α)
    (csize : Nat) (hcs : 0 < csize) :
    ∀ (is : List Nat) (c : Nat → Nat) (cache : Nat → List α) (t : List α),
      (∀ i ∈ is, keyAt i < 256) →
      (∀ k, (cache k).length < csize) →
      (∀ a b, a < b → c a + (cache a).length + keyCount keyAt is a ≤ c b) →
      (∀ a, (keyCount keyAt is a ≠ 0 ∨ cache a ≠ []) →
        c a + (cache a).length + keyCount keyAt is a ≤ t.length) →
      flushAll 256 (bufScatterIdx keyAt src csize is c cache t).1
        (bufScatterIdx keyAt src csize is c cache t).2.1
        (bufScatterIdx keyAt src csize is c cache t).2.2 =
      (scatterIdx keyAt src is (fun k => c k + (cache k).length)
        (flushAll 256 c cache t)).2 := by
  intro is
  induction is with
  | nil =>
    intro c cache t _ _ _ _
    have h1 : bufScatterIdx keyAt src csize [] c cache t = (c, cache, t) := rfl
    have h2 : scatterIdx keyAt src [] (fun k => c k + (cache k).length)
        (flushAll 256 c cache t) =
        ((fun k => c k + (cache k).length), flushAll 256 c cache t) := rfl
    rw [h1, h2]
  | cons i is ih =>
    intro c cache t hkeys hsc1 hord hbnd
    have hk0 : keyAt i < 256 := hkeys i (List.mem_cons_self i is)
    have hcnt : ∀ k, keyCount keyAt (i :: is) k =
        keyCount keyAt is k + (if keyAt i = k then 1 else 0) := by
      intro k
      simp only [keyCount, List.countP_cons]
      by_cases h : keyAt i = k <;> simp [h]
    have hcnt_self : keyCount keyAt (i :: is) (keyAt i) =
        keyCount keyAt is (keyAt i) + 1 := by
      rw [hcnt]
      simp
    have hupcache : ∀ (L : List α) (k), Function.update cache (keyAt i) L k =
        if k = keyAt i then L else cache k := by
      intro L k
      by_cases h : k = keyAt i <;> simp [Function.update, h]
    rw [bufScatterIdx, scatterIdx]
    by_cases hfl : (cache (keyAt i) ++ [src.getD i default]).length = csize
    · rw [if_pos hfl]
      have hlen0 : (cache (keyAt i)).length + 1 = csize := by simpa using hfl
      have hupcur : ∀ k, Function.update c (keyAt i) (c (keyAt i) + csize) k =
          if k = keyAt i then c (keyAt i) + csize else c k := by
        intro k
        by_cases h : k = keyAt i <;> simp [Function.update, h]
      have hihres := ih (Function.update c (keyAt i) (c (keyAt i) + csize))
        (Function.update cache (keyAt i) [])
        (writeList t (c (keyAt i)) (cache (keyAt i) ++ [src.getD i default]))
        (fun j hj => hkeys j (List.mem_cons_of_mem i hj))
        ?_ ?_ ?_
      · -- rewrite the ih result into the goal's shape
        have hcureq : (fun k => Function.update c (keyAt i) (c (keyAt i) + csize) k +
            (Function.update cache (keyAt i) ([] : List α) k).length) =
            Function.update (fun k => c k + (cache k).length) (keyAt i)
              (c (keyAt i) + (cache (keyAt i)).length + 1) := by
          funext k
          rw [hupcur, hupcache]
          by_cases h : k = keyAt i
          · rw [if_pos h, if_pos h, update_apply, if_pos h]
            simp
            omega
          · rw [if_neg h, if_neg h, update_apply, if_neg h]
        have htgt : flushAll 256 (Function.update c (keyAt i) (c (keyAt i) + csize))
            (Function.update cache (keyAt i) [])
            (writeList t (c (keyAt i)) (cache (keyAt i) ++ [src.getD i default])) =
            (flushAll 256 c cache t).set
              (c (keyAt i) + (cache (keyAt i)).length) (src.getD i default) := by
          have hpre := flushAll_preflush c cache t (keyAt i)
            (cache (keyAt i) ++ [src.getD i default]) hk0 ?_ ?_
          · have habs := flushAll_absorb c cache t (keyAt i) (src.getD i default)
              hk0 ?_ ?_ ?_
            · have hculen : Function.update c (keyAt i) (c (keyAt i) + csize) =
                  Function.update c (keyAt i)
                    (c (keyAt i) + (cache (keyAt i) ++ [src.getD i default]).length) := by
                rw [hfl]
              rw [hculen, ← hpre, habs]
            · intro a b hab
              have h1 := hord a b hab
              by_cases h : a = keyAt i
              · rw [if_pos h]
                rw [h] at h1 ⊢
                rw [hcnt_self] at h1
                omega
              · rw [if_neg h]
                omega
            · intro a ha
              have h1 := hbnd a (Or.inr ha)
              omega
            · have h1 := hbnd (keyAt i) (Or.inl (by rw [hcnt_self]; omega))
              rw [hcnt_self] at h1
              omega
          · intro a b hab
            rw [hupcache]
            have h1 := hord a b hab
            by_cases h : a = keyAt i
            · rw [if_pos h, h]
              rw [h, hcnt_self] at h1
              simp only [List.length_append, List.length_singleton]
              omega
            · rw [if_neg h]
              omega
          · intro a ha
            rw [hupcache] at ha ⊢
            by_cases h : a = keyAt i
            · rw [if_pos h] at ha ⊢
              rw [h]
              have h1 := hbnd (keyAt i) (Or.inl (by rw [hcnt_self]; omega))
              rw [hcnt_self] at h1
              simp only [List.length_append, List.length_singleton]
              omega
            · rw [if_neg h] at ha ⊢
              have h1 := hbnd a (Or.inr ha)
              omega
        rw [hcureq, htgt] at hihres
        exact hihres
      · -- caches stay below capacity
        intro k
        rw [hupcache]
        by_cases h : k = keyAt i
        · rw [if_pos h]
          simpa using hcs
        · rw [if_neg h]
          exact hsc1 k
      · -- ordering of the virtual cursors
        intro a b hab
        rw [hupcur, hupcur, hupcache]
        have h1 := hord a b hab
        by_cases ha : a = keyAt i
        · rw [if_pos ha, if_pos ha]
          have hbne : ¬b = keyAt i := by omega
          rw [if_neg hbne, ha]
          rw [ha, hcnt_self] at h1
          simp only [List.length_nil]
          omega
        · rw [if_neg ha, if_neg ha]
          have h2 : keyCount keyAt is a ≤ keyCount keyAt (i :: is) a := by
            rw [hcnt]
            omega
          by_cases hb : b = keyAt i
          · rw [if_pos hb]
            rw [hb] at h1
            omega
          · rw [if_neg hb]
            omega
      · -- bounds
        intro a ha
        rw [writeList_length]
        rw [hupcur, hupcache]
        by_cases h : a = keyAt i
        · rw [if_pos h, if_pos h, h]
          have h1 := hbnd (keyAt i) (Or.inl (by rw [hcnt_self]; omega))
          rw [hcnt_self] at h1
          simp only [List.length_nil]
          omega
        · rw [if_neg h, if_neg h]
          rw [hupcache, if_neg h] at ha
          have h2 : keyCount keyAt is a ≤ keyCount keyAt (i :: is) a := by
            rw [hcnt]
            omega
          have h1 := hbnd a ?_
          · omega
          · rcases ha with ha | ha
            · left
              rw [hcnt]
              omega
            · right
              exact ha
    · rw [if_neg hfl]
      have hlt : (cache (keyAt i)).length + 1 < csize := by
        have := hsc1 (keyAt i)
        simp at hfl
        omega
      have hihres := ih c
        (Function.update cache (keyAt i) (cache (keyAt i) ++ [src.getD i default])) t
        (fun j hj => hkeys j (List.mem_cons_of_mem i hj))
        ?_ ?_ ?_
      · have hcureq : (fun k => c k +
            (Function.update cache (keyAt i)
              (cache (keyAt i) ++ [src.getD i default]) k).length) =
            Function.update (fun k => c k + (cache k).length) (keyAt i)
              (c (keyAt i) + (cache (keyAt i)).length + 1) := by
          funext k
          rw [hupcache]
          by_cases h : k = keyAt i
          · rw [if_pos h, update_apply, if_pos h, h]
            simp only [List.length_append, List.length_singleton]
            omega
          · rw [if_neg h, update_apply, if_neg h]
        have htgt : flushAll 256 c
            (Function.update cache (keyAt i) (cache (keyAt i) ++ [src.getD i default])) t =
            (flushAll 256 c cache t).set
              (c (keyAt i) + (cache (keyAt i)).length) (src.getD i default) := by
          apply flushAll_absorb c cache t (keyAt i) _ hk0
          · intro a b hab
            have h1 := hord a b hab
            by_cases h : a = keyAt i
            · rw [if_pos h]
              rw [h] at h1 ⊢
              rw [hcnt_self] at h1
              omega
            · rw [if_neg h]
              omega
          · intro a ha
            have h1 := hbnd a (Or.inr ha)
            omega
          · have h1 := hbnd (keyAt i) (Or.inl (by rw [hcnt_self]; omega))
            rw [hcnt_self] at h1
            omega
        rw [hcureq, htgt] at hihres
        exact hihres
      · intro k
        rw [hupcache]
        by_cases h : k = keyAt i
        · rw [if_pos h]
          simp only [List.length_append, List.length_singleton]
          omega
        · rw [if_neg h]
          exact hsc1 k
      · intro a b hab
        rw [hupcache]
        have h1 := hord a b hab
        by_cases ha : a = keyAt i
        · rw [if_pos ha, ha]
          rw [ha, hcnt_self] at h1
          simp only [List.length_append, List.length_singleton]
          omega
        · rw [if_neg ha]
          have h2 : keyCount keyAt is a ≤ keyCount keyAt (i :: is) a := by
            rw [hcnt]
            omega
          omega
      · intro a ha
        rw [hupcache]
        by_cases h : a = keyAt i
        · rw [if_pos h, h]
          have h1 := hbnd (keyAt i) (Or.inl (by rw [hcnt_self]; omega))
          rw [hcnt_self] at h1
          simp only [List.length_append, List.length_singleton]
          omega
        · rw [if_neg h]
          rw [hupcache, if_neg h] at ha
          have h2 : keyCount keyAt is a ≤ keyCount keyAt (i :: is) a := by
            rw [hcnt]
            omega
          have h1 := hbnd a ?_
          · omega
          · rcases ha with ha | ha
            · left
              rw [hcnt]
              omega
            · right
              exact ha

/-- The LSD snake prefix sum over the per-thread bucket sizes:
`buckets[0][0] = begin_cache`,
`buckets[t][k] = buckets[t-1][k] + bucket_sizes[t-1][k]`, and
`buckets[0][k+1] = buckets[T-1][k] + bucket_sizes[T-1][k]`
(indices relative to the start of the target buffer). -/
def lsdB (sz : Nat → Nat → Nat) (T : Nat) : Nat → Nat → Nat
  | t + 1, k => lsdB sz T t k + sz t k
  | 0, k + 1 => lsdB sz T (T - 1) k + sz (T - 1) k
  | 0, 0 => 0
termination_by t k => (k, t)

theorem lsdB_succ_t (sz : Nat → Nat → Nat) (T t k : Nat) :
    lsdB sz T (t + 1) k = lsdB sz T t k + sz t k := by
  rw [lsdB]

theorem lsdB_zero_succ (sz : Nat → Nat → Nat) (T k : Nat) :
    lsdB sz T 0 (k + 1) = lsdB sz T (T - 1) k + sz (T - 1) k := by
  rw [lsdB]

/-- Closed form of the snake layout: the total prefix sum of the earlier
buckets plus the earlier threads' counts of the current bucket. -/
theorem lsdB_closed (sz : Nat → Nat → Nat) (T : Nat) (hT : 1 ≤ T) :
    ∀ k t, t ≤ T - 1 →
      lsdB sz T t k =
        exclScan (fun k2 => ∑ t2 ∈ Finset.range T, sz t2 k2) k +
          ∑ t2 ∈ Finset.range t, sz t2 k := by
  intro k
  induction k with
  | zero =>
    intro t
    induction t with
    | zero =>
      intro _
      rw [lsdB]
      rfl
    | succ t iht =>
      intro ht
      rw [lsdB_succ_t, iht (by omega), Finset.sum_range_succ]
      omega
  | succ k ihk =>
    have hkey : lsdB sz T 0 (k + 1) =
        exclScan (fun k2 => ∑ t2 ∈ Finset.range T, sz t2 k2) (k + 1) := by
      rw [lsdB_zero_succ, ihk (T - 1) (le_refl _)]
      have hTs : T - 1 + 1 = T := by omega
      have hsum : (∑ t2 ∈ Finset.range (T - 1), sz t2 k) + sz (T - 1) k =
          ∑ t2 ∈ Finset.range T, sz t2 k := by
        rw [← Finset.sum_range_succ, hTs]
      have hstep : exclScan (fun k2 => ∑ t2 ∈ Finset.range T, sz t2 k2) (k + 1) =
          exclScan (fun k2 => ∑ t2 ∈ Finset.range T, sz t2 k2) k +
            ∑ t2 ∈ Finset.range T, sz t2 k := rfl
      omega
    intro t
    induction t with
    | zero =>
      intro _
      rw [hkey]
      simp
    | succ t iht =>
      intro ht
      rw [lsdB_succ_t, iht (by omega), Finset.sum_range_succ]
      omega

/-- Ordering of the per-thread bucket regions inside one pass: thread
`t`'s region of bucket `j` (its count included) lies before its region of
any later bucket `k`. -/
theorem lsdB_ord (sz : Nat → Nat → Nat) (T : Nat) (hT : 1 ≤ T) (t : Nat)
    (htT : t < T) (j k : Nat) (hjk : j < k) :
    lsdB sz T t j + sz t j ≤ lsdB sz T t k := by
  rw [lsdB_closed sz T hT j t (by omega), lsdB_closed sz T hT k t (by omega)]
  have h1 : (∑ t2 ∈ Finset.range t, sz t2 j) + sz t j ≤
      ∑ t2 ∈ Finset.range T, sz t2 j := by
    rw [← Finset.sum_range_succ]
    apply Finset.sum_le_sum_of_subset
    intro q hq
    rw [Finset.mem_range] at hq ⊢
    omega
  have h2 : exclScan (fun k2 => ∑ t2 ∈ Finset.range T, sz t2 k2) (j + 1) =
      exclScan (fun k2 => ∑ t2 ∈ Finset.range T, sz t2 k2) j +
        ∑ t2 ∈ Finset.range T, sz t2 j := rfl
  have h3 := exclScan_mono (fun k2 => ∑ t2 ∈ Finset.range T, sz t2 k2)
    (show j + 1 ≤ k from hjk)
  omega

/-- Regions of different threads for the same bucket are ordered by
thread number. -/
theorem lsdB_thread_ord (sz : Nat → Nat → Nat) (T : Nat) (hT : 1 ≤ T)
    (t1 t2 : Nat) (h12 : t1 < t2) (ht2 : t2 ≤ T - 1) (k : Nat) :
    lsdB sz T t1 k + sz t1 k ≤ lsdB sz T t2 k := by
  rw [lsdB_closed sz T hT k t1 (by omega), lsdB_closed sz T hT k t2 ht2]
  have h1 : (∑ q ∈ Finset.range t1, sz q k) + sz t1 k ≤
      ∑ q ∈ Finset.range t2, sz q k := by
    rw [← Finset.sum_range_succ]
    apply Finset.sum_le_sum_of_subset
    intro q hq
    rw [Finset.mem_range] at hq ⊢
    omega
  omega

/-- Every thread's region of bucket `k` lies inside the bucket's global
span `[exclScan tot k, exclScan tot (k+1))`. -/
theorem lsdB_span (sz : Nat → Nat → Nat) (T : Nat) (hT : 1 ≤ T) (t : Nat)
    (htT : t < T) (k : Nat) :
    exclScan (fun k2 => ∑ t2 ∈ Finset.range T, sz t2 k2) k ≤ lsdB sz T t k ∧
    lsdB sz T t k + sz t k ≤
      exclScan (fun k2 => ∑ t2 ∈ Finset.range T, sz t2 k2) (k + 1) := by
  rw [lsdB_closed sz T hT k t (by omega)]
  have h1 : (∑ t2 ∈ Finset.range t, sz t2 k) + sz t k ≤
      ∑ t2 ∈ Finset.range T, sz t2 k := by
    rw [← Finset.sum_range_succ]
    apply Finset.sum_le_sum_of_subset
    intro q hq
    rw [Finset.mem_range] at hq ⊢
    omega
  have h2 : exclScan (fun k2 => ∑ t2 ∈ Finset.range T, sz t2 k2) (k + 1) =
      exclScan (fun k2 => ∑ t2 ∈ Finset.range T, sz t2 k2) k +
        ∑ t2 ∈ Finset.range T, sz t2 k := rfl
  omega

/-- Per-thread bucket sizes of one pass (`private_bucket_size`): the
histogram of the keys of the thread's index chunk `[S t, S (t+1))`. -/
def lsdCnt (keyAt : Nat → Nat) (S : Nat → Nat) (t : Nat) : Nat → Nat :=
  histogram keyAt (List.range' (S t) (S (t + 1) - S t))

/-- One redistribution phase of `radix_sort_prefix_par` /
`..._no_cache`: every thread scatters its chunk from the snake cursors
(threads execute on disjoint target regions, so thread order is
immaterial; the model runs them in order). -/
def lsdDistribute [Inhabited α] (keyAt : Nat → Nat) (src : List α) (T : Nat)
    (S : Nat → Nat) (dst : List α) : List α :=
  (List.range T).foldl
    (fun tg t => (scatterIdx keyAt src (List.range' (S t) (S (t + 1) - S t))
      (lsdB (fun t2 => lsdCnt keyAt S t2) T t) tg).2) dst

/-- The redistribution phase of
`radix_sort_prefix_par_no_cache_write_back_buffer`: each thread runs the
buffered loop (`csize = 256`) and then flushes the pending caches. -/
def lsdDistributeBuf [Inhabited α] (keyAt : Nat → Nat) (src : List α) (T : Nat)
    (S : Nat → Nat) (dst : List α) : List α :=
  (List.range T).foldl
    (fun tg t =>
      flushAll 256
        (bufScatterIdx keyAt src 256 (List.range' (S t) (S (t + 1) - S t))
          (lsdB (fun t2 => lsdCnt keyAt S t2) T t) (fun _ => []) tg).1
        (bufScatterIdx keyAt src 256 (List.range' (S t) (S (t + 1) - S t))
          (lsdB (fun t2 => lsdCnt keyAt S t2) T t) (fun _ => []) tg).2.1
        (bufScatterIdx keyAt src 256 (List.range' (S t) (S (t + 1) - S t))
          (lsdB (fun t2 => lsdCnt keyAt S t2) T t) (fun _ => []) tg).2.2)
    dst

theorem S_mono_le (S : Nat → Nat) (hmono : ∀ t, S t ≤ S (t + 1)) :
    ∀ a b, a ≤ b → S a ≤ S b :=
  fun _ _ h => monotone_nat_of_le_succ hmono h

/-- The chunk lengths telescope. -/
theorem chunk_sum (S : Nat → Nat) (hmono : ∀ t, S t ≤ S (t + 1)) :
    ∀ r, ∑ t ∈ Finset.range r, (S (t + 1) - S t) = S r - S 0 := by
  intro r
  induction r with
  | zero => simp
  | succ r ih =>
    rw [Finset.sum_range_succ, ih]
    have h1 := S_mono_le S hmono 0 r (Nat.zero_le _)
    have h2 := hmono r
    omega

/-- Total bucket sizes of one pass sum to the element count. -/
theorem lsdCnt_total (keyAt : Nat → Nat) (hkey : ∀ i, keyAt i < 256)
    (S : Nat → Nat) (hmono : ∀ t, S t ≤ S (t + 1)) (T : Nat) :
    ∑ k ∈ Finset.range 256, (∑ t ∈ Finset.range T, lsdCnt keyAt S t k) =
      S T - S 0 := by
  rw [Finset.sum_comm]
  have h1 : ∀ t ∈ Finset.range T,
      (∑ k ∈ Finset.range 256, lsdCnt keyAt S t k) = S (t + 1) - S t := by
    intro t _
    have h2 : ∀ k, lsdCnt keyAt S t k =
        (List.range' (S t) (S (t + 1) - S t)).countP (fun i => decide (keyAt i = k)) :=
      fun k => histogram_eq_countP _ _ _
    rw [Finset.sum_congr rfl (fun k _ => h2 k)]
    rw [sum_countP_eq_length keyAt _ 256 (fun i _ => hkey i)]
    simp
  rw [Finset.sum_congr rfl h1, chunk_sum S hmono]

theorem exclScan_lsdTot_le (keyAt : Nat → Nat) (hkey : ∀ i, keyAt i < 256)
    (S : Nat → Nat) (hmono : ∀ t, S t ≤ S (t + 1)) (T : Nat) (k : Nat) :
    exclScan (fun k2 => ∑ t2 ∈ Finset.range T, lsdCnt keyAt S t2 k2) k ≤
      S T - S 0 := by
  have htot : exclScan (fun k2 => ∑ t2 ∈ Finset.range T, lsdCnt keyAt S t2 k2) 256 =
      S T - S 0 := by
    rw [exclScan_eq_sum]
    exact lsdCnt_total keyAt hkey S hmono T
  by_cases hk : k ≤ 256
  · have h1 := exclScan_mono
      (fun k2 => ∑ t2 ∈ Finset.range T, lsdCnt keyAt S t2 k2) hk
    omega
  · have h2 : exclScan (fun k2 => ∑ t2 ∈ Finset.range T, lsdCnt keyAt S t2 k2) k =
        exclScan (fun k2 => ∑ t2 ∈ Finset.range T, lsdCnt keyAt S t2 k2) 256 := by
      apply exclScan_eq_of_zero
      · omega
      · intro k2 h1 _
        apply Finset.sum_eq_zero
        intro t2 _
        show histogram keyAt (List.range' (S t2) (S (t2 + 1) - S t2)) k2 = 0
        rw [histogram_eq_keyCount]
        exact keyCount_eq_zero_of_ge keyAt 256 hkey _ k2 (by omega)
    omega

/-- The distribution phase cut off after the first `r` threads. -/
def lsdDistributeUpTo [Inhabited α] (keyAt : Nat → Nat) (src : List α) (T : Nat)
    (S : Nat → Nat) (dst : List α) (r : Nat) : List α :=
  (List.range r).foldl
    (fun tg t => (scatterIdx keyAt src (List.range' (S t) (S (t + 1) - S t))
      (lsdB (fun t2 => lsdCnt keyAt S t2) T t) tg).2) dst

theorem lsdDistributeUpTo_succ [Inhabited α] (keyAt : Nat → Nat) (src : List α)
    (T : Nat) (S : Nat → Nat) (dst : List α) (r : Nat) :
    lsdDistributeUpTo keyAt src T S dst (r + 1) =
      (scatterIdx keyAt src (List.range' (S r) (S (r + 1) - S r))
        (lsdB (fun t2 => lsdCnt keyAt S t2) T r)
        (lsdDistributeUpTo keyAt src T S dst r)).2 := by
  unfold lsdDistributeUpTo
  rw [List.range_succ, List.foldl_append, List.foldl_cons, List.foldl_nil]

theorem lsdDistribute_eq_upTo [Inhabited α] (keyAt : Nat → Nat) (src : List α)
    (T : Nat) (S : Nat → Nat) (dst : List α) :
    lsdDistribute keyAt src T S dst = lsdDistributeUpTo keyAt src T S dst T := rfl

/-- Positional contents of the distribution phase: each thread's bucket
region holds the source elements of that thread's key-`k` indices in
order; everything else is untouched. -/
theorem lsdDistribute_partial [Inhabited α] (keyAt : Nat → Nat) (src : List α)
    (T : Nat) (S : Nat → Nat) (dst : List α) (hT : 1 ≤ T)
    (hkey : ∀ i, keyAt i < 256) (hmono : ∀ t, S t ≤ S (t + 1)) (hS0 : S 0 = 0)
    (hST : S T = dst.length) :
    ∀ r, r ≤ T →
      (lsdDistributeUpTo keyAt src T S dst r).length = dst.length ∧
      (∀ t k j, t < r → j < lsdCnt keyAt S t k →
        (lsdDistributeUpTo keyAt src T S dst r).getD
            (lsdB (fun t2 => lsdCnt keyAt S t2) T t k + j) default =
          src.getD ((keyFilter keyAt (List.range' (S t) (S (t + 1) - S t)) k).getD
            j default) default) ∧
      (∀ p, (∀ t k, t < r →
          ¬(lsdB (fun t2 => lsdCnt keyAt S t2) T t k ≤ p ∧
            p < lsdB (fun t2 => lsdCnt keyAt S t2) T t k + lsdCnt keyAt S t k)) →
        (lsdDistributeUpTo keyAt src T S dst r).getD p default =
          dst.getD p default) := by
  intro r
  induction r with
  | zero =>
    intro _
    exact ⟨rfl, fun t k j ht _ => absurd ht (by omega), fun p _ => rfl⟩
  | succ r ih =>
    intro hrT
    obtain ⟨ihL, ihIn, ihOut⟩ := ih (by omega)
    have hkc : lsdCnt keyAt S r =
        keyCount keyAt (List.range' (S r) (S (r + 1) - S r)) :=
      histogram_eq_keyCount _ _
    have hbnd2 : ∀ k, exclScan (fun k2 => ∑ t2 ∈ Finset.range T,
        lsdCnt keyAt S t2 k2) k ≤ dst.length := by
      intro k
      have := exclScan_lsdTot_le keyAt hkey S hmono T k
      omega
    have hord : ∀ j k, j < k →
        lsdB (fun t2 => lsdCnt keyAt S t2) T r j +
          keyCount keyAt (List.range' (S r) (S (r + 1) - S r)) j ≤
        lsdB (fun t2 => lsdCnt keyAt S t2) T r k := by
      intro j k hjk
      rw [← hkc]
      exact lsdB_ord _ T hT r (by omega) j k hjk
    have hbound : ∀ k,
        keyCount keyAt (List.range' (S r) (S (r + 1) - S r)) k ≠ 0 →
        lsdB (fun t2 => lsdCnt keyAt S t2) T r k +
          keyCount keyAt (List.range' (S r) (S (r + 1) - S r)) k ≤
        (lsdDistributeUpTo keyAt src T S dst r).length := by
      intro k _
      rw [ihL, ← hkc]
      have hsp := (lsdB_span (fun t2 => lsdCnt keyAt S t2) T hT r (by omega) k).2
      have := hbnd2 (k + 1)
      omega
    obtain ⟨specOut, specIn⟩ := scatterIdx_spec keyAt src
      (List.range' (S r) (S (r + 1) - S r))
      (lsdB (fun t2 => lsdCnt keyAt S t2) T r)
      (lsdDistributeUpTo keyAt src T S dst r) hord hbound
    refine ⟨?_, ?_, ?_⟩
    · rw [lsdDistributeUpTo_succ, scatterIdx_length, ihL]
    · intro t k j ht hj
      rw [lsdDistributeUpTo_succ]
      by_cases htr : t = r
      · subst htr
        rw [hkc] at hj
        exact specIn k j hj
      · have htlt : t < r := by omega
        rw [specOut _ ?_]
        · exact ihIn t k j htlt hj
        · intro k2
          intro ⟨ha, hb⟩
          have hsp1 := lsdB_span (fun t2 => lsdCnt keyAt S t2) T hT t (by omega) k
          have hsp2 := lsdB_span (fun t2 => lsdCnt keyAt S t2) T hT r (by omega) k2
          rw [← hkc] at hb
          by_cases hkk : k2 = k
          · subst hkk
            have := lsdB_thread_ord (fun t2 => lsdCnt keyAt S t2) T hT t r htlt
              (by omega) k2
            omega
          · have hkk2 : k = k2 := span_unique
              (fun k2 => ∑ t2 ∈ Finset.range T, lsdCnt keyAt S t2 k2)
              (lsdB (fun t2 => lsdCnt keyAt S t2) T t k + j) k k2
              (by omega) (by omega) (by omega) (by omega)
            exact hkk hkk2.symm
    · intro p hp
      rw [lsdDistributeUpTo_succ, specOut p ?_]
      · exact ihOut p (fun t k ht => hp t k (by omega))
      · intro k2
        rw [← hkc]
        exact hp r k2 (by omega)

theorem getD_drop [Inhabited α] (l : List α) (a p : Nat) :
    (l.drop a).getD p default = l.getD (a + p) default := by
  rw [List.getD_eq_getElem?_getD, List.getD_eq_getElem?_getD, List.getElem?_drop]

theorem getD_map_lt [Inhabited α] [Inhabited β] (f : α → β) (l : List α) (j : Nat)
    (hj : j < l.length) :
    (l.map f).getD j default = f (l.getD j default) := by
  have hj2 : j < (l.map f).length := by simpa using hj
  rw [List.getD_eq_getElem?_getD, List.getD_eq_getElem?_getD,
    List.getElem?_eq_getElem hj, List.getElem?_eq_getElem hj2]
  simp

theorem keyFilter_length (key : α → Nat) (l : List α) (k : Nat) :
    (keyFilter key l k).length = keyCount key l k := by
  rw [keyFilter, keyCount, List.countP_eq_length_filter]

/-- Mapping the source lookup over the key-filtered index range is the
key-filtered source list. -/
theorem range'_filter_map_getD [Inhabited α] (key : α → Nat) (k : Nat) :
    ∀ (l : List α) (s : Nat) (L : List α),
      (∀ j, j < l.length → L.getD (s + j) default = l.getD j default) →
      ((List.range' s l.length).filter
        (fun i => decide (key (L.getD i default) = k))).map
        (fun i => L.getD i default) = l.filter (fun v => decide (key v = k)) := by
  intro l
  induction l with
  | nil =>
    intro s L _
    rfl
  | cons v t ih =>
    intro s L h
    have hv : L.getD s default = v := by
      have := h 0 (by simp)
      simpa using this
    rw [show (v :: t).length = t.length + 1 from rfl, List.range'_succ,
      List.filter_cons]
    have hrec := ih (s + 1) L (fun j hj => by
      have := h (j + 1) (by simpa using hj)
      rw [show s + (j + 1) = s + 1 + j by omega] at this
      simpa using this)
    rw [List.filter_cons]
    by_cases hkv : key v = k
    · rw [if_pos (by rw [hv]; simpa using hkv), if_pos (by simpa using hkv)]
      rw [List.map_cons, hv, hrec]
    · rw [if_neg (by rw [hv]; simpa using hkv), if_neg (by simpa using hkv)]
      exact hrec

/-- Concatenation of the per-thread key filters of one bucket. -/
def chunkFilterJoin (keyAt : Nat → Nat) (S : Nat → Nat) (k : Nat) : Nat → List Nat
  | 0 => []
  | r + 1 => chunkFilterJoin keyAt S k r ++
      keyFilter keyAt (List.range' (S r) (S (r + 1) - S r)) k

theorem chunkFilterJoin_eq (keyAt : Nat → Nat) (S : Nat → Nat) (k : Nat)
    (hS0 : S 0 = 0) (hmono : ∀ t, S t ≤ S (t + 1)) :
    ∀ r, chunkFilterJoin keyAt S k r =
      keyFilter keyAt (List.range' 0 (S r)) k := by
  intro r
  induction r with
  | zero =>
    rw [chunkFilterJoin, hS0]
    rfl
  | succ r ih =>
    rw [chunkFilterJoin, ih, keyFilter, keyFilter, keyFilter, ← List.filter_append]
    have hr0 : S 0 ≤ S r := S_mono_le S hmono 0 r (Nat.zero_le _)
    have happ : List.range' 0 (S r) ++ List.range' (S r) (S (r + 1) - S r) =
        List.range' 0 (S (r + 1)) := by
      have h1 := List.range'_append 0 (S r) (S (r + 1) - S r) 1
      simp only [one_mul, Nat.zero_add] at h1
      rw [h1]
      have := hmono r
      congr 1
      omega
    rw [happ]

/-- If every bucket slice equals the bucket's key filter, the slice join
is the bucket join. -/
theorem sliceJoin_eq_bucketJoin [Inhabited α] (sz : Nat → Nat) (X : List α)
    (key : α → Nat) (l : List α)
    (h : ∀ b, (X.drop (exclScan sz b)).take (sz b) = keyFilter key l b) :
    ∀ r, sliceJoin sz X r = bucketJoin key l r := by
  intro r
  induction r with
  | zero => rfl
  | succ r ih => rw [sliceJoin, bucketJoin, ih, h r]

/-- Bound on a key byte. -/
theorem byteOf_lt (x d : Nat) : byteOf x d < 256 :=
  Nat.mod_lt _ (by decide)

/-- One full distribution phase of the `no_cache` pass performs a stable
bucket sort of the source by the depth-`d` key byte. -/
theorem lsdDistribute_eq_bucketJoin [Inhabited α] (kg : α → Nat) (d : Nat)
    (src dst : List α) (T : Nat) (S : Nat → Nat) (hT : 1 ≤ T) (hS0 : S 0 = 0)
    (hmono : ∀ t, S t ≤ S (t + 1)) (hST : S T = src.length)
    (hdst : dst.length = src.length) :
    lsdDistribute (fun i => byteOf (kg (src.getD i default)) d) src T S dst =
      bucketJoin (fun v => byteOf (kg v) d) src 256 := by
  have hkeyb : ∀ i : Nat, byteOf (kg (src.getD i default)) d < 256 :=
    fun i => byteOf_lt _ _
  have hSTd : S T = dst.length := by
    rw [hdst]
    exact hST
  obtain ⟨hYlen, hYin, _⟩ := lsdDistribute_partial
    (fun i => byteOf (kg (src.getD i default)) d) src T S dst hT hkeyb hmono
    hS0 hSTd T (le_refl T)
  rw [lsdDistribute_eq_upTo]
  set keyAt := fun i => byteOf (kg (src.getD i default)) d with hkA
  set Y := lsdDistributeUpTo keyAt src T S dst T with hY
  set tot := fun k2 => ∑ t2 ∈ Finset.range T, lsdCnt keyAt S t2 k2 with htot
  have hexcl256 : exclScan tot 256 = src.length := by
    rw [htot, exclScan_eq_sum, lsdCnt_total keyAt hkeyb S hmono T]
    omega
  have hcntkc : ∀ t b, lsdCnt keyAt S t b =
      keyCount keyAt (List.range' (S t) (S (t + 1) - S t)) b :=
    fun t b => congrFun (histogram_eq_keyCount _ _) b
  have hbucket : ∀ b, (Y.drop (exclScan tot b)).take (tot b) =
      keyFilter (fun v => byteOf (kg v) d) src b := by
    intro b
    have hsub : ∀ r, r ≤ T →
        sliceJoin (fun t => lsdCnt keyAt S t b) (Y.drop (exclScan tot b)) r =
          (chunkFilterJoin keyAt S b r).map (fun i => src.getD i default) := by
      intro r
      induction r with
      | zero =>
        intro _
        rfl
      | succ r ih =>
        intro hr
        rw [sliceJoin, chunkFilterJoin, List.map_append, ih (by omega)]
        congr 1
        have hclosed : lsdB (fun t2 => lsdCnt keyAt S t2) T r b =
            exclScan tot b + ∑ t2 ∈ Finset.range r, lsdCnt keyAt S t2 b := by
          have h0 := lsdB_closed (fun t2 => lsdCnt keyAt S t2) T hT b r (by omega)
          rw [← htot] at h0
          exact h0
        have hsum : exclScan (fun t => lsdCnt keyAt S t b) r =
            ∑ t2 ∈ Finset.range r, lsdCnt keyAt S t2 b := exclScan_eq_sum _ _
        have hspan := (lsdB_span (fun t2 => lsdCnt keyAt S t2) T hT r
          (by omega) b).2
        rw [← htot] at hspan
        have hlee := exclScan_lsdTot_le keyAt hkeyb S hmono T (b + 1)
        rw [← htot] at hlee
        have hmon0 := exclScan_mono tot (show b ≤ b + 1 by omega)
        apply slice_eq_of_getD
        · rw [List.length_map, keyFilter_length]
          exact (hcntkc r b).symm
        · rw [List.length_drop, hYlen]
          omega
        · intro i hi
          rw [getD_drop]
          rw [show exclScan tot b + (exclScan (fun t => lsdCnt keyAt S t b) r + i) =
            lsdB (fun t2 => lsdCnt keyAt S t2) T r b + i by omega]
          rw [hYin r b i (by omega) hi]
          rw [getD_map_lt]
          rw [keyFilter_length, ← hcntkc r b]
          exact hi
    have h1 : (Y.drop (exclScan tot b)).take (tot b) =
        sliceJoin (fun t => lsdCnt keyAt S t b) (Y.drop (exclScan tot b)) T := by
      rw [← take_exclScan_sliceJoin]
      congr 1
      rw [exclScan_eq_sum]
    rw [h1, hsub T (le_refl T), chunkFilterJoin_eq keyAt S b hS0 hmono T, hST]
    exact range'_filter_map_getD (fun v => byteOf (kg v) d) b src 0 src
      (fun j _ => by rw [Nat.zero_add])
  have hfin : Y = sliceJoin tot Y 256 := by
    rw [← take_exclScan_sliceJoin]
    exact (List.take_of_length_le (by rw [hexcl256, hYlen, hdst])).symm
  rw [hfin]
  exact sliceJoin_eq_bucketJoin tot Y (fun v => byteOf (kg v) d) src hbucket 256

theorem histogram_congr_on (f g : Nat → Nat) (l : List Nat)
    (h : ∀ i ∈ l, f i = g i) : histogram f l = histogram g l := by
  funext k
  rw [histogram_eq_countP, histogram_eq_countP]
  apply List.countP_congr
  intro i hi
  rw [h i hi]

theorem scatterIdx_congr [Inhabited α] (f g : Nat → Nat) (src : List α) :
    ∀ (is : List Nat) (c : Nat → Nat) (t : List α), (∀ i ∈ is, f i = g i) →
      scatterIdx f src is c t = scatterIdx g src is c t := by
  intro is
  induction is with
  | nil =>
    intro c t _
    rfl
  | cons i is ih =>
    intro c t h
    rw [scatterIdx, scatterIdx, h i (List.mem_cons_self i is),
      ih _ _ (fun j hj => h j (List.mem_cons_of_mem _ hj))]

theorem chunk_mem_lt (S : Nat → Nat) (hmono : ∀ t, S t ≤ S (t + 1)) (T t : Nat)
    (htT : t < T) (i : Nat) (hi : i ∈ List.range' (S t) (S (t + 1) - S t)) :
    i < S T := by
  rw [List.mem_range'_1] at hi
  have h1 := S_mono_le S hmono (t + 1) T (by omega)
  omega

theorem lsdCnt_congr_on (f g : Nat → Nat) (S : Nat → Nat)
    (hmono : ∀ t, S t ≤ S (t + 1)) (T : Nat)
    (h : ∀ i, i < S T → f i = g i) (t : Nat) (htT : t < T) :
    lsdCnt f S t = lsdCnt g S t := by
  unfold lsdCnt
  exact histogram_congr_on f g _
    (fun i hi => h i (chunk_mem_lt S hmono T t htT i hi))

theorem lsdB_congr_on (sz1 sz2 : Nat → Nat → Nat) (T : Nat) (hT : 1 ≤ T)
    (h : ∀ t, t < T → sz1 t = sz2 t) (t : Nat) (htT : t < T) (k : Nat) :
    lsdB sz1 T t k = lsdB sz2 T t k := by
  have hsum : (fun k2 => ∑ t2 ∈ Finset.range T, sz1 t2 k2) =
      (fun k2 => ∑ t2 ∈ Finset.range T, sz2 t2 k2) := by
    funext k2
    apply Finset.sum_congr rfl
    intro t2 ht2
    rw [Finset.mem_range] at ht2
    rw [h t2 ht2]
  rw [lsdB_closed sz1 T hT k t (by omega), lsdB_closed sz2 T hT k t (by omega),
    hsum]
  have hpart : (∑ t2 ∈ Finset.range t, sz1 t2 k) =
      ∑ t2 ∈ Finset.range t, sz2 t2 k := by
    apply Finset.sum_congr rfl
    intro t2 ht2
    rw [Finset.mem_range] at ht2
    rw [h t2 (by omega)]
  rw [hpart]

/-- The key-cache variant and the recompute variant run the same
distribution: the cached byte of index `i` is the recomputed byte. -/
theorem lsdDistribute_congr [Inhabited α] (f g : Nat → Nat) (src : List α)
    (T : Nat) (S : Nat → Nat) (dst : List α) (hT : 1 ≤ T)
    (hmono : ∀ t, S t ≤ S (t + 1)) (h : ∀ i, i < S T → f i = g i) :
    lsdDistribute f src T S dst = lsdDistribute g src T S dst := by
  unfold lsdDistribute
  have hgen : ∀ (l : List Nat) (a : List α), (∀ t ∈ l, t < T) →
      List.foldl (fun tg t => (scatterIdx f src (List.range' (S t) (S (t + 1) - S t))
        (lsdB (fun t2 => lsdCnt f S t2) T t) tg).2) a l =
      List.foldl (fun tg t => (scatterIdx g src (List.range' (S t) (S (t + 1) - S t))
        (lsdB (fun t2 => lsdCnt g S t2) T t) tg).2) a l := by
    intro l
    induction l with
    | nil =>
      intro a _
      rfl
    | cons t l ih =>
      intro a hl
      have htT : t < T := hl t (List.mem_cons_self t l)
      rw [List.foldl_cons, List.foldl_cons]
      have hstep : (scatterIdx f src (List.range' (S t) (S (t + 1) - S t))
          (lsdB (fun t2 => lsdCnt f S t2) T t) a).2 =
          (scatterIdx g src (List.range' (S t) (S (t + 1) - S t))
            (lsdB (fun t2 => lsdCnt g S t2) T t) a).2 := by
        rw [scatterIdx_congr f g src _ _ _
          (fun i hi => h i (chunk_mem_lt S hmono T t htT i hi))]
        have hB : lsdB (fun t2 => lsdCnt f S t2) T t =
            lsdB (fun t2 => lsdCnt g S t2) T t := by
          funext k
          exact lsdB_congr_on _ _ T (by omega)
            (fun t2 ht2 => lsdCnt_congr_on f g S hmono T h t2 ht2) t htT k
        rw [hB]
      rw [hstep]
      exact ih _ (fun t2 ht2 => hl t2 (List.mem_cons_of_mem _ ht2))
  exact hgen (List.range T) dst (fun t ht => List.mem_range.mp ht)

theorem flushAll_empty [Inhabited α] (K : Nat) (c : Nat → Nat) (t : List α) :
    flushAll K c (fun _ => ([] : List α)) t = t := by
  induction K with
  | zero => rfl
  | succ K ih => rw [flushAll_succ, ih]; rfl

/-- The write-back-buffer distribution equals the plain distribution. -/
theorem lsdDistributeBuf_eq [Inhabited α] (keyAt : Nat → Nat) (src : List α)
    (T : Nat) (S : Nat → Nat) (dst : List α) (hT : 1 ≤ T)
    (hkey : ∀ i, keyAt i < 256) (hmono : ∀ t, S t ≤ S (t + 1))
    (hS0 : S 0 = 0) (hST : S T = dst.length) :
    lsdDistributeBuf keyAt src T S dst = lsdDistribute keyAt src T S dst := by
  unfold lsdDistributeBuf lsdDistribute
  have hgen : ∀ (l : List Nat) (a : List α), (∀ t ∈ l, t < T) →
      a.length = dst.length →
      List.foldl (fun tg t =>
        flushAll 256
          (bufScatterIdx keyAt src 256 (List.range' (S t) (S (t + 1) - S t))
            (lsdB (fun t2 => lsdCnt keyAt S t2) T t) (fun _ => []) tg).1
          (bufScatterIdx keyAt src 256 (List.range' (S t) (S (t + 1) - S t))
            (lsdB (fun t2 => lsdCnt keyAt S t2) T t) (fun _ => []) tg).2.1
          (bufScatterIdx keyAt src 256 (List.range' (S t) (S (t + 1) - S t))
            (lsdB (fun t2 => lsdCnt keyAt S t2) T t) (fun _ => []) tg).2.2) a l =
      List.foldl (fun tg t => (scatterIdx keyAt src (List.range' (S t) (S (t + 1) - S t))
        (lsdB (fun t2 => lsdCnt keyAt S t2) T t) tg).2) a l := by
    intro l
    induction l with
    | nil =>
      intro a _ _
      rfl
    | cons t l ih =>
      intro a hl hlen
      have htT : t < T := hl t (List.mem_cons_self t l)
      simp only [List.foldl_cons]
      have hkc : lsdCnt keyAt S t =
          keyCount keyAt (List.range' (S t) (S (t + 1) - S t)) :=
        histogram_eq_keyCount _ _
      have hclen : ∀ k : Nat, ((fun _ => ([] : List α)) k).length < 256 :=
        fun _ => by show (0 : Nat) < 256; decide
      have hstep := bufScatterIdx_eq keyAt src 256 (by decide)
        (List.range' (S t) (S (t + 1) - S t))
        (lsdB (fun t2 => lsdCnt keyAt S t2) T t) (fun _ => []) a
        (fun i hi => hkey i)
        hclen
        ?_ ?_
      · rw [hstep, flushAll_empty]
        apply ih
        · exact fun t2 ht2 => hl t2 (List.mem_cons_of_mem _ ht2)
        · rw [scatterIdx_length]
          exact hlen
      · intro a2 b hab
        have h : lsdB (fun t2 => lsdCnt keyAt S t2) T t a2 +
            lsdCnt keyAt S t a2 ≤ lsdB (fun t2 => lsdCnt keyAt S t2) T t b :=
          lsdB_ord _ T hT t (by omega) a2 b hab
        rw [hkc] at h
        simpa using h
      · intro k hk
        rcases hk with hk | hk
        · have hk256 : k < 256 := by
            by_contra hge
            apply hk
            exact keyCount_eq_zero_of_ge keyAt 256 hkey _ k (by omega)
          have hsp : lsdB (fun t2 => lsdCnt keyAt S t2) T t k +
              lsdCnt keyAt S t k ≤
              exclScan (fun k2 => ∑ t2 ∈ Finset.range T, lsdCnt keyAt S t2 k2)
                (k + 1) :=
            (lsdB_span _ T hT t (by omega) k).2
          rw [hkc] at hsp
          have hle := exclScan_lsdTot_le keyAt hkey S hmono T (k + 1)
          have hgoal : lsdB (fun t2 => lsdCnt keyAt S t2) T t k +
              keyCount keyAt (List.range' (S t) (S (t + 1) - S t)) k ≤
              a.length := by
            rw [hlen, ← hST]
            omega
          simpa using hgoal
        · exact absurd rfl hk
  exact hgen (List.range T) dst (fun t ht => List.mem_range.mp ht) rfl

/-- One depth-`d` pass of `radix_sort_prefix_par`: the per-element key byte
is read from the pre-filled `key_cache` array
(`key_cache[i] = reinterpret_cast<uint8_t*>(&key)[depth]`). -/
def lsdPass1 [Inhabited α] (kg : α → Nat) (T : Nat) (S : Nat → Nat) (d : Nat)
    (src dst : List α) : List α :=
  lsdDistribute (fun i => (src.map (fun v => byteOf (kg v) d)).getD i default)
    src T S dst

/-- One depth-`d` pass of `radix_sort_prefix_par_no_cache`: the key byte is
recomputed from the element on every access (`get_depth_key`). -/
def lsdPass2 [Inhabited α] (kg : α → Nat) (T : Nat) (S : Nat → Nat) (d : Nat)
    (src dst : List α) : List α :=
  lsdDistribute (fun i => byteOf (kg (src.getD i default)) d) src T S dst

/-- One depth-`d` pass of
`radix_sort_prefix_par_no_cache_write_back_buffer`: recomputed keys plus the
per-thread 256-element per-bucket local write-back caches. -/
def lsdPass3 [Inhabited α] (kg : α → Nat) (T : Nat) (S : Nat → Nat) (d : Nat)
    (src dst : List α) : List α :=
  lsdDistributeBuf (fun i => byteOf (kg (src.getD i default)) d) src T S dst

/-- One iteration of the `depth` loop: read from the buffer currently
holding the data (`begin_original`), write into the other
(`begin_cache`), then `std::swap(begin_original, begin_cache)`.  The state
is (first physical buffer, second physical buffer, flipped?). -/
def lsdStep [Inhabited α] (passF : Nat → List α → List α → List α)
    (st : List α × List α × Bool) (d : Nat) : List α × List α × Bool :=
  if st.2.2 then (passF d st.2.1 st.1, st.2.1, false)
  else (st.1, passF d st.1 st.2.1, true)

/-- A whole LSD sort: `w = size_of_key` passes starting from the data in
the first physical buffer, then `if (size_of_key & 1)` the result is copied
back from `data_cache`, so the output is the second buffer's content when
`w` is odd and the first buffer's content otherwise. -/
def lsdRun [Inhabited α] (passF : Nat → List α → List α → List α) (w : Nat)
    (o0 c0 : List α) : List α :=
  if w % 2 = 1 then ((List.range w).foldl (lsdStep passF) (o0, c0, false)).2.1
  else ((List.range w).foldl (lsdStep passF) (o0, c0, false)).1

theorem lsdPass2_spec [Inhabited α] (kg : α → Nat) (T : Nat) (S : Nat → Nat)
    (d : Nat) (src dst : List α) (hT : 1 ≤ T) (hS0 : S 0 = 0)
    (hmono : ∀ t, S t ≤ S (t + 1)) (hST : S T = src.length)
    (hdst : dst.length = src.length) :
    lsdPass2 kg T S d src dst = bucketJoin (fun v => byteOf (kg v) d) src 256 :=
  lsdDistribute_eq_bucketJoin kg d src dst T S hT hS0 hmono hST hdst

theorem lsdPass1_eq_lsdPass2 [Inhabited α] (kg : α → Nat) (T : Nat)
    (S : Nat → Nat) (d : Nat) (src dst : List α) (hT : 1 ≤ T)
    (hmono : ∀ t, S t ≤ S (t + 1)) (hST : S T = src.length) :
    lsdPass1 kg T S d src dst = lsdPass2 kg T S d src dst := by
  unfold lsdPass1 lsdPass2
  apply lsdDistribute_congr _ _ src T S dst hT hmono
  intro i hi
  rw [hST] at hi
  exact getD_map_lt (fun v => byteOf (kg v) d) src i hi

theorem lsdPass3_eq_lsdPass2 [Inhabited α] (kg : α → Nat) (T : Nat)
    (S : Nat → Nat) (d : Nat) (src dst : List α) (hT : 1 ≤ T)
    (hS0 : S 0 = 0) (hmono : ∀ t, S t ≤ S (t + 1)) (hST : S T = src.length)
    (hdst : dst.length = src.length) :
    lsdPass3 kg T S d src dst = lsdPass2 kg T S d src dst := by
  unfold lsdPass3 lsdPass2
  apply lsdDistributeBuf_eq _ src T S dst hT
    (fun i => byteOf_lt _ _) hmono hS0
  rw [hST, hdst]

def bucketJoinFrom (key : α → Nat) (l : List α) (m : Nat) : Nat → List α
  | 0 => []
  | q + 1 => bucketJoinFrom key l m q ++ keyFilter key l (m + q)

theorem bucketJoin_add (key : α → Nat) (l : List α) (m : Nat) :
    ∀ q, bucketJoin key l (m + q) =
      bucketJoin key l m ++ bucketJoinFrom key l m q := by
  intro q
  induction q with
  | zero => simp [bucketJoinFrom]
  | succ q ih =>
    have h1 : m + (q + 1) = (m + q) + 1 := by omega
    rw [h1, bucketJoin, ih, bucketJoinFrom, List.append_assoc]

theorem mod_byte_split (x d m r : Nat) (hm : m < 256) (hr : r < 256 ^ d) :
    (x % 256 ^ d = r ∧ byteOf x d = m) ↔
      x % 256 ^ (d + 1) = m * 256 ^ d + r := by
  have hP : 0 < 256 ^ d := pow_pos (by decide) d
  constructor
  · intro h
    obtain ⟨h1, h2⟩ := h
    have h2b : x / 256 ^ d % 256 = m := h2
    rw [pow_succ, Nat.mod_mul, h1, h2b, Nat.mul_comm]
    omega
  · intro hbig
    constructor
    · have h3 : x % 256 ^ d = x % (256 ^ d * 256) % 256 ^ d :=
        (Nat.mod_mod_of_dvd x ⟨256, rfl⟩).symm
      rw [h3, ← pow_succ, hbig, Nat.add_comm (m * 256 ^ d) r,
        Nat.add_mul_mod_self_right]
      exact Nat.mod_eq_of_lt hr
    · show x / 256 ^ d % 256 = m
      have h4 : x / 256 ^ d % 256 = x % (256 ^ d * 256) / 256 ^ d :=
        (Nat.mod_mul_right_div_self x (256 ^ d) 256).symm
      rw [h4, ← pow_succ, hbig, Nat.add_comm (m * 256 ^ d) r,
        Nat.add_mul_div_right r m hP, Nat.div_eq_of_lt hr]
      omega

theorem keyFilter_bucketJoin_byte (kg : α → Nat) (d m : Nat) (hm : m < 256)
    (l : List α) :
    ∀ r, r ≤ 256 ^ d →
      (bucketJoin (fun v => kg v % 256 ^ d) l r).filter
        (fun v => decide (byteOf (kg v) d = m)) =
      bucketJoinFrom (fun v => kg v % 256 ^ (d + 1)) l (m * 256 ^ d) r := by
  intro r
  induction r with
  | zero =>
    intro _
    rfl
  | succ r ih =>
    intro hr
    rw [bucketJoin, List.filter_append, ih (by omega), bucketJoinFrom]
    congr 1
    rw [keyFilter, keyFilter, List.filter_filter]
    apply List.filter_congr
    intro v _
    by_cases hbig : kg v % 256 ^ (d + 1) = m * 256 ^ d + r
    · obtain ⟨h1, h2⟩ := (mod_byte_split (kg v) d m r hm (by omega)).mpr hbig
      simp [h1, h2, hbig]
    · by_cases h1 : kg v % 256 ^ d = r
      · have h2 : ¬ byteOf (kg v) d = m := fun h2 =>
          hbig ((mod_byte_split (kg v) d m r hm (by omega)).mp ⟨h1, h2⟩)
        simp [h1, h2, hbig]
      · simp [h1, hbig]

/-- Composing one LSD byte pass on top of a sort by the low `d` bytes
yields a sort by the low `d + 1` bytes. -/
theorem bucketJoin_compose (kg : α → Nat) (d : Nat) (l : List α) :
    bucketJoin (fun v => byteOf (kg v) d)
        (bucketJoin (fun v => kg v % 256 ^ d) l (256 ^ d)) 256 =
      bucketJoin (fun v => kg v % 256 ^ (d + 1)) l (256 ^ (d + 1)) := by
  have hC : ∀ m, m ≤ 256 →
      bucketJoin (fun v => kg v % 256 ^ (d + 1)) l (m * 256 ^ d) =
      bucketJoin (fun v => byteOf (kg v) d)
        (bucketJoin (fun v => kg v % 256 ^ d) l (256 ^ d)) m := by
    intro m
    induction m with
    | zero =>
      intro _
      rw [Nat.zero_mul]
      rfl
    | succ m ih =>
      intro hm
      have hmul : (m + 1) * 256 ^ d = m * 256 ^ d + 256 ^ d := by ring
      rw [hmul, bucketJoin_add, ih (by omega), bucketJoin]
      congr 1
      exact (keyFilter_bucketJoin_byte kg d m (by omega) l (256 ^ d)
        (le_refl _)).symm
  have h256 := hC 256 (le_refl 256)
  have hpow : 256 * 256 ^ d = 256 ^ (d + 1) := by
    rw [pow_succ, Nat.mul_comm]
  rw [hpow] at h256
  exact h256.symm

theorem bucketJoin_mod_one (kg : α → Nat) (l : List α) :
    bucketJoin (fun v => kg v % 256 ^ 0) l (256 ^ 0) = l := by
  show bucketJoin (fun v => kg v % 256 ^ 0) l 1 = l
  rw [bucketJoin, bucketJoin, keyFilter]
  simp [Nat.mod_one]

theorem mem_bucketJoin (key : α → Nat) (l : List α) :
    ∀ r x, x ∈ bucketJoin key l r → x ∈ l ∧ key x < r := by
  intro r
  induction r with
  | zero =>
    intro x hx
    exact absurd hx (List.not_mem_nil x)
  | succ r ih =>
    intro x hx
    rw [bucketJoin, List.mem_append] at hx
    rcases hx with hx | hx
    · obtain ⟨h1, h2⟩ := ih x hx
      exact ⟨h1, by omega⟩
    · rw [keyFilter, List.mem_filter] at hx
      obtain ⟨h1, h2⟩ := hx
      simp only [decide_eq_true_eq] at h2
      exact ⟨h1, by omega⟩

theorem bucketJoin_congr_on (key1 key2 : α → Nat) (l : List α)
    (h : ∀ v ∈ l, key1 v = key2 v) :
    ∀ r, bucketJoin key1 l r = bucketJoin key2 l r := by
  intro r
  induction r with
  | zero => rfl
  | succ r ih =>
    rw [bucketJoin, bucketJoin, ih]
    congr 1
    rw [keyFilter, keyFilter]
    apply List.filter_congr
    intro v hv
    rw [h v hv]

theorem bucketJoin_pairwise (key : α → Nat) (l : List α) :
    ∀ r, (bucketJoin key l r).Pairwise (fun a b => key a ≤ key b) := by
  intro r
  induction r with
  | zero => exact List.Pairwise.nil
  | succ r ih =>
    rw [bucketJoin, List.pairwise_append]
    refine ⟨ih, ?_, ?_⟩
    · apply List.pairwise_of_forall_mem_list
      intro a ha b hb
      rw [keyFilter, List.mem_filter] at ha hb
      simp only [decide_eq_true_eq] at ha hb
      omega
    · intro a ha b hb
      have h1 := (mem_bucketJoin key l r a ha).2
      rw [keyFilter, List.mem_filter] at hb
      simp only [decide_eq_true_eq] at hb
      omega

theorem lsdStep_false [Inhabited α] (passF : Nat → List α → List α → List α)
    (p1 p2 : List α) (d : Nat) :
    lsdStep passF (p1, p2, false) d = (p1, passF d p1 p2, true) := rfl

theorem lsdStep_true [Inhabited α] (passF : Nat → List α → List α → List α)
    (p1 p2 : List α) (d : Nat) :
    lsdStep passF (p1, p2, true) d = (passF d p2 p1, p2, false) := rfl

/-- Running `w` byte passes (each a stable bucket sort of its source by
byte `d`) through the swap-buffer loop and the final odd-width copy-back
yields the stable bucket sort of the input by the low `w` bytes. -/
theorem lsdRun_spec [Inhabited α] (kg : α → Nat)
    (passF : Nat → List α → List α → List α) (n : Nat)
    (hpass : ∀ d (src dst : List α), src.length = n → dst.length = n →
      passF d src dst = bucketJoin (fun v => byteOf (kg v) d) src 256)
    (l0 c0 : List α) (hl0 : l0.length = n) (hc0 : c0.length = n) (w : Nat) :
    lsdRun passF w l0 c0 = bucketJoin (fun v => kg v % 256 ^ w) l0 (256 ^ w) := by
  have hBJlen : ∀ d : Nat,
      (bucketJoin (fun v => kg v % 256 ^ d) l0 (256 ^ d)).length = n := by
    intro d
    have hperm := perm_bucketJoin (fun v => kg v % 256 ^ d) l0 (256 ^ d)
      (fun v _ => Nat.mod_lt _ (pow_pos (by decide) d))
    rw [← hperm.length_eq]
    exact hl0
  have hinv : ∀ d : Nat,
      (((List.range d).foldl (lsdStep passF) (l0, c0, false)).2.2 =
        decide (d % 2 = 1)) ∧
      (((List.range d).foldl (lsdStep passF) (l0, c0, false)).2.2 = true →
        ((List.range d).foldl (lsdStep passF) (l0, c0, false)).2.1 =
          bucketJoin (fun v => kg v % 256 ^ d) l0 (256 ^ d) ∧
        ((List.range d).foldl (lsdStep passF) (l0, c0, false)).1.length = n) ∧
      (((List.range d).foldl (lsdStep passF) (l0, c0, false)).2.2 = false →
        ((List.range d).foldl (lsdStep passF) (l0, c0, false)).1 =
          bucketJoin (fun v => kg v % 256 ^ d) l0 (256 ^ d) ∧
        ((List.range d).foldl (lsdStep passF) (l0, c0, false)).2.1.length = n) := by
    intro d
    induction d with
    | zero =>
      refine ⟨rfl, ?_, ?_⟩
      · intro h
        exact absurd h (by simp)
      · intro _
        exact ⟨(bucketJoin_mod_one kg l0).symm, hc0⟩
    | succ d ih =>
      obtain ⟨hflag, htrue, hfalse⟩ := ih
      rcases hE : (List.range d).foldl (lsdStep passF) (l0, c0, false) with
        ⟨p1, p2, fl⟩
      rw [hE] at hflag htrue hfalse
      rw [List.range_succ, List.foldl_append, List.foldl_cons, List.foldl_nil,
        hE]
      cases fl with
      | false =>
        rw [lsdStep_false]
        have hdpar : decide (d % 2 = 1) = false := hflag.symm
        have hd2 : d % 2 = 0 := by
          have := of_decide_eq_false hdpar
          omega
        obtain ⟨hdata0, hother⟩ := hfalse rfl
        have hdata : p1 = bucketJoin (fun v => kg v % 256 ^ d) l0 (256 ^ d) :=
          hdata0
        have hp1len : p1.length = n := by
          rw [hdata]
          exact hBJlen d
        have hp2len : p2.length = n := hother
        refine ⟨?_, ?_, ?_⟩
        · have h1 : (d + 1) % 2 = 1 := by omega
          rw [h1]
          rfl
        · intro _
          constructor
          · show passF d p1 p2 = _
            rw [hpass d p1 p2 hp1len hp2len, hdata, bucketJoin_compose]
          · exact hp1len
        · intro h
          exact absurd h (by simp)
      | true =>
        rw [lsdStep_true]
        have hdpar : decide (d % 2 = 1) = true := hflag.symm
        have hd2 : d % 2 = 1 := of_decide_eq_true hdpar
        obtain ⟨hdata0, hother⟩ := htrue rfl
        have hdata : p2 = bucketJoin (fun v => kg v % 256 ^ d) l0 (256 ^ d) :=
          hdata0
        have hp2len : p2.length = n := by
          rw [hdata]
          exact hBJlen d
        have hp1len : p1.length = n := hother
        refine ⟨?_, ?_, ?_⟩
        · have h1 : (d + 1) % 2 = 0 := by omega
          rw [h1]
          rfl
        · intro h
          exact absurd h (by simp)
        · intro _
          constructor
          · show passF d p2 p1 = _
            rw [hpass d p2 p1 hp2len hp1len, hdata, bucketJoin_compose]
          · exact hp2len
  obtain ⟨hflag, htrue, hfalse⟩ := hinv w
  by_cases hw : w % 2 = 1
  · unfold lsdRun
    rw [if_pos hw]
    have hfl : ((List.range w).foldl (lsdStep passF) (l0, c0, false)).2.2 =
        true := by
      rw [hflag]
      simp [hw]
    exact (htrue hfl).1
  · unfold lsdRun
    rw [if_neg hw]
    have hfl : ((List.range w).foldl (lsdStep passF) (l0, c0, false)).2.2 =
        false := by
      rw [hflag]
      simp [hw]
    exact (hfalse hfl).1

/-- `radix_sort_prefix_par`: `size_of_key` LSD passes, key bytes read from
the pre-filled `key_cache`. -/
def radix_sort_prefix_par [Inhabited α] (kg : α → Nat) (w T : Nat)
    (S : Nat → Nat) (l0 c0 : List α) : List α :=
  lsdRun (lsdPass1 kg T S) w l0 c0

/-- `radix_sort_prefix_par_no_cache`: key bytes recomputed on demand. -/
def radix_sort_prefix_par_no_cache [Inhabited α] (kg : α → Nat) (w T : Nat)
    (S : Nat → Nat) (l0 c0 : List α) : List α :=
  lsdRun (lsdPass2 kg T S) w l0 c0

/-- `radix_sort_prefix_par_no_cache_write_back_buffer`: recomputed keys and
per-thread local write-back buffers. -/
def radix_sort_prefix_par_no_cache_write_back_buffer [Inhabited α]
    (kg : α → Nat) (w T : Nat) (S : Nat → Nat) (l0 c0 : List α) : List α :=
  lsdRun (lsdPass3 kg T S) w l0 c0

/-- C8: for every input range and key getter (any thread count `T ≥ 1` with
any OpenMP `schedule(static)` chunking `S`, any cache buffer of the same
length, and keys fitting in the `w = size_of_key` bytes), the three LSD
implementations `radix_sort_prefix_par` (key cache),
`radix_sort_prefix_par_no_cache` (recomputed keys) and
`radix_sort_prefix_par_no_cache_write_back_buffer` (per-thread write-back
buffer) leave the range with identical final contents, equal to the input
sorted non-decreasingly by the full key: the common result is a permutation
of the input that is pairwise non-decreasing under `kg`. -/
theorem lsd_three_variants_equiv [Inhabited α] (kg : α → Nat) (w T : Nat)
    (S : Nat → Nat) (l0 c0 : List α) (hT : 1 ≤ T) (hS0 : S 0 = 0)
    (hmono : ∀ t, S t ≤ S (t + 1)) (hST : S T = l0.length)
    (hc0 : c0.length = l0.length) (hbound : ∀ v ∈ l0, kg v < 256 ^ w) :
    radix_sort_prefix_par kg w T S l0 c0 =
      radix_sort_prefix_par_no_cache_write_back_buffer kg w T S l0 c0 ∧
    radix_sort_prefix_par_no_cache kg w T S l0 c0 =
      radix_sort_prefix_par_no_cache_write_back_buffer kg w T S l0 c0 ∧
    List.Perm l0 (radix_sort_prefix_par_no_cache_write_back_buffer
      kg w T S l0 c0) ∧
    (radix_sort_prefix_par_no_cache_write_back_buffer kg w T S l0 c0).Pairwise
      (fun a b => kg a ≤ kg b) := by
  have hpass2 : ∀ d (src dst : List α), src.length = l0.length →
      dst.length = l0.length →
      lsdPass2 kg T S d src dst = bucketJoin (fun v => byteOf (kg v) d) src 256 := by
    intro d src dst hs hd
    exact lsdPass2_spec kg T S d src dst hT hS0 hmono (by rw [hST, hs])
      (by rw [hd, hs])
  have hpass1 : ∀ d (src dst : List α), src.length = l0.length →
      dst.length = l0.length →
      lsdPass1 kg T S d src dst = bucketJoin (fun v => byteOf (kg v) d) src 256 := by
    intro d src dst hs hd
    rw [lsdPass1_eq_lsdPass2 kg T S d src dst hT hmono (by rw [hST, hs])]
    exact hpass2 d src dst hs hd
  have hpass3 : ∀ d (src dst : List α), src.length = l0.length →
      dst.length = l0.length →
      lsdPass3 kg T S d src dst = bucketJoin (fun v => byteOf (kg v) d) src 256 := by
    intro d src dst hs hd
    rw [lsdPass3_eq_lsdPass2 kg T S d src dst hT hS0 hmono (by rw [hST, hs])
      (by rw [hd, hs])]
    exact hpass2 d src dst hs hd
  have h1 : radix_sort_prefix_par kg w T S l0 c0 =
      bucketJoin (fun v => kg v % 256 ^ w) l0 (256 ^ w) :=
    lsdRun_spec kg (lsdPass1 kg T S) l0.length hpass1 l0 c0 rfl hc0 w
  have h2 : radix_sort_prefix_par_no_cache kg w T S l0 c0 =
      bucketJoin (fun v => kg v % 256 ^ w) l0 (256 ^ w) :=
    lsdRun_spec kg (lsdPass2 kg T S) l0.length hpass2 l0 c0 rfl hc0 w
  have h3 : radix_sort_prefix_par_no_cache_write_back_buffer kg w T S l0 c0 =
      bucketJoin (fun v => kg v % 256 ^ w) l0 (256 ^ w) :=
    lsdRun_spec kg (lsdPass3 kg T S) l0.length hpass3 l0 c0 rfl hc0 w
  have hkgform : bucketJoin (fun v => kg v % 256 ^ w) l0 (256 ^ w) =
      bucketJoin kg l0 (256 ^ w) :=
    bucketJoin_congr_on _ kg l0
      (fun v hv => Nat.mod_eq_of_lt (hbound v hv)) (256 ^ w)
  refine ⟨by rw [h1, h3], by rw [h2, h3], ?_, ?_⟩
  · rw [h3, hkgform]
    exact perm_bucketJoin kg l0 (256 ^ w) hbound
  · rw [h3, hkgform]
    exact bucketJoin_pairwise kg l0 (256 ^ w)

theorem lsd_three_variants_equiv_witness :
    radix_sort_prefix_par (fun v : Nat => v) 2 2 (fun t => 3 * t)
        [770, 3, 259, 514, 2, 1] [0, 0, 0, 0, 0, 0] =
      radix_sort_prefix_par_no_cache_write_back_buffer (fun v : Nat => v) 2 2
        (fun t => 3 * t) [770, 3, 259, 514, 2, 1] [0, 0, 0, 0, 0, 0] ∧
    radix_sort_prefix_par_no_cache (fun v : Nat => v) 2 2 (fun t => 3 * t)
        [770, 3, 259, 514, 2, 1] [0, 0, 0, 0, 0, 0] =
      radix_sort_prefix_par_no_cache_write_back_buffer (fun v : Nat => v) 2 2
        (fun t => 3 * t) [770, 3, 259, 514, 2, 1] [0, 0, 0, 0, 0, 0] ∧
    List.Perm [770, 3, 259, 514, 2, 1]
      (radix_sort_prefix_par_no_cache_write_back_buffer (fun v : Nat => v) 2 2
        (fun t => 3 * t) [770, 3, 259, 514, 2, 1] [0, 0, 0, 0, 0, 0]) ∧
    (radix_sort_prefix_par_no_cache_write_back_buffer (fun v : Nat => v) 2 2
        (fun t => 3 * t) [770, 3, 259, 514, 2, 1] [0, 0, 0, 0, 0, 0]).Pairwise
      (fun a b => (fun v : Nat => v) a ≤ (fun v : Nat => v) b) :=
  lsd_three_variants_equiv (fun v : Nat => v) 2 2 (fun t => 3 * t)
    [770, 3, 259, 514, 2, 1] [0, 0, 0, 0, 0, 0] (by decide) rfl
    (fun t => by show 3 * t ≤ 3 * (t + 1); omega) rfl rfl (by decide)

/-- `radix_sort_prefix_par_no_cache_write_back_buffer` guarded by its
`static_assert(sizeof(data_type) <= 16, ...)`: instantiating the template at
an element type of size `s` compiles (and then runs the unguarded
redistribution) exactly when `s ≤ 16`; a too-large type is rejected before
any run-time work, modeled as `none`. -/
def wbbSort [Inhabited α] (s : Nat) (kg : α → Nat) (w T : Nat)
    (S : Nat → Nat) (l0 c0 : List α) : Option (List α) :=
  if s ≤ 16 then
    some (radix_sort_prefix_par_no_cache_write_back_buffer kg w T S l0 c0)
  else none

/-- C9: in the write-back-buffer LSD variant, an element type whose size
exceeds the 16 supported bytes of the per-thread local buffer is rejected by
the static check before any run-time work (`none`), and for every element
size of at most 16 bytes the check passes and the sort runs; the executed
redistribution `radix_sort_prefix_par_no_cache_write_back_buffer` is a total
function that does not receive the element size at all, so there is no
run-time capacity check: for accepted sizes the result is independent of the
size. -/
theorem wbb_static_assert_spec [Inhabited α] (s : Nat) (kg : α → Nat)
    (w T : Nat) (S : Nat → Nat) (l0 c0 : List α) :
    (wbbSort s kg w T S l0 c0 = none ↔ 16 < s) ∧
    (s ≤ 16 → wbbSort s kg w T S l0 c0 =
      some (radix_sort_prefix_par_no_cache_write_back_buffer kg w T S l0 c0)) ∧
    (∀ s2, s ≤ 16 → s2 ≤ 16 →
      wbbSort s kg w T S l0 c0 = wbbSort s2 kg w T S l0 c0) := by
  refine ⟨?_, ?_, ?_⟩
  · unfold wbbSort
    by_cases h : s ≤ 16
    · rw [if_pos h]
      constructor
      · intro hnone
        exact absurd hnone (by simp)
      · intro hgt
        omega
    · rw [if_neg h]
      constructor
      · intro _
        omega
      · intro _
        rfl
  · intro h
    unfold wbbSort
    rw [if_pos h]
  · intro s2 h h2
    unfold wbbSort
    rw [if_pos h, if_pos h2]

theorem wbb_static_assert_spec_witness :
    wbbSort 8 (fun v : Nat => v) 1 1 (fun t => 4 * t) [3, 1, 2, 0]
        [0, 0, 0, 0] =
      some (radix_sort_prefix_par_no_cache_write_back_buffer
        (fun v : Nat => v) 1 1 (fun t => 4 * t) [3, 1, 2, 0] [0, 0, 0, 0]) ∧
    wbbSort 24 (fun v : Nat => v) 1 1 (fun t => 4 * t) [3, 1, 2, 0]
        [0, 0, 0, 0] = none :=
  ⟨(wbb_static_assert_spec 8 (fun v : Nat => v) 1 1 (fun t => 4 * t)
      [3, 1, 2, 0] [0, 0, 0, 0]).2.1 (by decide),
    (wbb_static_assert_spec 24 (fun v : Nat => v) 1 1 (fun t => 4 * t)
      [3, 1, 2, 0] [0, 0, 0, 0]).1.mpr (by decide)⟩

end PRS


